import Mathlib

/-!
The cache engine and the two-level domain cache of dnscache-tm:
a shallow embedding of `cache.c` and `domain_cache.c`.

* The arena `x` is a map from byte offsets to byte values.
* `uint32` arithmetic is arithmetic on `Nat` reduced modulo `2^32`.
* A call that reaches `cache_impossible` (`_exit(111)`) yields `Res.fatal`;
  a dereference of a handle that names no allocated `struct domain_cache`,
  or a copy that overruns a `char [MAXKEYLEN]` buffer, yields `Res.undefined`.
* The clock (`tai_now`) is a parameter `now` of every operation that reads it.
-/

namespace DnsCache

/-! ## Outcomes -/

/-- Outcome of a call: a value, the fatal exit of `cache_impossible`,
undefined behaviour, or an exhausted iteration budget of the model. -/
inductive Res (α : Type) where
  | ok (a : α) : Res α
  | fatal : Res α
  | undefined : Res α
  | timeout : Res α
  deriving DecidableEq, Repr

/-- Sequencing of outcomes: the first failure is the outcome. -/
def Res.bind {α β : Type} (r : Res α) (f : α → Res β) : Res β :=
  match r with
  | .ok a => f a
  | .fatal => .fatal
  | .undefined => .undefined
  | .timeout => .timeout

instance : Monad Res where
  pure := Res.ok
  bind := Res.bind

/-- A byte. -/
abbrev Byte := Fin 256

/-- C `uint32` truncation. -/
def u32 (n : Nat) : Nat := n % 4294967296

/-- C `uint32` subtraction. -/
def sub32 (a b : Nat) : Nat := (a + 4294967296 - b % 4294967296) % 4294967296

def MAXKEYLEN : Nat := 1000
def MAXDATALEN : Nat := 1000000
def MAXTTL : Nat := 604800

/-! ## State of one engine

The static variables of `cache.c`, which are also the fields of
`struct domain_cache`. -/

structure Cache where
  x : Nat → Nat
  size : Nat
  hsize : Nat
  writer : Nat
  oldest : Nat
  unused : Nat
  cache_motion : Nat

/-! ## Library helpers used by the engine -/

/-- Modelled from the spec: `uint32_unpack` is not in the sources; it reads a
4-byte number, least significant byte first. -/
def uint32_unpack (x : Nat → Nat) (pos : Nat) : Nat :=
  x pos + 256 * x (pos + 1) + 65536 * x (pos + 2) + 16777216 * x (pos + 3)

/-- Modelled from the spec: `uint32_pack` is not in the sources; it stores a
4-byte number, least significant byte first. -/
def uint32_pack (x : Nat → Nat) (pos u : Nat) : Nat → Nat := fun a =>
  if a = pos then u % 256
  else if a = pos + 1 then u / 256 % 256
  else if a = pos + 2 then u / 65536 % 256
  else if a = pos + 3 then u / 16777216 % 256
  else x a

/-- Modelled from the spec: `tai_unpack` is not in the sources; the 8-byte
absolute expiry timestamp is read most significant byte first. -/
def tai_unpack (x : Nat → Nat) (pos : Nat) : Nat :=
  ((((((x pos * 256 + x (pos + 1)) * 256 + x (pos + 2)) * 256 + x (pos + 3)) * 256
    + x (pos + 4)) * 256 + x (pos + 5)) * 256 + x (pos + 6)) * 256 + x (pos + 7)

/-- Modelled from the spec: `tai_pack` is not in the sources; the 8-byte
absolute expiry timestamp is stored most significant byte first. -/
def tai_pack (x : Nat → Nat) (pos t : Nat) : Nat → Nat := fun a =>
  if a = pos then t / 72057594037927936 % 256
  else if a = pos + 1 then t / 281474976710656 % 256
  else if a = pos + 2 then t / 1099511627776 % 256
  else if a = pos + 3 then t / 4294967296 % 256
  else if a = pos + 4 then t / 16777216 % 256
  else if a = pos + 5 then t / 65536 % 256
  else if a = pos + 6 then t / 256 % 256
  else if a = pos + 7 then t % 256
  else x a

/-- Modelled from the spec: `tai_add` on `tai_uint` is not in the sources;
the expiry is the 64-bit sum of the clock and the ttl. -/
def tai_add (a b : Nat) : Nat := (a + b) % 18446744073709551616

/-- Modelled from the spec: `tai_sub` is not in the sources; 64-bit
difference of two timestamps. -/
def tai_sub (a b : Nat) : Nat :=
  (a + 18446744073709551616 - b % 18446744073709551616) % 18446744073709551616

/-- Modelled from the spec: `byte_copy` is not in the sources; it stores the
bytes of `src` at `pos`, `pos + 1`, ... -/
def byte_copy (x : Nat → Nat) (pos : Nat) (src : List Byte) : Nat → Nat := fun a =>
  if h : pos ≤ a ∧ a - pos < src.length then (src.get ⟨a - pos, h.2⟩).val else x a

/-- Modelled from the spec: `byte_equal` is not in the sources; it compares
the bytes of `key` with the bytes stored at `pos`, `pos + 1`, ... -/
def byte_equal (key : List Byte) (x : Nat → Nat) (pos : Nat) : Bool :=
  match key with
  | [] => true
  | b :: rest => decide (x pos = b.val) && byte_equal rest x (pos + 1)

/-- The bytes a caller reads through a returned pointer and length. -/
def byte_read (x : Nat → Nat) (pos len : Nat) : List Nat :=
  (List.range len).map (fun i => x (pos + i))

/-! ## cache.c -/

/-- Source `set4`: bounds check against `size - 4`, then `uint32_pack`. -/
def set4 (s : Cache) (pos u : Nat) : Res Cache :=
  if pos > sub32 s.size 4 then .fatal
  else .ok { s with x := uint32_pack s.x pos u }

/-- Source `get4`: bounds check against `size - 4`, then `uint32_unpack`. -/
def get4 (s : Cache) (pos : Nat) : Res Nat :=
  if pos > sub32 s.size 4 then .fatal
  else .ok (uint32_unpack s.x pos)

/-- The loop of source `hash`: `result = (result << 5) + result; result ^= byte`. -/
def hashLoop (result : Nat) (key : List Byte) : Nat :=
  match key with
  | [] => result
  | b :: rest => hashLoop (u32 (u32 (result * 32) + result) ^^^ b.val) rest

/-- Source `hash`: the running hash, shifted left by 2 and masked with
`hsize - 4`. -/
def hash (hsize : Nat) (key : List Byte) : Nat :=
  u32 (hashLoop 5381 key * 4) &&& sub32 hsize 4

/-- The result of a hit of `cache_get`: the offset of the returned pointer in
the arena, `*datalen` and `*ttl`. -/
structure Hit where
  off : Nat
  datalen : Nat
  ttl : Nat
  deriving DecidableEq, Repr

/-- The `while (pos)` loop of source `cache_get`.  The first argument counts
the iterations still allowed by `if (++loop > 100) return 0`: the call starts
with 101, and the loop returns a miss when none is left. -/
def cache_get_loop (s : Cache) (now : Nat) (key : List Byte) :
    Nat → Nat → Nat → Res (Option Hit)
  | 0, _, _ => .ok none
  | n + 1, prevpos, pos =>
    if pos = 0 then .ok none
    else
      let next : Res (Option Hit) := do
        let l ← get4 s pos
        cache_get_loop s now key n pos (prevpos ^^^ l)
      do
        let kl ← get4 s (u32 (pos + 4))
        if kl = key.length then
          if u32 (pos + 20 + key.length) > s.size then .fatal
          else if byte_equal key s.x (pos + 20) then
            let expire := tai_unpack s.x (pos + 12)
            if expire < now then .ok none
            else do
              let d := tai_sub expire now
              let ttl := if d > 604800 then 604800 else d
              let u ← get4 s (u32 (pos + 8))
              if u > sub32 (sub32 (sub32 s.size pos) 20) key.length then .fatal
              else .ok (some { off := pos + 20 + key.length, datalen := u, ttl := ttl })
          else next
        else next

/-- Source `cache_get`. -/
def cache_get (s : Cache) (now : Nat) (key : List Byte) : Res (Option Hit) :=
  if key.length > MAXKEYLEN then .ok none
  else do
    let prevpos := hash s.hsize key
    let pos ← get4 s prevpos
    cache_get_loop s now key 101 prevpos pos

/-- The statements `unused = writer; oldest = hsize; writer = hsize;` of source
`cache_set`, run when `oldest == unused` at the head of the loop body. -/
def cache_set_wrap (s : Cache) : Cache :=
  if s.oldest = s.unused then
    { s with unused := s.writer, oldest := s.hsize, writer := s.hsize }
  else s

/-- The rest of the loop body of source `cache_set`: unlink the entry at
`oldest`, advance `oldest` past it, and reset `oldest` and `unused` to `size`
when `oldest` has reached `unused`. -/
def cache_set_evict (s : Cache) : Res Cache := do
  let pos ← get4 s s.oldest
  let l ← get4 s pos
  let s2 ← set4 s pos (l ^^^ s.oldest)
  let kl ← get4 s2 (u32 (s2.oldest + 4))
  let dl ← get4 s2 (u32 (s2.oldest + 8))
  let oldest := u32 (s2.oldest + u32 (u32 (kl + dl) + 20))
  if oldest > s2.unused then .fatal
  else if oldest = s2.unused then .ok { s2 with unused := s2.size, oldest := s2.size }
  else .ok { s2 with oldest := oldest }

/-- The `while (writer + entrylen > oldest)` loop of source `cache_set`.  The
first argument is the iteration budget of the model.  The boolean of the
result is false when the loop left through `if (writer <= hsize) return`. -/
def cache_set_loop : Nat → Cache → Nat → Res (Bool × Cache)
  | 0, _, _ => .timeout
  | n + 1, s, entrylen =>
    if u32 (s.writer + entrylen) > s.oldest then
      if s.oldest = s.unused ∧ s.writer ≤ s.hsize then .ok (false, s)
      else do
        let s1 ← cache_set_evict (cache_set_wrap s)
        cache_set_loop n s1 entrylen
    else .ok (true, s)

/-- The statements of source `cache_set` after the loop: link the new entry
in front of its bucket chain and store it at `writer`. -/
def cache_set_write (s : Cache) (now : Nat) (key data : List Byte) (ttl entrylen : Nat) :
    Res Cache := do
  let keyhash := hash s.hsize key
  let expire := tai_add ttl now
  let pos ← get4 s keyhash
  let s2 ← (if pos ≠ 0 then do
              let l ← get4 s pos
              set4 s pos (l ^^^ keyhash ^^^ s.writer)
            else .ok s)
  let s3 ← set4 s2 s2.writer (pos ^^^ keyhash)
  let s4 ← set4 s3 (u32 (s3.writer + 4)) key.length
  let s5 ← set4 s4 (u32 (s4.writer + 8)) data.length
  let x6 := tai_pack s5.x (s5.writer + 12) expire
  let x7 := byte_copy x6 (s5.writer + 20) key
  let x8 := byte_copy x7 (s5.writer + 20 + key.length) data
  let s9 ← set4 { s5 with x := x8 } keyhash s5.writer
  .ok { s9 with writer := u32 (s9.writer + entrylen),
                cache_motion := (s9.cache_motion + entrylen) % 18446744073709551616 }

/-- Source `cache_set`.  The eviction loop is given `size` iterations. -/
def cache_set (s : Cache) (now : Nat) (key data : List Byte) (ttl : Nat) : Res Cache :=
  if key.length > MAXKEYLEN then .ok s
  else if data.length > MAXDATALEN then .ok s
  else if ttl = 0 then .ok s
  else do
    let ttl := if ttl > 604800 then 604800 else ttl
    let entrylen := u32 (key.length + data.length + 20)
    let (go, s1) ← cache_set_loop s.size s entrylen
    if go = false then .ok s1
    else cache_set_write s1 now key data ttl entrylen

/-- Source `cache_del`: the new state and the returned `int`. -/
def cache_del (s : Cache) (key : List Byte) : Res (Cache × Nat) :=
  if key.length > MAXKEYLEN then .ok (s, 0)
  else do
    let keyhash := hash s.hsize key
    let pos ← get4 s keyhash
    if pos ≠ 0 then do
      let l ← get4 s pos
      let prevpos := l ^^^ keyhash
      let s1 ← set4 s keyhash prevpos
      let s2 ← (if prevpos ≠ 0 then do
                  let l2 ← get4 s1 prevpos
                  set4 s1 prevpos (l2 ^^^ keyhash ^^^ pos)
                else .ok s1)
      .ok (s2, 1)
    else .ok (s, 0)

/-- The loop `while (hsize <= (size >> 5)) hsize <<= 1` of source
`cache_init`, with an iteration budget. -/
def hsize_loop : Nat → Nat → Nat → Nat
  | 0, _, hsize => hsize
  | n + 1, size, hsize =>
    if hsize ≤ size / 32 then hsize_loop n size (u32 (hsize * 2)) else hsize

/-- Source `cache_init` with a successful allocation of a zeroed arena. -/
def cache_init (cachesize : Nat) : Cache :=
  let cachesize := if cachesize > 1000000000 then 1000000000 else cachesize
  let cachesize := if cachesize < 100 then 100 else cachesize
  let hsize := hsize_loop 32 cachesize 4
  { x := fun _ => 0, size := cachesize, hsize := hsize, writer := hsize,
    oldest := cachesize, unused := cachesize, cache_motion := 0 }

/-! ## domain_cache.c

`domain_cache.c` repeats the text of `cache.c` with every static variable read
through the `struct domain_cache *dc` argument, so every function below is the
corresponding function of `cache.c` applied to the fields of `*dc`.  The test
`!dc || !dc->x` is made by the caller in the model (`deref`). -/

/-- Source `domain_cache_get`. -/
def domain_cache_get (dc : Cache) (now : Nat) (key : List Byte) : Res (Option Hit) :=
  cache_get dc now key

/-- Source `domain_cache_set`. -/
def domain_cache_set (dc : Cache) (now : Nat) (key data : List Byte) (ttl : Nat) : Res Cache :=
  cache_set dc now key data ttl

/-- Source `domain_cache_del`. -/
def domain_cache_del (dc : Cache) (key : List Byte) : Res (Cache × Nat) :=
  cache_del dc key

/-! ## The two-level functions of cache.c -/

/-- The process state seen by the two-level functions: the top-level engine
(the static variables of `cache.c`) and the allocated `struct domain_cache`
objects.  The object with handle `a` is `heap[a - 1]`; a released object
leaves `none` behind. -/
structure World where
  top : Cache
  heap : List (Option Cache)

/-- Modelled from the spec: `str_rchr` is not in the sources; this is its
scanning loop: the index of the last `c` before the terminating NUL, or the
index of the NUL when there is none.  The end of the list is the NUL. -/
def str_rchr_loop (c : Byte) : List Byte → Nat → Option Nat → Nat
  | [], t, u => u.getD t
  | ch :: rest, t, u =>
    if ch = 0 then u.getD t
    else str_rchr_loop c rest (t + 1) (if ch = c then some t else u)

/-- Modelled from the spec: `str_rchr(s, c)` on the string at the pointer
`s`, whose bytes up to the terminating NUL are `key` (the end of the list
stands for the NUL). -/
def str_rchr (key : List Byte) (c : Byte) : Nat := str_rchr_loop c key 0 none

/-- Modelled from the spec: `uint64_pack` is not in the sources; the 8-byte
opaque handle, least significant byte first. -/
def uint64_pack (u : Nat) : List Byte :=
  [Fin.ofNat u, Fin.ofNat (u / 256), Fin.ofNat (u / 65536), Fin.ofNat (u / 16777216),
   Fin.ofNat (u / 4294967296), Fin.ofNat (u / 1099511627776),
   Fin.ofNat (u / 281474976710656), Fin.ofNat (u / 72057594037927936)]

/-- Modelled from the spec: `uint64_unpack` is not in the sources; it reads
the 8-byte opaque handle, least significant byte first. -/
def uint64_unpack (x : Nat → Nat) (pos : Nat) : Nat :=
  x pos + 256 * x (pos + 1) + 65536 * x (pos + 2) + 16777216 * x (pos + 3)
  + 4294967296 * x (pos + 4) + 1099511627776 * x (pos + 5)
  + 281474976710656 * x (pos + 6) + 72057594037927936 * x (pos + 7)

/-- The statements of source `cache_get_domain_entry` that split `key` into
`(subdomain, domain)`.  The argument `key` holds the `keylen` bytes at the
pointer and `rest` the bytes that follow them in memory up to the terminating
NUL: `str_rchr(key,'.')` is given the pointer alone and scans all of them, and
`byte_copy` copies from the pointer.  A copy of more than `MAXKEYLEN` bytes
overruns its buffer. -/
def get_domain_split (key rest : List Byte) : Res (List Byte × List Byte) :=
  let keylen := key.length
  let i := str_rchr (key ++ rest) 46
  if i < sub32 keylen 1 then
    let domainlen := sub32 (sub32 keylen i) 1
    if i > MAXKEYLEN ∨ domainlen > MAXKEYLEN then .undefined
    else .ok ((key ++ rest).take i, ((key ++ rest).drop (i + 1)).take domainlen)
  else
    if i > MAXKEYLEN then .undefined
    else .ok ([], (key ++ rest).take i)

/-- The statements of source `cache_set_domain_entry` that split `key` into
`(subdomain, domain)`.  The argument `key` holds the `keylen` bytes at the
pointer and `rest` the bytes that follow them in memory up to the terminating
NUL: `str_rchr(key,'.')` is given the pointer alone and scans all of them, and
`byte_copy` copies from the pointer.  A copy of more than `MAXKEYLEN` bytes
overruns its buffer. -/
def set_domain_split (key rest : List Byte) : Res (List Byte × List Byte) :=
  let keylen := key.length
  let i := str_rchr (key ++ rest) 46
  if i < sub32 keylen 1 then
    let domainlen := sub32 (sub32 keylen i) 1
    if i > MAXKEYLEN ∨ domainlen > MAXKEYLEN then .undefined
    else .ok ((key ++ rest).take i, ((key ++ rest).drop (i + 1)).take domainlen)
  else
    if i > MAXKEYLEN then .undefined
    else .ok ([], (key ++ rest).take i)

/-- The cast `(struct domain_cache *) cache_address` followed by the test
`!dc || !dc->x` of the callee: `none` for the null handle, the object for a
handle of an allocated object, undefined behaviour for any other handle. -/
def deref (heap : List (Option Cache)) (addr : Nat) : Res (Option Cache) :=
  if addr = 0 then .ok none
  else match heap.get? (addr - 1) with
    | some (some dc) => .ok (some dc)
    | _ => .undefined

/-- Source `domain_cache_init` with the allocator made explicit.  The
argument `alloc_ok` tells whether `malloc` and `alloc` both return memory in
this call; when one of them returns 0, or no 64-bit handle is left, the
function returns the null handle 0.  Otherwise the new object is appended to
the heap and its handle returned. -/
def domain_cache_init (heap : List (Option Cache)) (cachesize : Nat) (alloc_ok : Bool) :
    List (Option Cache) × Nat :=
  if alloc_ok = true ∧ heap.length + 1 < 18446744073709551616 then
    (heap ++ [some (cache_init cachesize)], heap.length + 1)
  else (heap, 0)

/-- Source `domain_cache_delete`: releases the arena and the object. -/
def domain_cache_delete (heap : List (Option Cache)) (addr : Nat) :
    Res (List (Option Cache)) :=
  (deref heap addr).bind fun r =>
    match r with
    | none => .ok heap
    | some _ => .ok (heap.set (addr - 1) none)

/-- Source `cache_get_domain_entry`: `key` and `rest` are the bytes at the
key pointer (see `get_domain_split`); on a hit, the handle of the secondary
engine the returned pointer points into, and the hit in that engine. -/
def cache_get_domain_entry (w : World) (now : Nat) (key rest : List Byte) :
    Res (Option (Nat × Hit)) := do
  let (subdomain, domain) ← get_domain_split key rest
  if subdomain.length > 0 then do
    let res ← cache_get w.top now domain
    match res with
    | some h => do
      let cache_address := uint64_unpack w.top.x h.off
      let dc ← deref w.heap cache_address
      match dc with
      | none => .ok none
      | some dc => do
        let r ← domain_cache_get dc now subdomain
        match r with
        | some h2 => .ok (some (cache_address, h2))
        | none => .ok none
    | none => .ok none
  else .ok none

/-- The `if (res) ... else ...` statement of source `cache_set_domain_entry`:
the handle stored under `domain` when the top-level lookup hit, and otherwise
the handle of a new secondary engine of 10000 bytes, stored under `domain`
with the caller's ttl. -/
def domain_entry_handle (w : World) (now : Nat) (domain : List Byte) (ttl : Nat)
    (alloc_ok : Bool) (res : Option Hit) : Res (World × Nat) :=
  match res with
  | some h => .ok (w, uint64_unpack w.top.x h.off)
  | none =>
    let r := domain_cache_init w.heap 10000 alloc_ok
    (cache_set w.top now domain (uint64_pack r.2) ttl).bind fun top1 =>
      .ok ({ top := top1, heap := r.1 }, r.2)

/-- Source `cache_set_domain_entry`: `key` and `rest` are the bytes at the
key pointer (see `set_domain_split`), and `alloc_ok` the outcome of the
allocator should the call create a secondary engine. -/
def cache_set_domain_entry (w : World) (now : Nat) (key rest data : List Byte) (ttl : Nat)
    (alloc_ok : Bool) : Res World := do
  let (subdomain, domain) ← set_domain_split key rest
  let res ← cache_get w.top now domain
  let (w1, cache_address) ← domain_entry_handle w now domain ttl alloc_ok res
  if subdomain.length > 0 then do
    let dc ← deref w1.heap cache_address
    match dc with
    | none => .ok w1
    | some dc => do
      let dc1 ← domain_cache_set dc now subdomain data ttl
      .ok { w1 with heap := w1.heap.set (cache_address - 1) (some dc1) }
  else .ok w1

/-- Source `cache_del_subdomains`: the new state and the returned `int`. -/
def cache_del_subdomains (w : World) (now : Nat) (key : List Byte) : Res (World × Nat) := do
  let res ← cache_get w.top now key
  match res with
  | some h => do
    let cache_address := uint64_unpack w.top.x h.off
    let heap1 ← domain_cache_delete w.heap cache_address
    let (top1, r) ← cache_del w.top key
    .ok ({ top := top1, heap := heap1 }, r)
  | none => .ok (w, 0)

/-- The state after `cache_init(cachesize)`: no secondary engine exists. -/
def world_init (cachesize : Nat) : World :=
  { top := cache_init cachesize, heap := [] }

/-- The bytes of a string constant. -/
def str (s : String) : List Byte := s.toList.map fun c => Fin.ofNat c.toNat

/-- The bytes read through the result of `cache_get`. -/
def hit_data (s : Cache) (r : Option Hit) : Option (List Nat) :=
  r.map fun h => byte_read s.x h.off h.datalen

/-- The bytes read through the result of `cache_get_domain_entry`. -/
def domain_hit_data (w : World) (r : Option (Nat × Hit)) : Option (List Nat) :=
  match r with
  | none => none
  | some (addr, h) =>
    match w.heap.get? (addr - 1) with
    | some (some dc) => some (byte_read dc.x h.off h.datalen)
    | _ => none

end DnsCache

namespace DnsCache

/-! ## Reachable states and the region invariant -/

/-- States of one engine reachable from `cache_init` by calls of `cache_set`
and `cache_del` that return (`cache_get` leaves the state unchanged). -/
inductive Reach : Cache → Prop where
  | init (cachesize : Nat) : Reach (cache_init cachesize)
  | set {s s1 : Cache} (now : Nat) (key data : List Byte) (ttl : Nat) :
      Reach s → cache_set s now key data ttl = .ok s1 → Reach s1
  | del {s s1 : Cache} (key : List Byte) (r : Nat) :
      Reach s → cache_del s key = .ok (s1, r) → Reach s1

/-- The region invariant of the layout comment:
`hsize <= writer <= oldest <= unused <= size`, and
`oldest == unused` implies `unused == size`. -/
def RegionInv (s : Cache) : Prop :=
  s.hsize ≤ s.writer ∧ s.writer ≤ s.oldest ∧ s.oldest ≤ s.unused ∧ s.unused ≤ s.size ∧
  (s.oldest = s.unused → s.unused = s.size)

/-- The state of an engine after a call, when the call returned. -/
def Res.get {α : Type} (r : Res α) (dflt : α) : α :=
  match r with
  | .ok a => a
  | _ => dflt

/-- Invariant of the eviction loop on the scalars: all of the region
invariant except `writer <= oldest`, which the loop is restoring. -/
def LoopInv (s : Cache) : Prop :=
  s.hsize ≤ s.writer ∧ s.writer ≤ s.size ∧ s.oldest ≤ s.unused ∧ s.unused ≤ s.size ∧
  (s.oldest = s.unused → s.unused = s.size) ∧ s.size ≤ 1000000000

/-! ## Abstract model of one engine

The entries that are live in the arena, with the region scalars.  The
operations on it mirror the control flow of `cache.c`; the theorems below show
that the code simulates them on every state reachable by `cache_set`. -/

/-- A live entry: its offset in the arena, its key, its data and its expiry
timestamp. -/
structure Ent where
  pos : Nat
  key : List Byte
  data : List Byte
  expire : Nat
  deriving DecidableEq, Repr

/-- Length of an entry in the arena: `keylen + datalen + 20`. -/
def Ent.len (e : Ent) : Nat := e.key.length + e.data.length + 20

/-- Abstract state: the region scalars, the cache-motion counter, the live
entries of `[hsize, writer)` and the live entries of `[oldest, unused)`, each
list newest (highest offset) first. -/
structure Abs where
  size : Nat
  hsize : Nat
  writer : Nat
  oldest : Nat
  unused : Nat
  motion : Nat
  lo : List Ent
  hi : List Ent
  deriving Repr

/-- All live entries, newest first. -/
def Abs.all (a : Abs) : List Ent := a.lo ++ a.hi

/-- The live entries whose key hashes to head slot `h`, newest first. -/
def bucket (hsize h : Nat) (l : List Ent) : List Ent :=
  l.filter fun e => decide (hash hsize e.key = h)

/-- The bytes of `l` are stored at `pos`, `pos + 1`, ... -/
def bytes_at (x : Nat → Nat) (pos : Nat) (l : List Byte) : Prop :=
  ∀ i (h : i < l.length), x (pos + i) = (l.get ⟨i, h⟩).val

/-- Every field of the entry but its link is stored in the arena. -/
def Stored (x : Nat → Nat) (e : Ent) : Prop :=
  uint32_unpack x (e.pos + 4) = e.key.length ∧
  uint32_unpack x (e.pos + 8) = e.data.length ∧
  tai_unpack x (e.pos + 12) = e.expire ∧
  bytes_at x (e.pos + 20) e.key ∧
  bytes_at x (e.pos + 20 + e.key.length) e.data

/-- The entries of `l`, newest first, lie back to back from `top` down to
`bottom`. -/
def Tiles : Nat → Nat → List Ent → Prop
  | top, bottom, [] => top = bottom
  | top, bottom, e :: l => e.pos + e.len = top ∧ Tiles e.pos bottom l

/-- The xor-link rule along a list of positions: every item stores the xor
of the positions of its two neighbours, `prev` before the first item and 0
after the last one. -/
def Chain (m : Nat → Nat) : Nat → List Nat → Prop
  | _, [] => True
  | prev, p :: ps => m p = prev ^^^ ps.headD 0 ∧ Chain m p ps

/-- Two entries occupy disjoint ranges of the arena. -/
def Disj (e1 e2 : Ent) : Prop :=
  e1.pos + e1.len ≤ e2.pos ∨ e2.pos + e2.len ≤ e1.pos

/-- The offsets that hold a link: the head slots and the first word of every
live entry. -/
def LinkAddr (a : Abs) (q : Nat) : Prop :=
  (q % 4 = 0 ∧ q + 4 ≤ a.hsize) ∨ ∃ e ∈ a.all, e.pos = q

/-- Well-formed abstract state: the bounds of the layout comment and the
two runs of entries. -/
structure WF (a : Abs) : Prop where
  size_lo : 100 ≤ a.size
  size_hi : a.size ≤ 1000000000
  hsize_pow : ∃ k, a.hsize = 2 ^ k
  hsize_lo : 4 ≤ a.hsize
  le1 : a.hsize ≤ a.writer
  le2 : a.writer ≤ a.oldest
  le3 : a.oldest ≤ a.unused
  le4 : a.unused ≤ a.size
  wrap : a.oldest = a.unused → a.unused = a.size
  tiles_lo : Tiles a.writer a.hsize a.lo
  tiles_hi : Tiles a.unused a.oldest a.hi

/-- The arena represents the abstract state: same scalars, every live entry
stored, and every bucket chain linked by the xor rule from its head slot
through the entries of the bucket, newest first. -/
structure Rep (s : Cache) (a : Abs) : Prop where
  wf : WF a
  size_eq : s.size = a.size
  hsize_eq : s.hsize = a.hsize
  writer_eq : s.writer = a.writer
  oldest_eq : s.oldest = a.oldest
  unused_eq : s.unused = a.unused
  motion_eq : s.cache_motion = a.motion
  stored : ∀ e ∈ a.all, Stored s.x e
  chains : ∀ h, h % 4 = 0 → h + 4 ≤ a.hsize →
    Chain (uint32_unpack s.x) 0 (h :: (bucket a.hsize h a.all).map Ent.pos)

/-- The arena after the stores of the entry body at offset `w`: key length,
data length, expiry, key bytes and data bytes, in the order of `cache_set`. -/
def body_arena (x : Nat → Nat) (w : Nat) (key data : List Byte) (expire : Nat) : Nat → Nat :=
  byte_copy (byte_copy (tai_pack (uint32_pack (uint32_pack x (w + 4) key.length)
    (w + 8) data.length) (w + 12) expire) (w + 20) key) (w + 20 + key.length) data

/-- The arena after all the stores of `cache_set_write` for head slot `h` and
writer offset `w`. -/
def write_arena (x : Nat → Nat) (h w : Nat) (key data : List Byte) (expire : Nat) :
    Nat → Nat :=
  let pos := uint32_unpack x h
  let x2 := if pos ≠ 0 then uint32_pack x pos (uint32_unpack x pos ^^^ h ^^^ w) else x
  let x3 := uint32_pack x2 w (pos ^^^ h)
  uint32_pack (body_arena x3 w key data expire) h w

/-- Abstract `cache_set_wrap`. -/
def awrap (a : Abs) : Abs :=
  if a.oldest = a.unused then
    { a with unused := a.writer, oldest := a.hsize, writer := a.hsize, hi := a.lo, lo := [] }
  else a

/-- Abstract `cache_set_evict`: drop the oldest entry of `[oldest, unused)`. -/
def aevict (a : Abs) : Abs :=
  match a.hi.getLast? with
  | none => a
  | some o =>
    if o.pos + o.len = a.unused then
      { a with hi := a.hi.dropLast, unused := a.size, oldest := a.size }
    else { a with hi := a.hi.dropLast, oldest := o.pos + o.len }

/-- Abstract `cache_set_loop`, with the same iteration budget. -/
def aloop : Nat → Abs → Nat → Option (Bool × Abs)
  | 0, _, _ => none
  | n + 1, a, entrylen =>
    if a.writer + entrylen > a.oldest then
      if a.oldest = a.unused ∧ a.writer ≤ a.hsize then some (false, a)
      else aloop n (aevict (awrap a)) entrylen
    else some (true, a)

/-- Abstract `cache_set_write`. -/
def awrite (a : Abs) (now : Nat) (key data : List Byte) (ttl entrylen : Nat) : Abs :=
  { a with
    lo := { pos := a.writer, key := key, data := data, expire := tai_add ttl now } :: a.lo,
    writer := a.writer + entrylen,
    motion := (a.motion + entrylen) % 18446744073709551616 }

/-- Abstract `cache_set`. -/
def aset (a : Abs) (now : Nat) (key data : List Byte) (ttl : Nat) : Option Abs :=
  if key.length > MAXKEYLEN then some a
  else if data.length > MAXDATALEN then some a
  else if ttl = 0 then some a
  else
    let ttl := if ttl > 604800 then 604800 else ttl
    let entrylen := key.length + data.length + 20
    match aloop a.size a entrylen with
    | none => none
    | some (false, a1) => some a1
    | some (true, a1) => some (awrite a1 now key data ttl entrylen)

/-- The result of `cache_get` once the chain walk has stopped at entry `r`
(or at the end of the chain or the hop limit, `none`). -/
def ahit (now : Nat) (key : List Byte) (r : Option Ent) : Option Hit :=
  match r with
  | none => none
  | some e =>
    if e.expire < now then none
    else
      let d := tai_sub e.expire now
      some { off := e.pos + 20 + key.length, datalen := e.data.length,
             ttl := if d > 604800 then 604800 else d }

/-- Abstract `cache_get`: the first entry with this key among the first 101
entries of the bucket chain, unless it has expired. -/
def aget (a : Abs) (now : Nat) (key : List Byte) : Option Hit :=
  if key.length > MAXKEYLEN then none
  else
    ahit now key (((bucket a.hsize (hash a.hsize key) a.all).take 101).find?
      (fun e => decide (e.key = key)))

/-- Abstract `cache_init`. -/
def ainit (cachesize : Nat) : Abs :=
  { size := (cache_init cachesize).size, hsize := (cache_init cachesize).hsize,
    writer := (cache_init cachesize).hsize, oldest := (cache_init cachesize).size,
    unused := (cache_init cachesize).size, motion := 0, lo := [], hi := [] }

/-- States of one engine reachable from `cache_init` by calls of `cache_set`
that return. -/
inductive ReachSet : Cache → Prop where
  | init (cachesize : Nat) : ReachSet (cache_init cachesize)
  | set {s s1 : Cache} (now : Nat) (key data : List Byte) (ttl : Nat) :
      ReachSet s → cache_set s now key data ttl = .ok s1 → ReachSet s1

end DnsCache

namespace DnsCache

/-! ## Scenarios -/

/-- What a caller of `cache_get` observes: the bytes read through the
returned pointer and the remaining ttl, or `none` on a miss. -/
def observe_get (s : Cache) (now : Nat) (key : List Byte) : Res (Option (List Nat × Nat)) :=
  (cache_get s now key).bind fun r =>
    .ok (r.map fun h => (byte_read s.x h.off h.datalen, h.ttl))

/-- What a caller of `cache_get_domain_entry` observes: the bytes read
through the returned pointer, or `none` on a miss. -/
def observe_domain_get (w : World) (now : Nat) (key rest : List Byte) :
    Res (Option (List Nat)) :=
  (cache_get_domain_entry w now key rest).bind fun r => .ok (domain_hit_data w r)

/-- An engine of 100 bytes after `cache_set("a", "xyz")` at time 1000 with
ttl 10. -/
def engine_a : Cache :=
  (cache_set (cache_init 100) 1000 (str "a") (str "xyz") 10).get (cache_init 100)

/-- The engine `engine_a` after `cache_set("b", "uv")` at time 1000 with ttl
10; an engine of 100 bytes has one head slot, so both keys share the bucket,
and "b" is the newer entry. -/
def engine_ab : Cache :=
  (cache_set engine_a 1000 (str "b") (str "uv") 10).get (cache_init 100)

/-- The engine `engine_ab` after `cache_del("a")`. -/
def engine_ab_del : Cache :=
  ((cache_del engine_ab (str "a")).get (cache_init 100, 0)).1

/-- A run that ends in the fatal exit: on an engine of 100 bytes,
`cache_set("a", "")`, `cache_del("a")`, `cache_set("a", 50 bytes)`,
`cache_set("a", "")`, then `cache_get("b")`. -/
def fatal_run : Res (Option Hit) :=
  (cache_set (cache_init 100) 1000 (str "a") [] 10).bind fun s1 =>
  (cache_del s1 (str "a")).bind fun p =>
  (cache_set p.1 1000 (str "a") (List.replicate 50 7) 10).bind fun s3 =>
  (cache_set s3 1000 (str "a") [] 10).bind fun s4 =>
  cache_get s4 1000 (str "b")

/-- A two-level cache of 200 bytes (the size of the test program) after
`cache_set_domain_entry("a.b.example.com", "1.2.3.4", 86400)` at time 1000,
with the key passed as a NUL-terminated string and a successful allocation. -/
def world_example : World :=
  (cache_set_domain_entry (world_init 200) 1000 (str "a.b.example.com") [] (str "1.2.3.4")
    86400 true).get (world_init 200)

/-- A two-level cache of 100 bytes after `cache_set_domain_entry` of
"a.com" and then of "a.net" at time 1000 (keys passed as NUL-terminated
strings, successful allocations); the top-level engine has one head slot, so
the domains "com" and "net" share the bucket. -/
def world_com_net : World :=
  ((cache_set_domain_entry (world_init 100) 1000 (str "a.com") [] (str "1") 86400 true).bind
    fun w1 => cache_set_domain_entry w1 1000 (str "a.net") [] (str "2") 86400 true).get
      (world_init 100)

/-- A key whose subdomain part has 1001 bytes: 1001 times "a", then ".com". -/
def long_key : List Byte := List.replicate 1001 97 ++ str ".com"

/-- One call of `cache_set`: key, data, ttl and the clock at the call. -/
structure Ins where
  key : List Byte
  data : List Byte
  ttl : Nat
  now : Nat
  deriving DecidableEq, Repr

/-- The engine after the calls `cache_set(key, data, ttl)` of `items`, in
order. -/
def set_seq (s : Cache) : List Ins → Res Cache
  | [] => .ok s
  | it :: rest => (cache_set s it.now it.key it.data it.ttl).bind fun s1 => set_seq s1 rest

/-- Abstract `set_seq`. -/
def aset_seq (a : Abs) : List Ins → Option Abs
  | [] => some a
  | it :: rest => (aset a it.now it.key it.data it.ttl).bind fun a1 => aset_seq a1 rest

/-- Key, data and expiry of a live entry. -/
def Ent.view (e : Ent) : List Byte × List Byte × Nat := (e.key, e.data, e.expire)

/-- Key, data and expiry of the entry that a call of `cache_set` stores. -/
def Ins.view (it : Ins) : List Byte × List Byte × Nat :=
  (it.key, it.data, tai_add (if it.ttl > 604800 then 604800 else it.ttl) it.now)

/-- The hash-flood scenario: 103 distinct two-byte keys `[i, i]`, `i` from 1
to 103, with empty data and ttl 10, all set at time 1000.  In an arena of 2372
bytes (`hsize` 128) they all hash to the same head slot and each entry takes
22 bytes, so the arena holds exactly 102 of them. -/
def flood_items : List Ins :=
  (List.range 103).map fun i =>
    { key := [Fin.ofNat (i + 1), Fin.ofNat (i + 1)], data := [], ttl := 10, now := 1000 }

/-- A small run of the eviction-order scenario: a write of key `k` with three
bytes of data and ttl 10 at time 1000; an arena of 100 bytes holds exactly
four such entries of 24 bytes. -/
def small_item (k : Nat) : Ins :=
  { key := [Fin.ofNat k], data := [1, 2, 3], ttl := 10, now := 1000 }

/-! ## States of the two-level cache -/

/-- A handle stored in a top-level entry is good: it is null (the allocation
failed), or it names an allocated secondary engine of the default size whose
arena represents some abstract state. -/
def GoodHandle (heap : List (Option Cache)) (addr : Nat) : Prop :=
  addr < 18446744073709551616 ∧
  (addr = 0 ∨
    (0 < addr ∧ ∃ dc b, heap.get? (addr - 1) = some (some dc) ∧ Rep dc b ∧
      dc.size = (cache_init 10000).size ∧ dc.hsize = (cache_init 10000).hsize))

/-- Invariant of the two-level cache: the top-level arena represents some
abstract state, and the data of every live top-level entry is a good handle. -/
def WorldInv (w : World) : Prop :=
  ∃ a, Rep w.top a ∧ ∀ e ∈ a.all, ∃ addr, e.data = uint64_pack addr ∧ GoodHandle w.heap addr

/-- States of the two-level cache reachable from `cache_init` by calls of
`cache_set_domain_entry` that return. -/
inductive ReachWorld : World → Prop where
  | init (cachesize : Nat) : ReachWorld (world_init cachesize)
  | set {w w1 : World} (now : Nat) (key rest data : List Byte) (ttl : Nat) (alloc_ok : Bool) :
      ReachWorld w → cache_set_domain_entry w now key rest data ttl alloc_ok = .ok w1 →
      ReachWorld w1

end DnsCache

namespace DnsCache

/-! ## Further definitions for the claims on hsize, chains and sharing -/

/-- The loop `while (hsize <= (size >> 5)) hsize <<= 1` of source `cache_init`
in arithmetic without 32-bit truncation, to compare with `hsize_loop`. -/
def hsize_loop_nat : Nat → Nat → Nat → Nat
  | 0, _, hsize => hsize
  | n + 1, size, hsize =>
    if hsize ≤ size / 32 then hsize_loop_nat n size (hsize * 2) else hsize

/-- Specification of the chain walk, in the words of the layout comment:
from the item `prev` and the item `pos` after it, the positions visited until
the walk ends at 0, where the item after `pos` is `prev xor link(pos)`.  The
first argument bounds the number of steps; `none` when the walk has not ended
within the bound. -/
def chain_walk (s : Cache) : Nat → Nat → Nat → Option (List Nat)
  | 0, _, pos => if pos = 0 then some [] else none
  | n + 1, prev, pos =>
    if pos = 0 then some []
    else (chain_walk s n pos (prev ^^^ uint32_unpack s.x pos)).map fun l => pos :: l

/-- The positions of the entries on the chain of head slot `h`, in the order
of the walk from the head slot. -/
def bucket_walk (s : Cache) (h : Nat) : Option (List Nat) :=
  chain_walk s s.size h (uint32_unpack s.x h)

/-- The first `n` iterations of the body of the eviction loop of source
`cache_set`. -/
def evict_iter : Nat → Cache → Res Cache
  | 0, s => .ok s
  | n + 1, s => (cache_set_evict (cache_set_wrap s)).bind fun s1 => evict_iter n s1

/-- A call of `cache_set` on an engine created by `cache_init(cachesize)`
that passes the checks on key length, data length and ttl and whose entry
fits the arena. -/
def Ins.stores (cachesize : Nat) (it : Ins) : Bool :=
  decide (it.key.length ≤ 1000 ∧ it.data.length ≤ 1000000 ∧ it.ttl ≠ 0 ∧
    20 + it.key.length + it.data.length ≤
      (cache_init cachesize).size - (cache_init cachesize).hsize)

end DnsCache

namespace DnsCache

/-! ## Outcomes -/

@[simp] theorem Res.ok_bind {α β : Type} (a : α) (f : α → Res β) :
    (Res.ok a >>= f) = f a := rfl

@[simp] theorem Res.fatal_bind {α β : Type} (f : α → Res β) :
    ((Res.fatal : Res α) >>= f) = Res.fatal := rfl

@[simp] theorem Res.undefined_bind {α β : Type} (f : α → Res β) :
    ((Res.undefined : Res α) >>= f) = Res.undefined := rfl

@[simp] theorem Res.timeout_bind {α β : Type} (f : α → Res β) :
    ((Res.timeout : Res α) >>= f) = Res.timeout := rfl

@[simp] theorem Res.bind_ok {α β : Type} (a : α) (f : α → Res β) :
    (Res.ok a).bind f = f a := rfl

@[simp] theorem Res.pure_eq {α : Type} (a : α) : (pure a : Res α) = Res.ok a := rfl

theorem Res.bind_eq_ok {α β : Type} {r : Res α} {f : α → Res β} {b : β}
    (h : (r >>= f) = Res.ok b) : ∃ a, r = Res.ok a ∧ f a = Res.ok b := by
  cases r with
  | ok a => exact ⟨a, rfl, h⟩
  | fatal => cases h
  | undefined => cases h
  | timeout => cases h

/-! ## Scalars are untouched by `set4` -/

theorem set4_eq_ok {s s1 : Cache} {pos u : Nat} (h : set4 s pos u = .ok s1) :
    s1 = { s with x := uint32_pack s.x pos u } := by
  unfold set4 at h
  split at h
  · cases h
  · cases h; rfl

/-! ## hsize -/

theorem hsize_loop_le (n size hsize : Nat) (hs : size ≤ 1000000000) (h4 : 4 ≤ hsize)
    (hh : hsize ≤ 2 * (size / 32) ∨ hsize = 4) :
    4 ≤ hsize_loop n size hsize ∧
      (hsize_loop n size hsize ≤ 2 * (size / 32) ∨ hsize_loop n size hsize = 4) := by
  induction n generalizing hsize with
  | zero => exact ⟨h4, hh⟩
  | succ n ih =>
    unfold hsize_loop
    split
    · rename_i hle
      have h2 : u32 (hsize * 2) = hsize * 2 := by
        unfold u32; omega
      rw [h2]
      exact ih (hsize * 2) (by omega) (by omega)
    · exact ⟨h4, hh⟩

theorem cache_init_size (c : Nat) :
    100 ≤ (cache_init c).size ∧ (cache_init c).size ≤ 1000000000 := by
  unfold cache_init
  simp only
  split <;> split <;> omega

theorem cache_init_hsize (c : Nat) :
    4 ≤ (cache_init c).hsize ∧ (cache_init c).hsize + 84 ≤ (cache_init c).size := by
  have hs := cache_init_size c
  have h := hsize_loop_le 32 (cache_init c).size 4 hs.2 (le_refl _) (Or.inr rfl)
  have e : (cache_init c).hsize = hsize_loop 32 (cache_init c).size 4 := rfl
  rw [e]
  omega

end DnsCache

namespace DnsCache

/-! ## The region invariant (scalars only, any arena contents) -/

theorem get4_eq_ok {s : Cache} {pos v : Nat} (h : get4 s pos = .ok v) :
    v = uint32_unpack s.x pos := by
  unfold get4 at h
  split at h
  · cases h
  · cases h; rfl

theorem cache_set_evict_scalars {s s1 : Cache} (h : cache_set_evict s = .ok s1) :
    s1.size = s.size ∧ s1.hsize = s.hsize ∧ s1.writer = s.writer ∧
      s1.cache_motion = s.cache_motion ∧
      ((s1.unused = s.unused ∧ s1.oldest < s.unused) ∨
        (s1.unused = s.size ∧ s1.oldest = s.size)) := by
  unfold cache_set_evict at h
  obtain ⟨pos, _, h⟩ := Res.bind_eq_ok h
  obtain ⟨l, _, h⟩ := Res.bind_eq_ok h
  obtain ⟨s2, hs2, h⟩ := Res.bind_eq_ok h
  obtain ⟨kl, _, h⟩ := Res.bind_eq_ok h
  obtain ⟨dl, _, h⟩ := Res.bind_eq_ok h
  have e2 := set4_eq_ok hs2
  subst e2
  simp only at h
  split at h
  · cases h
  · split at h
    · cases h
      exact ⟨rfl, rfl, rfl, rfl, Or.inr ⟨rfl, rfl⟩⟩
    · cases h
      refine ⟨rfl, rfl, rfl, rfl, Or.inl ⟨rfl, ?_⟩⟩
      simp only
      omega

theorem cache_set_loop_inv (n : Nat) : ∀ (s : Cache) (len : Nat) (b : Bool) (s1 : Cache),
    LoopInv s → len ≤ 1001020 → cache_set_loop n s len = .ok (b, s1) →
    LoopInv s1 ∧ s1.size = s.size ∧ s1.hsize = s.hsize ∧
      s1.cache_motion = s.cache_motion ∧
      (b = true → s1.writer + len ≤ s1.oldest) ∧
      (b = false → s1.oldest = s1.unused ∧ s1.writer ≤ s1.hsize) := by
  induction n with
  | zero => intro s len b s1 _ _ h; simp [cache_set_loop] at h
  | succ n ih =>
    intro s len b s1 hJ hlen h
    obtain ⟨j1, j2, j3, j4, j5, j6⟩ := hJ
    unfold cache_set_loop at h
    have hu : u32 (s.writer + len) = s.writer + len := by unfold u32; omega
    rw [hu] at h
    split at h
    · rename_i hgt
      split at h
      · rename_i hret
        cases h
        refine ⟨⟨j1, j2, j3, j4, j5, j6⟩, rfl, rfl, rfl, ?_, ?_⟩
        · intro hb; cases hb
        · intro _; exact hret
      · rename_i hnret
        obtain ⟨s2, hs2, h⟩ := Res.bind_eq_ok h
        obtain ⟨e1, e2, e3, e4, e5⟩ := cache_set_evict_scalars hs2
        have hw : (cache_set_wrap s).size = s.size ∧ (cache_set_wrap s).hsize = s.hsize ∧
            (cache_set_wrap s).cache_motion = s.cache_motion ∧
            (cache_set_wrap s).writer ≤ s.writer ∧ s.hsize ≤ (cache_set_wrap s).writer ∧
            (cache_set_wrap s).unused ≤ s.size := by
          unfold cache_set_wrap
          split
          · exact ⟨rfl, rfl, rfl, j1, le_refl _, j2⟩
          · exact ⟨rfl, rfl, rfl, le_refl _, j1, j4⟩
        obtain ⟨w1, w2, w3, w4, w5, w6⟩ := hw
        have hJ2 : LoopInv s2 := by
          refine ⟨?_, ?_, ?_, ?_, ?_, ?_⟩
          · omega
          · omega
          · omega
          · omega
          · omega
          · omega
        obtain ⟨k1, k2, k3, k4, k5, k6⟩ := ih s2 len b s1 hJ2 hlen h
        refine ⟨k1, ?_, ?_, ?_, k5, k6⟩
        · omega
        · omega
        · omega
    · rename_i hngt
      cases h
      refine ⟨⟨j1, j2, j3, j4, j5, j6⟩, rfl, rfl, rfl, ?_, ?_⟩
      · intro _; omega
      · intro hb; cases hb

theorem cache_set_write_scalars {s s1 : Cache} {now : Nat} {key data : List Byte}
    {ttl len : Nat} (h : cache_set_write s now key data ttl len = .ok s1) :
    s1.size = s.size ∧ s1.hsize = s.hsize ∧ s1.writer = u32 (s.writer + len) ∧
      s1.oldest = s.oldest ∧ s1.unused = s.unused := by
  unfold cache_set_write at h
  obtain ⟨pos, _, h⟩ := Res.bind_eq_ok h
  obtain ⟨s2, hs2, h⟩ := Res.bind_eq_ok h
  obtain ⟨s3, hs3, h⟩ := Res.bind_eq_ok h
  obtain ⟨s4, hs4, h⟩ := Res.bind_eq_ok h
  obtain ⟨s5, hs5, h⟩ := Res.bind_eq_ok h
  obtain ⟨s9, hs9, h⟩ := Res.bind_eq_ok h
  have e2 : s2.size = s.size ∧ s2.hsize = s.hsize ∧ s2.writer = s.writer ∧
      s2.oldest = s.oldest ∧ s2.unused = s.unused := by
    split at hs2
    · obtain ⟨l, _, hs2⟩ := Res.bind_eq_ok hs2
      have e := set4_eq_ok hs2
      subst e
      exact ⟨rfl, rfl, rfl, rfl, rfl⟩
    · cases hs2
      exact ⟨rfl, rfl, rfl, rfl, rfl⟩
  have e3 := set4_eq_ok hs3
  have e4 := set4_eq_ok hs4
  have e5 := set4_eq_ok hs5
  have e9 := set4_eq_ok hs9
  cases h
  subst e9 e5 e4 e3
  simp only
  obtain ⟨a1, a2, a3, a4, a5⟩ := e2
  exact ⟨a1, a2, by rw [a3], a4, a5⟩

theorem cache_set_region {s s1 : Cache} {now : Nat} {key data : List Byte} {ttl : Nat}
    (hs : s.size ≤ 1000000000) (hr : RegionInv s)
    (h : cache_set s now key data ttl = .ok s1) :
    s1.size = s.size ∧ s1.hsize = s.hsize ∧ RegionInv s1 := by
  obtain ⟨r1, r2, r3, r4, r5⟩ := hr
  unfold cache_set at h
  split at h
  · cases h; exact ⟨rfl, rfl, r1, r2, r3, r4, r5⟩
  split at h
  · cases h; exact ⟨rfl, rfl, r1, r2, r3, r4, r5⟩
  split at h
  · cases h; exact ⟨rfl, rfl, r1, r2, r3, r4, r5⟩
  rename_i hk hd ht
  simp only [MAXKEYLEN, MAXDATALEN] at hk hd
  have hlen : u32 (key.length + data.length + 20) ≤ 1001020 := by
    unfold u32; omega
  obtain ⟨⟨go, s2⟩, hloop, h⟩ := Res.bind_eq_ok h
  have hJ : LoopInv s := ⟨r1, by omega, r3, r4, r5, hs⟩
  obtain ⟨⟨j1, j2, j3, j4, j5, j6⟩, k2, k3, _, k5, k6⟩ :=
    cache_set_loop_inv s.size s _ go s2 hJ hlen hloop
  simp only at h
  split at h
  · rename_i hgo
    cases h
    obtain ⟨q1, q2⟩ := k6 hgo
    exact ⟨k2, k3, j1, by omega, j3, j4, j5⟩
  · rename_i hgo
    have hgo2 : go = true := by
      cases go
      · exact absurd rfl hgo
      · rfl
    have q := k5 hgo2
    obtain ⟨a1, a2, a3, a4, a5⟩ := cache_set_write_scalars h
    have hu : u32 (s2.writer + u32 (key.length + data.length + 20)) =
        s2.writer + u32 (key.length + data.length + 20) := by
      unfold u32 at hlen ⊢; omega
    rw [hu] at a3
    refine ⟨by omega, by omega, ?_, ?_, ?_, ?_, ?_⟩
    · omega
    · omega
    · omega
    · omega
    · intro he; have := j5 (by omega); omega

theorem cache_del_scalars {s s1 : Cache} {key : List Byte} {r : Nat}
    (h : cache_del s key = .ok (s1, r)) :
    s1.size = s.size ∧ s1.hsize = s.hsize ∧ s1.writer = s.writer ∧
      s1.oldest = s.oldest ∧ s1.unused = s.unused := by
  unfold cache_del at h
  split at h
  · cases h; exact ⟨rfl, rfl, rfl, rfl, rfl⟩
  obtain ⟨pos, _, h⟩ := Res.bind_eq_ok h
  split at h
  · obtain ⟨l, _, h⟩ := Res.bind_eq_ok h
    obtain ⟨s2, hs2, h⟩ := Res.bind_eq_ok h
    obtain ⟨s3, hs3, h⟩ := Res.bind_eq_ok h
    have e2 := set4_eq_ok hs2
    cases h
    split at hs3
    · obtain ⟨l2, _, hs3⟩ := Res.bind_eq_ok hs3
      have e3 := set4_eq_ok hs3
      subst e3 e2
      exact ⟨rfl, rfl, rfl, rfl, rfl⟩
    · cases hs3
      subst e2
      exact ⟨rfl, rfl, rfl, rfl, rfl⟩
  · cases h; exact ⟨rfl, rfl, rfl, rfl, rfl⟩

theorem cache_init_region (c : Nat) :
    (cache_init c).writer = (cache_init c).hsize ∧
      (cache_init c).oldest = (cache_init c).size ∧
      (cache_init c).unused = (cache_init c).size := ⟨rfl, rfl, rfl⟩

theorem reach_region {s : Cache} (h : Reach s) :
    s.size ≤ 1000000000 ∧ RegionInv s := by
  induction h with
  | init c =>
    have h1 := cache_init_size c
    have h2 := cache_init_hsize c
    obtain ⟨a1, a2, a3⟩ := cache_init_region c
    refine ⟨h1.2, ?_, ?_, ?_, ?_, ?_⟩ <;> omega
  | set now key data ttl _ hset ih =>
    obtain ⟨b1, _, b3⟩ := cache_set_region ih.1 ih.2 hset
    exact ⟨by omega, b3⟩
  | del key r _ hdel ih =>
    obtain ⟨b1, b2, b3, b4, b5⟩ := cache_del_scalars hdel
    obtain ⟨i1, i2, i3, i4, i5, i6⟩ := ih
    refine ⟨by omega, ?_, ?_, ?_, ?_, ?_⟩ <;> omega

end DnsCache

namespace DnsCache

/-! ## Reading and writing the arena -/

theorem uint32_pack_out {x : Nat → Nat} {p u a : Nat} (h : a < p ∨ p + 4 ≤ a) :
    uint32_pack x p u a = x a := by
  unfold uint32_pack
  rw [if_neg (by omega), if_neg (by omega), if_neg (by omega), if_neg (by omega)]

theorem uint32_unpack_congr {x y : Nat → Nat} {p : Nat}
    (h : ∀ a, p ≤ a → a < p + 4 → x a = y a) :
    uint32_unpack x p = uint32_unpack y p := by
  unfold uint32_unpack
  rw [h p (by omega) (by omega), h (p + 1) (by omega) (by omega),
    h (p + 2) (by omega) (by omega), h (p + 3) (by omega) (by omega)]

theorem uint32_unpack_pack_same (x : Nat → Nat) (p u : Nat) :
    uint32_unpack (uint32_pack x p u) p = u % 4294967296 := by
  unfold uint32_unpack uint32_pack
  rw [if_pos rfl, if_neg (by omega), if_pos rfl, if_neg (by omega), if_neg (by omega),
    if_pos rfl, if_neg (by omega), if_neg (by omega), if_neg (by omega), if_pos rfl]
  omega

theorem uint32_unpack_pack_sep {x : Nat → Nat} {p q u : Nat} (h : q + 4 ≤ p ∨ p + 4 ≤ q) :
    uint32_unpack (uint32_pack x p u) q = uint32_unpack x q := by
  apply uint32_unpack_congr
  intro a h1 h2
  exact uint32_pack_out (by omega)

theorem tai_pack_out {x : Nat → Nat} {p t a : Nat} (h : a < p ∨ p + 8 ≤ a) :
    tai_pack x p t a = x a := by
  unfold tai_pack
  split_ifs <;> first | rfl | omega

theorem tai_unpack_congr {x y : Nat → Nat} {p : Nat}
    (h : ∀ a, p ≤ a → a < p + 8 → x a = y a) :
    tai_unpack x p = tai_unpack y p := by
  unfold tai_unpack
  rw [h p (by omega) (by omega), h (p + 1) (by omega) (by omega),
    h (p + 2) (by omega) (by omega), h (p + 3) (by omega) (by omega),
    h (p + 4) (by omega) (by omega), h (p + 5) (by omega) (by omega),
    h (p + 6) (by omega) (by omega), h (p + 7) (by omega) (by omega)]

theorem tai_pack_at (x : Nat → Nat) (p t : Nat) :
    tai_pack x p t p = t / 72057594037927936 % 256 ∧
    tai_pack x p t (p + 1) = t / 281474976710656 % 256 ∧
    tai_pack x p t (p + 2) = t / 1099511627776 % 256 ∧
    tai_pack x p t (p + 3) = t / 4294967296 % 256 ∧
    tai_pack x p t (p + 4) = t / 16777216 % 256 ∧
    tai_pack x p t (p + 5) = t / 65536 % 256 ∧
    tai_pack x p t (p + 6) = t / 256 % 256 ∧
    tai_pack x p t (p + 7) = t % 256 := by
  unfold tai_pack
  simp

theorem tai_unpack_pack_same (x : Nat → Nat) (p t : Nat) (ht : t < 18446744073709551616) :
    tai_unpack (tai_pack x p t) p = t := by
  obtain ⟨h0, h1, h2, h3, h4, h5, h6, h7⟩ := tai_pack_at x p t
  unfold tai_unpack
  rw [h0, h1, h2, h3, h4, h5, h6, h7]
  omega

theorem byte_copy_out {x : Nat → Nat} {p a : Nat} {l : List Byte}
    (h : a < p ∨ p + l.length ≤ a) : byte_copy x p l a = x a := by
  unfold byte_copy
  rw [dif_neg (by omega)]

theorem byte_copy_in {x : Nat → Nat} {p i : Nat} {l : List Byte} (h : i < l.length) :
    byte_copy x p l (p + i) = (l.get ⟨i, h⟩).val := by
  unfold byte_copy
  have h2 : p ≤ p + i ∧ p + i - p < l.length := by omega
  rw [dif_pos h2]
  congr 2
  simp

theorem bytes_at_byte_copy (x : Nat → Nat) (p : Nat) (l : List Byte) :
    bytes_at (byte_copy x p l) p l := by
  intro i h
  exact byte_copy_in h

theorem bytes_at_congr {x y : Nat → Nat} {p : Nat} {l : List Byte}
    (h : ∀ a, p ≤ a → a < p + l.length → x a = y a) (hx : bytes_at x p l) :
    bytes_at y p l := by
  intro i hi
  rw [← h (p + i) (by omega) (by omega)]
  exact hx i hi

theorem Stored_congr {x y : Nat → Nat} {e : Ent}
    (h : ∀ a, e.pos + 4 ≤ a → a < e.pos + e.len → x a = y a) (hx : Stored x e) :
    Stored y e := by
  obtain ⟨h1, h2, h3, h4, h5⟩ := hx
  unfold Ent.len at h
  refine ⟨?_, ?_, ?_, ?_, ?_⟩
  · rw [← h1]; symm; apply uint32_unpack_congr; intro a _ _; apply h <;> omega
  · rw [← h2]; symm; apply uint32_unpack_congr; intro a _ _; apply h <;> omega
  · rw [← h3]; symm; apply tai_unpack_congr; intro a _ _; apply h <;> omega
  · apply bytes_at_congr _ h4; intro a _ _; apply h <;> omega
  · apply bytes_at_congr _ h5; intro a _ _; apply h <;> omega

theorem byte_equal_iff {x : Nat → Nat} (l key : List Byte) (p : Nat)
    (hlen : key.length = l.length) (hx : bytes_at x p l) :
    byte_equal key x p = true ↔ key = l := by
  induction key generalizing l p with
  | nil =>
    cases l with
    | nil => simp [byte_equal]
    | cons b l => simp at hlen
  | cons c key ih =>
    cases l with
    | nil => simp at hlen
    | cons b l =>
      have h0 : x p = b.val := by
        have := hx 0 (by simp)
        simpa using this
      have hrest : bytes_at x (p + 1) l := by
        intro i hi
        have := hx (i + 1) (by simp; omega)
        simp only [List.get_eq_getElem, List.getElem_cons_succ] at this ⊢
        rw [← this]
        congr 1
        omega
      have hl : key.length = l.length := by simpa using hlen
      unfold byte_equal
      rw [Bool.and_eq_true, ih l (p + 1) hl hrest, h0]
      simp only [decide_eq_true_eq, List.cons.injEq]
      constructor
      · rintro ⟨h1, h2⟩
        exact ⟨(Fin.val_injective h1).symm ▸ rfl, h2⟩
      · rintro ⟨h1, h2⟩
        exact ⟨by rw [h1], h2⟩

theorem byte_read_eq {x : Nat → Nat} {p : Nat} {l : List Byte} (hx : bytes_at x p l) :
    byte_read x p l.length = l.map Fin.val := by
  unfold byte_read
  apply List.ext_getElem
  · simp
  · intro i h1 h2
    simp only [List.length_map, List.length_range] at h1
    simp only [List.getElem_map, List.getElem_range]
    exact hx i h1

end DnsCache

namespace DnsCache

/-! ## Head slots -/

theorem mod_four_of_testBit {n : Nat} (h0 : n.testBit 0 = false) (h1 : n.testBit 1 = false) :
    n % 4 = 0 := by
  rw [Nat.testBit_to_div_mod] at h0 h1
  simp only [pow_zero, Nat.div_one, pow_one, decide_eq_false_iff_not] at h0 h1
  omega

theorem testBit_of_mod_four {n : Nat} (h : n % 4 = 0) :
    n.testBit 0 = false ∧ n.testBit 1 = false := by
  rw [Nat.testBit_to_div_mod, Nat.testBit_to_div_mod]
  simp only [pow_zero, Nat.div_one, pow_one, decide_eq_false_iff_not]
  omega

theorem and_mod_four {a m : Nat} (h : m % 4 = 0) : (a &&& m) % 4 = 0 := by
  obtain ⟨h0, h1⟩ := testBit_of_mod_four h
  apply mod_four_of_testBit
  · rw [Nat.testBit_and, h0, Bool.and_false]
  · rw [Nat.testBit_and, h1, Bool.and_false]

theorem pow_two_mod_four {k : Nat} (h : 4 ≤ 2 ^ k) : 2 ^ k % 4 = 0 := by
  have hk : 2 ≤ k := by
    by_contra hlt
    have : k = 0 ∨ k = 1 := by omega
    rcases this with rfl | rfl <;> simp at h
  obtain ⟨j, rfl⟩ := Nat.exists_eq_add_of_le hk
  rw [pow_add]
  omega

theorem hash_slot {hsize : Nat} (key : List Byte) (hp : ∃ k, hsize = 2 ^ k) (h4 : 4 ≤ hsize)
    (hs : hsize ≤ 1000000000) :
    hash hsize key % 4 = 0 ∧ hash hsize key + 4 ≤ hsize := by
  obtain ⟨k, rfl⟩ := hp
  have hm := pow_two_mod_four h4
  have e : sub32 (2 ^ k) 4 = 2 ^ k - 4 := by unfold sub32; omega
  unfold hash
  rw [e]
  constructor
  · exact and_mod_four (by omega)
  · have := @Nat.and_le_right (u32 (hashLoop 5381 key * 4)) (2 ^ k - 4)
    omega

/-! ## Runs of entries -/

theorem Ent.len_pos (e : Ent) : 20 ≤ e.len := by unfold Ent.len; omega

theorem tiles_le {t b : Nat} {l : List Ent} (h : Tiles t b l) : b ≤ t := by
  induction l generalizing t with
  | nil => exact ge_of_eq h
  | cons e l ih =>
    obtain ⟨h1, h2⟩ := h
    have := ih h2
    omega

theorem tiles_mem {t b : Nat} {l : List Ent} (h : Tiles t b l) {e : Ent} (he : e ∈ l) :
    b ≤ e.pos ∧ e.pos + e.len ≤ t := by
  induction l generalizing t with
  | nil => cases he
  | cons e1 l ih =>
    obtain ⟨h1, h2⟩ := h
    rcases List.mem_cons.mp he with rfl | hm
    · exact ⟨tiles_le h2, by omega⟩
    · have := ih h2 hm
      omega

theorem tiles_length {t b : Nat} {l : List Ent} (h : Tiles t b l) :
    b + 20 * l.length ≤ t := by
  induction l generalizing t with
  | nil => simp; exact tiles_le h
  | cons e l ih =>
    obtain ⟨h1, h2⟩ := h
    have := ih h2
    have := e.len_pos
    simp only [List.length_cons]
    omega

theorem tiles_eq_nil {t b : Nat} {l : List Ent} (h : Tiles t b l) (e : t = b) : l = [] := by
  have := tiles_length h
  cases l with
  | nil => rfl
  | cons a l => simp only [List.length_cons] at this; omega

theorem tiles_concat {t b : Nat} {l : List Ent} {o : Ent} :
    Tiles t b (l ++ [o]) ↔ o.pos = b ∧ Tiles t (b + o.len) l := by
  induction l generalizing t with
  | nil =>
    simp only [List.nil_append, Tiles]
    constructor
    · rintro ⟨h1, h2⟩; exact ⟨h2, by omega⟩
    · rintro ⟨h1, h2⟩; exact ⟨by omega, h1⟩
  | cons e l ih =>
    have e1 : (e :: l) ++ [o] = e :: (l ++ [o]) := rfl
    rw [e1]
    constructor
    · rintro ⟨h1, h2⟩
      obtain ⟨h3, h4⟩ := ih.mp h2
      exact ⟨h3, h1, h4⟩
    · rintro ⟨h1, h2, h3⟩
      exact ⟨h2, ih.mpr ⟨h1, h3⟩⟩

theorem tiles_disj {t b : Nat} {l : List Ent} (h : Tiles t b l) : l.Pairwise Disj := by
  induction l generalizing t with
  | nil => exact List.Pairwise.nil
  | cons e l ih =>
    obtain ⟨h1, h2⟩ := h
    refine List.Pairwise.cons ?_ (ih h2)
    intro e2 he2
    have := tiles_mem h2 he2
    exact Or.inr this.2

theorem all_disj {a : Abs} (w : WF a) : a.all.Pairwise Disj := by
  unfold Abs.all
  rw [List.pairwise_append]
  refine ⟨tiles_disj w.tiles_lo, tiles_disj w.tiles_hi, ?_⟩
  intro e1 h1 e2 h2
  have b1 := tiles_mem w.tiles_lo h1
  have b2 := tiles_mem w.tiles_hi h2
  have := w.le2
  exact Or.inl (by omega)

theorem all_bounds {a : Abs} (w : WF a) {e : Ent} (he : e ∈ a.all) :
    a.hsize ≤ e.pos ∧ e.pos + e.len ≤ a.size ∧
      (e.pos + e.len ≤ a.writer ∨ a.oldest ≤ e.pos) := by
  unfold Abs.all at he
  have := w.le1; have := w.le2; have := w.le3; have := w.le4
  rcases List.mem_append.mp he with h | h
  · have := tiles_mem w.tiles_lo h
    exact ⟨by omega, by omega, Or.inl (by omega)⟩
  · have := tiles_mem w.tiles_hi h
    exact ⟨by omega, by omega, Or.inr (by omega)⟩

theorem all_eq_or_disj {a : Abs} (w : WF a) {e1 e2 : Ent} (h1 : e1 ∈ a.all)
    (h2 : e2 ∈ a.all) : e1 = e2 ∨ Disj e1 e2 := by
  by_cases h : e1 = e2
  · exact Or.inl h
  · right
    have hs : Symmetric Disj := by
      intro x y hxy
      exact Or.symm hxy
    exact (all_disj w).forall hs h1 h2 h

end DnsCache

namespace DnsCache

/-! ## The xor-link rule -/

theorem xor_swap_head (h n w : Nat) : (h ^^^ n) ^^^ h ^^^ w = w ^^^ n := by
  rw [Nat.xor_comm h n, Nat.xor_assoc n h h, Nat.xor_self, Nat.xor_zero, Nat.xor_comm]

theorem chain_congr {m m1 : Nat → Nat} {prev : Nat} {l : List Nat}
    (h : Chain m prev l) (hm : ∀ q ∈ l, m1 q = m q) : Chain m1 prev l := by
  induction l generalizing prev with
  | nil => trivial
  | cons p ps ih =>
    obtain ⟨h1, h2⟩ := h
    refine ⟨?_, ih h2 ?_⟩
    · rw [hm p (List.mem_cons_self _ _)]; exact h1
    · intro q hq; exact hm q (List.mem_cons_of_mem _ hq)

theorem chain_last {m : Nat → Nat} {prev o : Nat} {l : List Nat}
    (h : Chain m prev (l ++ [o])) : m o = (prev :: l).getLast (by simp) := by
  induction l generalizing prev with
  | nil =>
    obtain ⟨h1, _⟩ := h
    simpa using h1
  | cons p ps ih =>
    obtain ⟨_, h2⟩ := h
    have := ih h2
    rw [this]
    simp [List.getLast_cons]

theorem chain_pop {m m1 : Nat → Nat} {prev o : Nat} {l : List Nat} (hne : l ≠ [])
    (h : Chain m prev (l ++ [o])) (hnd : l.Nodup)
    (hlast : m1 (l.getLast hne) = m (l.getLast hne) ^^^ o)
    (hrest : ∀ q ∈ l, q ≠ l.getLast hne → m1 q = m q) : Chain m1 prev l := by
  induction l generalizing prev with
  | nil => exact absurd rfl hne
  | cons p ps ih =>
    cases ps with
    | nil =>
      obtain ⟨h1, _⟩ := h
      refine ⟨?_, trivial⟩
      simp only [List.getLast_singleton] at hlast
      rw [hlast, h1]
      simp [Nat.xor_assoc]
    | cons p2 r =>
      obtain ⟨h1, h2⟩ := h
      have hne2 : (p2 :: r) ≠ [] := by simp
      have hl : (p :: p2 :: r).getLast hne = (p2 :: r).getLast hne2 := by
        simp [List.getLast_cons]
      have hp : p ≠ (p2 :: r).getLast hne2 := by
        intro e
        have hmem := List.getLast_mem hne2
        rw [← e] at hmem
        exact (List.nodup_cons.mp hnd).1 hmem
      refine ⟨?_, ih hne2 h2 (List.nodup_cons.mp hnd).2 ?_ ?_⟩
      · rw [hrest p (List.mem_cons_self _ _) (by rw [hl]; exact hp)]
        simpa using h1
      · rw [← hl]; exact hlast
      · intro q hq hqn
        exact hrest q (List.mem_cons_of_mem _ hq) (by rw [hl]; exact hqn)

theorem chain_push {m m1 : Nat → Nat} {h w : Nat} {ps : List Nat}
    (hc : Chain m 0 (h :: ps)) (hh : m1 h = w) (hw : m1 w = h ^^^ ps.headD 0)
    (hp : ∀ p1, ps.head? = some p1 → m1 p1 = m p1 ^^^ h ^^^ w)
    (hrest : ∀ q ∈ ps.tail, m1 q = m q) : Chain m1 0 (h :: w :: ps) := by
  obtain ⟨_, h2⟩ := hc
  refine ⟨by simpa using hh, by simpa using hw, ?_⟩
  cases ps with
  | nil => trivial
  | cons p1 r =>
    obtain ⟨h3, h4⟩ := h2
    refine ⟨?_, chain_congr h4 (by simpa using hrest)⟩
    rw [hp p1 rfl, h3]
    exact xor_swap_head h _ w

end DnsCache

namespace DnsCache

/-! ## Link addresses of a well-formed state -/

theorem mem_bucket {hsize h : Nat} {l : List Ent} {e : Ent} :
    e ∈ bucket hsize h l ↔ e ∈ l ∧ hash hsize e.key = h := by
  unfold bucket
  simp [List.mem_filter]

theorem bucket_append (hsize h : Nat) (l1 l2 : List Ent) :
    bucket hsize h (l1 ++ l2) = bucket hsize h l1 ++ bucket hsize h l2 := by
  unfold bucket
  exact List.filter_append _ _

theorem bucket_cons_pos {hsize h : Nat} {l : List Ent} {e : Ent} (he : hash hsize e.key = h) :
    bucket hsize h (e :: l) = e :: bucket hsize h l := by
  unfold bucket
  rw [List.filter_cons_of_pos]
  simpa using he

theorem bucket_cons_neg {hsize h : Nat} {l : List Ent} {e : Ent} (he : hash hsize e.key ≠ h) :
    bucket hsize h (e :: l) = bucket hsize h l := by
  unfold bucket
  rw [List.filter_cons_of_neg]
  simpa using he

theorem la_slot {a : Abs} {h : Nat} (h1 : h % 4 = 0) (h2 : h + 4 ≤ a.hsize) : LinkAddr a h :=
  Or.inl ⟨h1, h2⟩

theorem la_ent {a : Abs} {e : Ent} (he : e ∈ a.all) : LinkAddr a e.pos :=
  Or.inr ⟨e, he, rfl⟩

theorem la_bound {a : Abs} (w : WF a) {q : Nat} (h : LinkAddr a q) : q + 4 ≤ a.size := by
  have := w.le1; have := w.le2; have := w.le3; have := w.le4
  rcases h with ⟨_, h2⟩ | ⟨e, he, rfl⟩
  · omega
  · have := all_bounds w he
    have := e.len_pos
    omega

theorem la_sep {a : Abs} (w : WF a) {q1 q2 : Nat} (h1 : LinkAddr a q1) (h2 : LinkAddr a q2) :
    q1 = q2 ∨ q1 + 4 ≤ q2 ∨ q2 + 4 ≤ q1 := by
  rcases h1 with ⟨a1, a2⟩ | ⟨e1, he1, rfl⟩ <;> rcases h2 with ⟨b1, b2⟩ | ⟨e2, he2, rfl⟩
  · omega
  · have := all_bounds w he2
    omega
  · have := all_bounds w he1
    omega
  · rcases all_eq_or_disj w he1 he2 with rfl | hd
    · exact Or.inl rfl
    · have := e1.len_pos
      have := e2.len_pos
      unfold Disj at hd
      omega

theorem la_content_sep {a : Abs} (w : WF a) {q : Nat} (hq : LinkAddr a q) {e : Ent}
    (he : e ∈ a.all) {addr : Nat} (h1 : e.pos + 4 ≤ addr) (h2 : addr < e.pos + e.len) :
    addr < q ∨ q + 4 ≤ addr := by
  rcases hq with ⟨_, a2⟩ | ⟨e2, he2, rfl⟩
  · have := all_bounds w he
    omega
  · rcases all_eq_or_disj w he he2 with rfl | hd
    · omega
    · have := e.len_pos
      have := e2.len_pos
      unfold Disj at hd
      omega

theorem unpack_after_pack {a : Abs} (w : WF a) {x : Nat → Nat} {p q v : Nat}
    (hp : LinkAddr a p) (hq : LinkAddr a q) :
    uint32_unpack (uint32_pack x p v) q =
      if q = p then v % 4294967296 else uint32_unpack x q := by
  rcases la_sep w hq hp with rfl | hs
  · rw [if_pos rfl]; exact uint32_unpack_pack_same x q v
  · rw [if_neg (by omega)]
    exact uint32_unpack_pack_sep (by omega)

theorem stored_after_pack {a : Abs} (w : WF a) {x : Nat → Nat} {p v : Nat}
    (hp : LinkAddr a p) {e : Ent} (he : e ∈ a.all) (hs : Stored x e) :
    Stored (uint32_pack x p v) e := by
  apply Stored_congr _ hs
  intro addr h1 h2
  have := la_content_sep w hp he h1 h2
  exact (uint32_pack_out (by omega)).symm

/-- The link addresses of one bucket chain: its head slot and its entries. -/
theorem chain_list_la {a : Abs} {h q : Nat} (h1 : h % 4 = 0) (h2 : h + 4 ≤ a.hsize)
    (hq : q ∈ h :: (bucket a.hsize h a.all).map Ent.pos) : LinkAddr a q := by
  rcases List.mem_cons.mp hq with rfl | hm
  · exact la_slot h1 h2
  · obtain ⟨e, he, rfl⟩ := List.mem_map.mp hm
    exact la_ent (mem_bucket.mp he).1

theorem pos_injective {a : Abs} (w : WF a) {e1 e2 : Ent} (h1 : e1 ∈ a.all) (h2 : e2 ∈ a.all)
    (h : e1.pos = e2.pos) : e1 = e2 := by
  rcases all_eq_or_disj w h1 h2 with e | hd
  · exact e
  · have := e1.len_pos
    have := e2.len_pos
    unfold Disj at hd
    omega

theorem all_nodup {a : Abs} (w : WF a) : a.all.Nodup := by
  have h := all_disj w
  apply h.imp
  intro e1 e2 hd he
  subst he
  have := e1.len_pos
  unfold Disj at hd
  omega

theorem chain_list_nodup {a : Abs} (w : WF a) {h : Nat} (h2 : h + 4 ≤ a.hsize) :
    (h :: (bucket a.hsize h a.all).map Ent.pos).Nodup := by
  rw [List.nodup_cons]
  constructor
  · intro hm
    obtain ⟨e, he, hpos⟩ := List.mem_map.mp hm
    have := all_bounds w (mem_bucket.mp he).1
    omega
  · have hnd : (bucket a.hsize h a.all).Nodup := by
      unfold bucket
      exact (all_nodup w).filter _
    apply List.Nodup.map_on _ hnd
    intro e1 he1 e2 he2 hpos
    exact pos_injective w (mem_bucket.mp he1).1 (mem_bucket.mp he2).1 hpos

theorem chain_list_disjoint {a : Abs} (w : WF a) {h1 h2 q : Nat} (hne : h1 ≠ h2)
    (b1 : h1 + 4 ≤ a.hsize) (b2 : h2 + 4 ≤ a.hsize)
    (q1 : q ∈ h1 :: (bucket a.hsize h1 a.all).map Ent.pos)
    (q2 : q ∈ h2 :: (bucket a.hsize h2 a.all).map Ent.pos) : False := by
  rcases List.mem_cons.mp q1 with rfl | m1 <;> rcases List.mem_cons.mp q2 with rfl | m2
  · exact hne rfl
  · obtain ⟨e, he, hpos⟩ := List.mem_map.mp m2
    have := all_bounds w (mem_bucket.mp he).1
    omega
  · obtain ⟨e, he, hpos⟩ := List.mem_map.mp m1
    have := all_bounds w (mem_bucket.mp he).1
    omega
  · obtain ⟨e1, he1, hp1⟩ := List.mem_map.mp m1
    obtain ⟨e2, he2, hp2⟩ := List.mem_map.mp m2
    have e := pos_injective w (mem_bucket.mp he1).1 (mem_bucket.mp he2).1 (by rw [hp1, hp2])
    subst e
    exact hne ((mem_bucket.mp he1).2.symm.trans (mem_bucket.mp he2).2)

theorem la_lt {a : Abs} (w : WF a) {q : Nat} (h : LinkAddr a q) : q < 1073741824 := by
  have := la_bound w h
  have := w.size_hi
  omega

theorem xor_lt_30 {x y : Nat} (hx : x < 1073741824) (hy : y < 1073741824) :
    x ^^^ y < 1073741824 := by
  have e : (1073741824 : Nat) = 2 ^ 30 := by norm_num
  rw [e] at hx hy ⊢
  exact Nat.xor_lt_two_pow hx hy

theorem chain_val_lt {m : Nat → Nat} {prev : Nat} {l : List Nat} (h : Chain m prev l)
    (hprev : prev < 1073741824) (hl : ∀ q ∈ l, q < 1073741824) :
    ∀ q ∈ l, m q < 1073741824 := by
  induction l generalizing prev with
  | nil => intro q hq; cases hq
  | cons p ps ih =>
    obtain ⟨h1, h2⟩ := h
    intro q hq
    rcases List.mem_cons.mp hq with rfl | hm
    · rw [h1]
      apply xor_lt_30 hprev
      cases ps with
      | nil => simp
      | cons p2 r => simpa using hl p2 (by simp)
    · exact ih h2 (hl p (List.mem_cons_self _ _))
        (fun q hq => hl q (List.mem_cons_of_mem _ hq)) q hm

/-! ## Bounds checks that pass -/

theorem get4_ok {s : Cache} {pos : Nat} (h1 : 4 ≤ s.size) (h2 : s.size < 4294967296)
    (h : pos + 4 ≤ s.size) : get4 s pos = .ok (uint32_unpack s.x pos) := by
  unfold get4 sub32
  rw [if_neg (by omega)]

theorem set4_ok {s : Cache} {pos u : Nat} (h1 : 4 ≤ s.size) (h2 : s.size < 4294967296)
    (h : pos + 4 ≤ s.size) : set4 s pos u = .ok { s with x := uint32_pack s.x pos u } := by
  unfold set4 sub32
  rw [if_neg (by omega)]

theorem get4_with (s : Cache) (x2 : Nat → Nat) {pos : Nat} (h1 : 4 ≤ s.size)
    (h2 : s.size < 4294967296) (h : pos + 4 ≤ s.size) :
    get4 { s with x := x2 } pos = .ok (uint32_unpack x2 pos) :=
  get4_ok (s := { s with x := x2 }) h1 h2 h

theorem set4_with (s : Cache) (x2 : Nat → Nat) {pos u : Nat} (h1 : 4 ≤ s.size)
    (h2 : s.size < 4294967296) (h : pos + 4 ≤ s.size) :
    set4 { s with x := x2 } pos u = .ok { s with x := uint32_pack x2 pos u } :=
  set4_ok (s := { s with x := x2 }) h1 h2 h

end DnsCache

namespace DnsCache

/-! ## One eviction -/

theorem aevict_concat {a : Abs} {hi1 : List Ent} {o : Ent} (hhi : a.hi = hi1 ++ [o]) :
    aevict a =
      if o.pos + o.len = a.unused then
        { a with hi := hi1, unused := a.size, oldest := a.size }
      else { a with hi := hi1, oldest := o.pos + o.len } := by
  unfold aevict
  rw [hhi]
  simp

theorem rep_size_bounds {s : Cache} {a : Abs} (hr : Rep s a) :
    4 ≤ s.size ∧ s.size < 4294967296 := by
  have := hr.wf.size_lo
  have := hr.wf.size_hi
  have := hr.size_eq
  omega

theorem wf_hsize_le {a : Abs} (w : WF a) : a.hsize ≤ 1000000000 := by
  have := w.le1; have := w.le2; have := w.le3; have := w.le4; have := w.size_hi
  omega

theorem evict_rep {s : Cache} {a : Abs} (hr : Rep s a) {hi1 : List Ent} {o : Ent}
    (hhi : a.hi = hi1 ++ [o]) :
    ∃ s1, cache_set_evict s = .ok s1 ∧ Rep s1 (aevict a) := by
  have w := hr.wf
  obtain ⟨sz1, sz2⟩ := rep_size_bounds hr
  have ht := w.tiles_hi
  rw [hhi, tiles_concat] at ht
  obtain ⟨hopos, ht1⟩ := ht
  have hall : a.all = (a.lo ++ hi1) ++ [o] := by
    unfold Abs.all; rw [hhi, List.append_assoc]
  have ho : o ∈ a.all := by rw [hall]; simp
  have hob := all_bounds w ho
  have holen := o.len_pos
  obtain ⟨hs1, hs2⟩ := hash_slot o.key w.hsize_pow w.hsize_lo (wf_hsize_le w)
  -- the chain of the bucket of `o`
  have hc := hr.chains _ hs1 hs2
  have hbl : bucket a.hsize (hash a.hsize o.key) a.all =
      bucket a.hsize (hash a.hsize o.key) (a.lo ++ hi1) ++ [o] := by
    rw [hall, bucket_append]
    congr 1
    exact bucket_cons_pos rfl
  have hcl : hash a.hsize o.key :: (bucket a.hsize (hash a.hsize o.key) a.all).map Ent.pos =
      (hash a.hsize o.key :: (bucket a.hsize (hash a.hsize o.key) (a.lo ++ hi1)).map Ent.pos)
        ++ [o.pos] := by
    rw [hbl]; simp
  have hnd := chain_list_nodup w hs2
  have hlt : ∀ q ∈ hash a.hsize o.key :: (bucket a.hsize (hash a.hsize o.key) a.all).map Ent.pos,
      uint32_unpack s.x q < 1073741824 :=
    chain_val_lt hc (by norm_num) (fun q hq => la_lt w (chain_list_la hs1 hs2 hq))
  have hla : ∀ q ∈ hash a.hsize o.key :: (bucket a.hsize (hash a.hsize o.key) a.all).map Ent.pos,
      LinkAddr a q := fun q hq => chain_list_la hs1 hs2 hq
  rw [hcl] at hc hnd hlt hla
  generalize hL : hash a.hsize o.key ::
    (bucket a.hsize (hash a.hsize o.key) (a.lo ++ hi1)).map Ent.pos = L at hc hnd hlt hla hcl
  have hLne : L ≠ [] := by rw [← hL]; simp
  have hc2 : Chain (uint32_unpack s.x) 0 ([] ++ (L ++ [o.pos])) := hc
  have hmo : uint32_unpack s.x o.pos = L.getLast hLne := by
    have h0 : Chain (uint32_unpack s.x) 0 (L ++ [o.pos]) := hc
    cases L with
    | nil => exact absurd rfl hLne
    | cons p ps =>
      obtain ⟨_, h2⟩ := h0
      rw [chain_last h2]
  have hposmem : L.getLast hLne ∈ L := List.getLast_mem hLne
  have hpla : LinkAddr a (L.getLast hLne) := hla _ (List.mem_append_left _ hposmem)
  have hpb := la_bound w hpla
  have hponeq : L.getLast hLne ≠ o.pos := by
    intro e
    rw [List.nodup_append] at hnd
    exact hnd.2.2 hposmem (by simp [e])
  -- run the code
  have g1 : get4 s s.oldest = .ok (L.getLast hLne) := by
    rw [get4_ok sz1 sz2 (by rw [hr.oldest_eq, hr.size_eq]; omega), hr.oldest_eq, ← hopos, hmo]
  have g2 : get4 s (L.getLast hLne) = .ok (uint32_unpack s.x (L.getLast hLne)) :=
    get4_ok sz1 sz2 (by rw [hr.size_eq]; exact hpb)
  have g3 := @set4_ok s (L.getLast hLne) (uint32_unpack s.x (L.getLast hLne) ^^^ s.oldest)
    sz1 sz2 (by rw [hr.size_eq]; exact hpb)
  obtain ⟨x2, hx2⟩ : ∃ x2, x2 = uint32_pack s.x (L.getLast hLne)
      (uint32_unpack s.x (L.getLast hLne) ^^^ s.oldest) := ⟨_, rfl⟩
  rw [← hx2] at g3
  have hst : ∀ e ∈ a.all, Stored x2 e :=
    fun e he => hx2 ▸ stored_after_pack w hpla he (hr.stored e he)
  obtain ⟨k1, k2, _, _, _⟩ := hst o ho
  have hszh := w.size_hi
  have u4 : u32 (s.oldest + 4) = o.pos + 4 := by
    unfold u32; rw [hr.oldest_eq]; omega
  have u8 : u32 (s.oldest + 8) = o.pos + 8 := by
    unfold u32; rw [hr.oldest_eq]; omega
  have hlen : o.key.length + o.data.length + 20 = o.len := rfl
  have u5 : u32 (s.oldest + u32 (u32 (o.key.length + o.data.length) + 20)) = o.pos + o.len := by
    unfold u32; rw [hr.oldest_eq]; omega
  have htl := tiles_le ht1
  -- the arena after the eviction, read at the link addresses
  have hm2 : ∀ q, LinkAddr a q →
      uint32_unpack x2 q =
      if q = L.getLast hLne then uint32_unpack s.x (L.getLast hLne) ^^^ o.pos
      else uint32_unpack s.x q := by
    intro q hq
    rw [hx2, unpack_after_pack w hpla hq, hr.oldest_eq, ← hopos]
    have := xor_lt_30 (hlt _ (List.mem_append_left _ hposmem)) (la_lt w (la_ent ho))
    rw [Nat.mod_eq_of_lt (by omega)]
  have hchains : ∀ h, h % 4 = 0 → h + 4 ≤ a.hsize →
      Chain (uint32_unpack x2) 0
        (h :: (bucket a.hsize h (a.lo ++ hi1)).map Ent.pos) := by
    intro h h1 h2
    by_cases hh : h = hash a.hsize o.key
    · subst hh
      rw [hL]
      apply chain_pop hLne hc (List.nodup_append.mp hnd).1
      · rw [hm2 _ hpla, if_pos rfl]
      · intro q hq hqn
        rw [hm2 _ (hla q (List.mem_append_left _ hq)), if_neg hqn]
    · have hc1 := hr.chains h h1 h2
      have hb : bucket a.hsize h a.all = bucket a.hsize h (a.lo ++ hi1) := by
        rw [hall, bucket_append, bucket_cons_neg (fun e => hh e.symm)]
        simp [bucket]
      rw [hb] at hc1
      apply chain_congr hc1
      intro q hq
      have hq2 : q ∈ h :: (bucket a.hsize h a.all).map Ent.pos := by rw [hb]; exact hq
      rw [hm2 _ (chain_list_la h1 h2 hq2), if_neg]
      intro e
      apply chain_list_disjoint w hh h2 hs2 hq2
      rw [hcl, e]
      exact List.mem_append_left _ hposmem
  have g4 : get4 { s with x := x2 } (u32 (s.oldest + 4)) = .ok o.key.length := by
    rw [u4, ← k1]
    exact get4_ok sz1 sz2 (by show o.pos + 4 + 4 ≤ s.size; rw [hr.size_eq]; omega)
  have g5 : get4 { s with x := x2 } (u32 (s.oldest + 8)) = .ok o.data.length := by
    rw [u8, ← k2]
    exact get4_ok sz1 sz2 (by show o.pos + 8 + 4 ≤ s.size; rw [hr.size_eq]; omega)
  unfold cache_set_evict
  rw [g1]; simp only [Res.ok_bind]
  rw [g2]; simp only [Res.ok_bind]
  rw [g3]; simp only [Res.ok_bind]
  rw [g4]; simp only [Res.ok_bind]
  rw [g5]; simp only [Res.ok_bind]
  rw [u5, aevict_concat hhi]
  have hun : s.unused = a.unused := hr.unused_eq
  simp only [hun]
  rw [if_neg (by omega)]
  by_cases heq : o.pos + o.len = a.unused
  · rw [if_pos heq, if_pos heq]
    refine ⟨_, rfl, ?_⟩
    have hnil : hi1 = [] := tiles_eq_nil ht1 (by omega)
    exact {
      wf := {
        size_lo := w.size_lo, size_hi := w.size_hi, hsize_pow := w.hsize_pow,
        hsize_lo := w.hsize_lo, le1 := w.le1,
        le2 := by have := w.le2; have := w.le3; have := w.le4; show a.writer ≤ a.size; omega
        le3 := le_refl _, le4 := le_refl _, wrap := fun _ => rfl,
        tiles_lo := w.tiles_lo,
        tiles_hi := by rw [hnil]; exact rfl }
      size_eq := hr.size_eq, hsize_eq := hr.hsize_eq, writer_eq := hr.writer_eq,
      oldest_eq := hr.size_eq, unused_eq := hr.size_eq, motion_eq := hr.motion_eq,
      stored := fun e he => hst e (by
        rw [hall]; exact List.mem_append_left _ he)
      chains := hchains }
  · rw [if_neg heq, if_neg heq]
    refine ⟨_, rfl, ?_⟩
    exact {
      wf := {
        size_lo := w.size_lo, size_hi := w.size_hi, hsize_pow := w.hsize_pow,
        hsize_lo := w.hsize_lo, le1 := w.le1,
        le2 := by have := w.le2; show a.writer ≤ o.pos + o.len; omega
        le3 := by show o.pos + o.len ≤ a.unused; omega
        le4 := w.le4,
        wrap := fun e => absurd e heq,
        tiles_lo := w.tiles_lo,
        tiles_hi := by rw [← hopos] at ht1; exact ht1 }
      size_eq := hr.size_eq, hsize_eq := hr.hsize_eq, writer_eq := hr.writer_eq,
      oldest_eq := rfl, unused_eq := rfl, motion_eq := hr.motion_eq,
      stored := fun e he => hst e (by
        rw [hall]; exact List.mem_append_left _ he)
      chains := hchains }

end DnsCache

namespace DnsCache

/-! ## The eviction loop -/

theorem all_length_lt {a : Abs} (w : WF a) : a.all.length < a.size := by
  have h1 := tiles_length w.tiles_lo
  have h2 := tiles_length w.tiles_hi
  have := w.le1; have := w.le2; have := w.le3; have := w.le4; have := w.size_lo
  unfold Abs.all
  rw [List.length_append]
  omega

theorem wrap_rep {s : Cache} {a : Abs} (hr : Rep s a)
    (hn : ¬(a.oldest = a.unused ∧ a.writer ≤ a.hsize)) :
    Rep (cache_set_wrap s) (awrap a) ∧ (∃ hi1 o, (awrap a).hi = hi1 ++ [o]) ∧
      (awrap a).all = a.all := by
  have w := hr.wf
  unfold cache_set_wrap awrap
  rw [hr.oldest_eq, hr.unused_eq]
  by_cases he : a.oldest = a.unused
  · rw [if_pos he, if_pos he]
    have hgt : a.hsize < a.writer := by
      have := w.le1
      by_contra hc
      exact hn ⟨he, by omega⟩
    have hnil : a.hi = [] := tiles_eq_nil w.tiles_hi he.symm
    have hall : a.lo ++ [] = a.all := by unfold Abs.all; rw [hnil]
    have hlo : a.lo ≠ [] := by
      intro e
      have := w.tiles_lo
      rw [e] at this
      have : a.writer = a.hsize := this
      omega
    refine ⟨?_, ?_, ?_⟩
    · exact {
        wf := {
          size_lo := w.size_lo, size_hi := w.size_hi, hsize_pow := w.hsize_pow,
          hsize_lo := w.hsize_lo, le1 := le_refl _, le2 := le_refl _,
          le3 := w.le1,
          le4 := by have := w.le2; have := w.le3; have := w.le4; show a.writer ≤ a.size; omega
          wrap := fun e => by
            have e2 : a.hsize = a.writer := e
            omega
          tiles_lo := rfl
          tiles_hi := w.tiles_lo }
        size_eq := hr.size_eq, hsize_eq := hr.hsize_eq, writer_eq := hr.hsize_eq,
        oldest_eq := hr.hsize_eq, unused_eq := hr.writer_eq, motion_eq := hr.motion_eq,
        stored := fun e he => hr.stored e (by
          have : e ∈ ([] : List Ent) ++ a.lo := he
          rw [← hall]; simpa using this)
        chains := fun h h1 h2 => by
          have := hr.chains h h1 h2
          rw [← hall] at this
          simpa [Abs.all] using this }
    · obtain ⟨hi1, o, e⟩ := (List.eq_nil_or_concat a.lo).resolve_left hlo
      exact ⟨hi1, o, by rw [e]; simp⟩
    · show [] ++ a.lo = a.all
      rw [← hall]; simp
  · rw [if_neg he, if_neg he]
    refine ⟨hr, ?_, rfl⟩
    have hne : a.hi ≠ [] := by
      intro e
      have := w.tiles_hi
      rw [e] at this
      exact he this.symm
    obtain ⟨hi1, o, e⟩ := (List.eq_nil_or_concat a.hi).resolve_left hne
    exact ⟨hi1, o, by rw [e]; simp⟩

theorem aevict_all {a : Abs} {hi1 : List Ent} {o : Ent} (hhi : a.hi = hi1 ++ [o]) :
    a.all = (aevict a).all ++ [o] := by
  rw [aevict_concat hhi]
  unfold Abs.all
  rw [hhi]
  split <;> simp

theorem loop_rep (len : Nat) (hlen : len ≤ 1001020) : ∀ (n : Nat) (s : Cache) (a : Abs),
    Rep s a → a.all.length < n →
    ∃ b a1 s1, aloop n a len = some (b, a1) ∧ cache_set_loop n s len = .ok (b, s1) ∧
      Rep s1 a1 := by
  intro n
  induction n with
  | zero => intro s a _ h; omega
  | succ n ih =>
    intro s a hr hn
    have w := hr.wf
    have hu : u32 (s.writer + len) = a.writer + len := by
      have := w.le2; have := w.le3; have := w.le4; have := w.size_hi
      unfold u32; rw [hr.writer_eq]; omega
    unfold aloop cache_set_loop
    rw [hu, hr.oldest_eq, hr.unused_eq, hr.writer_eq, hr.hsize_eq]
    by_cases hgt : a.writer + len > a.oldest
    · rw [if_pos hgt, if_pos hgt]
      by_cases hret : a.oldest = a.unused ∧ a.writer ≤ a.hsize
      · rw [if_pos hret, if_pos hret]
        exact ⟨false, a, s, rfl, rfl, hr⟩
      · rw [if_neg hret, if_neg hret]
        obtain ⟨hr1, ⟨hi1, o, hhi⟩, hall⟩ := wrap_rep hr hret
        obtain ⟨s2, hs2, hr2⟩ := evict_rep hr1 hhi
        have hl : (aevict (awrap a)).all.length < n := by
          have := aevict_all hhi
          rw [hall] at this
          rw [this, List.length_append] at hn
          simp at hn
          omega
        obtain ⟨b, a1, s1, h1, h2, h3⟩ := ih s2 _ hr2 hl
        refine ⟨b, a1, s1, h1, ?_, h3⟩
        rw [hs2]
        exact h2
    · rw [if_neg hgt, if_neg hgt]
      exact ⟨true, a, s, rfl, rfl, hr⟩

end DnsCache

namespace DnsCache

/-! ## Storing the new entry -/

theorem cache_set_write_eq {s : Cache} {now : Nat} {key data : List Byte} {ttl len : Nat}
    (sz1 : 4 ≤ s.size) (sz2 : s.size < 4294967296)
    (hh : hash s.hsize key + 4 ≤ s.size)
    (hp : uint32_unpack s.x (hash s.hsize key) + 4 ≤ s.size)
    (hw : s.writer + 12 ≤ s.size) :
    cache_set_write s now key data ttl len =
      .ok { s with
        x := write_arena s.x (hash s.hsize key) s.writer key data (tai_add ttl now),
        writer := u32 (s.writer + len),
        cache_motion := (s.cache_motion + len) % 18446744073709551616 } := by
  have u4 : u32 (s.writer + 4) = s.writer + 4 := by unfold u32; omega
  have u8 : u32 (s.writer + 8) = s.writer + 8 := by unfold u32; omega
  unfold cache_set_write write_arena body_arena
  simp only []
  rw [get4_ok sz1 sz2 hh]
  simp only [Res.ok_bind]
  by_cases hpos : uint32_unpack s.x (hash s.hsize key) = 0
  · simp only [hpos, ne_eq, not_true_eq_false, if_false, Res.ok_bind]
    rw [set4_ok sz1 sz2 (by omega)]
    simp only [Res.ok_bind, u4]
    rw [set4_with s _ sz1 sz2 (by omega)]
    simp only [Res.ok_bind, u8]
    rw [set4_with s _ sz1 sz2 (by omega)]
    simp only [Res.ok_bind]
    rw [set4_with s _ sz1 sz2 (by omega)]
    simp only [Res.ok_bind]
  · simp only [hpos, ne_eq, not_false_eq_true, if_true]
    rw [get4_ok sz1 sz2 hp]
    simp only [Res.ok_bind]
    rw [set4_ok sz1 sz2 hp]
    simp only [Res.ok_bind]
    rw [set4_with s _ sz1 sz2 (by omega)]
    simp only [Res.ok_bind, u4]
    rw [set4_with s _ sz1 sz2 (by omega)]
    simp only [Res.ok_bind, u8]
    rw [set4_with s _ sz1 sz2 (by omega)]
    simp only [Res.ok_bind]
    rw [set4_with s _ sz1 sz2 (by omega)]
    simp only [Res.ok_bind]

theorem body_arena_out {x : Nat → Nat} {w : Nat} {key data : List Byte} {ex a : Nat}
    (h : a < w + 4 ∨ w + (key.length + data.length + 20) ≤ a) :
    body_arena x w key data ex a = x a := by
  unfold body_arena
  rw [byte_copy_out (by omega), byte_copy_out (by omega), tai_pack_out (by omega),
    uint32_pack_out (by omega), uint32_pack_out (by omega)]

theorem body_arena_stored (x : Nat → Nat) (w : Nat) (key data : List Byte) (ex : Nat)
    (hk : key.length < 4294967296) (hd : data.length < 4294967296)
    (hex : ex < 18446744073709551616) :
    Stored (body_arena x w key data ex) { pos := w, key := key, data := data, expire := ex } := by
  unfold body_arena
  refine ⟨?_, ?_, ?_, ?_, ?_⟩
  · show uint32_unpack _ (w + 4) = key.length
    have e := uint32_unpack_pack_same x (w + 4) key.length
    rw [Nat.mod_eq_of_lt hk] at e
    refine Eq.trans ?_ e
    apply uint32_unpack_congr
    intro a h1 h2
    rw [byte_copy_out (by omega), byte_copy_out (by omega), tai_pack_out (by omega),
      uint32_pack_out (by omega)]
  · show uint32_unpack _ (w + 8) = data.length
    have e := uint32_unpack_pack_same (uint32_pack x (w + 4) key.length) (w + 8) data.length
    rw [Nat.mod_eq_of_lt hd] at e
    refine Eq.trans ?_ e
    apply uint32_unpack_congr
    intro a h1 h2
    rw [byte_copy_out (by omega), byte_copy_out (by omega), tai_pack_out (by omega)]
  · show tai_unpack _ (w + 12) = ex
    have e := tai_unpack_pack_same (uint32_pack (uint32_pack x (w + 4) key.length) (w + 8)
      data.length) (w + 12) ex hex
    refine Eq.trans ?_ e
    apply tai_unpack_congr
    intro a h1 h2
    rw [byte_copy_out (by omega), byte_copy_out (by omega)]
  · show bytes_at _ (w + 20) key
    refine bytes_at_congr ?_ (bytes_at_byte_copy (tai_pack (uint32_pack (uint32_pack x (w + 4)
      key.length) (w + 8) data.length) (w + 12) ex) (w + 20) key)
    intro a h1 h2
    exact (byte_copy_out (by omega)).symm
  · show bytes_at _ (w + 20 + key.length) data
    exact bytes_at_byte_copy _ _ _

end DnsCache

namespace DnsCache

set_option maxHeartbeats 1600000 in
theorem write_rep {s : Cache} {a : Abs} (hr : Rep s a) (now : Nat) (key data : List Byte)
    (ttl : Nat) (hfit : a.writer + (key.length + data.length + 20) ≤ a.oldest) :
    ∃ s1, cache_set_write s now key data ttl (key.length + data.length + 20) = .ok s1 ∧
      Rep s1 (awrite a now key data ttl (key.length + data.length + 20)) := by
  have w := hr.wf
  obtain ⟨sz1, sz2⟩ := rep_size_bounds hr
  have hszh := w.size_hi
  have l1 := w.le1; have l2 := w.le2; have l3 := w.le3; have l4 := w.le4
  have hsz := hr.size_eq
  obtain ⟨hs1, hs2⟩ := hash_slot key w.hsize_pow w.hsize_lo (wf_hsize_le w)
  have hc := hr.chains _ hs1 hs2
  have hnd := chain_list_nodup w hs2
  have hlt : ∀ q ∈ hash a.hsize key :: (bucket a.hsize (hash a.hsize key) a.all).map Ent.pos,
      uint32_unpack s.x q < 1073741824 :=
    chain_val_lt hc (by norm_num) (fun q hq => la_lt w (chain_list_la hs1 hs2 hq))
  have hla : ∀ q ∈ hash a.hsize key :: (bucket a.hsize (hash a.hsize key) a.all).map Ent.pos,
      LinkAddr a q := fun q hq => chain_list_la hs1 hs2 hq
  have hge : ∀ q ∈ (bucket a.hsize (hash a.hsize key) a.all).map Ent.pos, a.hsize ≤ q := by
    intro q hq
    obtain ⟨e, he, rfl⟩ := List.mem_map.mp hq
    exact (all_bounds w (mem_bucket.mp he).1).1
  have hdisj : ∀ h2, h2 ≠ hash a.hsize key → h2 + 4 ≤ a.hsize →
      ∀ q ∈ h2 :: (bucket a.hsize h2 a.all).map Ent.pos,
      q ∉ hash a.hsize key :: (bucket a.hsize (hash a.hsize key) a.all).map Ent.pos :=
    fun h2 hne hb q hq hq2 => chain_list_disjoint w hne hb hs2 hq hq2
  obtain ⟨h, hh⟩ : ∃ h, h = hash a.hsize key := ⟨_, rfl⟩
  obtain ⟨ps, hps⟩ : ∃ ps, ps = (bucket a.hsize h a.all).map Ent.pos := ⟨_, rfl⟩
  rw [← hh] at hs1 hs2 hc hnd hlt hla hge hdisj
  rw [← hps] at hc hnd hlt hla hge hdisj
  obtain ⟨W, hW⟩ : ∃ W, W = a.writer := ⟨_, rfl⟩
  obtain ⟨len, hlen⟩ : ∃ len, len = key.length + data.length + 20 := ⟨_, rfl⟩
  rw [← hlen, ← hW] at hfit
  rw [← hlen]
  have hhead : uint32_unpack s.x h = ps.headD 0 := by
    have := hc.1
    simpa using this
  -- free space
  have hfree : ∀ q, LinkAddr a q → q + 4 ≤ W ∨ W + len ≤ q := by
    intro q hq
    rcases hq with ⟨_, h2⟩ | ⟨e, he, rfl⟩
    · omega
    · have := all_bounds w he
      have := e.len_pos
      omega
  have hfree2 : ∀ e ∈ a.all, e.pos + e.len ≤ W ∨ W + len ≤ e.pos := by
    intro e he
    have := all_bounds w he
    omega
  -- the arena after the first store
  obtain ⟨x2, hx2⟩ : ∃ x2, x2 = (if uint32_unpack s.x h ≠ 0 then
      uint32_pack s.x (uint32_unpack s.x h)
        (uint32_unpack s.x (uint32_unpack s.x h) ^^^ h ^^^ W) else s.x) := ⟨_, rfl⟩
  have hh30 : h < 1073741824 := by omega
  have hW30 : W < 1073741824 := by omega
  have P : (∀ e ∈ a.all, Stored x2 e) ∧
      (∀ q, LinkAddr a q → ps.head? ≠ some q → uint32_unpack x2 q = uint32_unpack s.x q) ∧
      (∀ p1, ps.head? = some p1 → uint32_unpack x2 p1 = uint32_unpack s.x p1 ^^^ h ^^^ W) ∧
      uint32_unpack s.x h + 4 ≤ a.size := by
    cases ps with
    | nil =>
      have h0 : uint32_unpack s.x h = 0 := by simpa using hhead
      rw [h0] at hx2
      simp only [ne_eq, not_true_eq_false, if_false] at hx2
      subst hx2
      refine ⟨hr.stored, fun q _ _ => rfl, ?_, by omega⟩
      intro p1 hp1
      simp at hp1
    | cons p1 r =>
      have h0 : uint32_unpack s.x h = p1 := by simpa using hhead
      have hp1la : LinkAddr a p1 := hla p1 (by simp)
      have hp1ne : p1 ≠ 0 := by
        have := hge p1 (by simp)
        have := w.hsize_lo
        omega
      rw [h0] at hx2 ⊢
      rw [if_pos hp1ne] at hx2
      subst hx2
      refine ⟨fun e he => stored_after_pack w hp1la he (hr.stored e he), ?_, ?_,
        la_bound w hp1la⟩
      · intro q hq hne
        rw [unpack_after_pack w hp1la hq, if_neg]
        intro e
        exact hne (by simp [e])
      · intro p hp
        simp only [List.head?_cons, Option.some.injEq] at hp
        subst hp
        rw [unpack_after_pack w hp1la hp1la, if_pos rfl]
        have := xor_lt_30 (xor_lt_30 (hlt p1 (by simp)) hh30) hW30
        rw [Nat.mod_eq_of_lt (by omega)]
  obtain ⟨P1, P2, P3, P4⟩ := P
  -- the final arena
  obtain ⟨ex, hex⟩ : ∃ ex, ex = tai_add ttl now := ⟨_, rfl⟩
  have hexlt : ex < 18446744073709551616 := by
    rw [hex]; unfold tai_add; omega
  have hx9 : write_arena s.x h W key data ex =
      uint32_pack (body_arena (uint32_pack x2 W (uint32_unpack s.x h ^^^ h)) W key data ex) h W := by
    unfold write_arena
    simp only []
    rw [← hx2]
  obtain ⟨x9, hx9d⟩ : ∃ x9, x9 = write_arena s.x h W key data ex := ⟨_, rfl⟩
  rw [← hx9d] at hx9
  have Q1 : ∀ addr, (addr < h ∨ h + 4 ≤ addr) → (addr < W ∨ W + len ≤ addr) →
      x9 addr = x2 addr := by
    intro addr h1 h2
    rw [hx9, uint32_pack_out (by omega), body_arena_out (by omega), uint32_pack_out (by omega)]
  have Q2 : ∀ q, LinkAddr a q → q ≠ h → uint32_unpack x9 q = uint32_unpack x2 q := by
    intro q hq hne
    have h1 := la_sep w hq (la_slot hs1 hs2)
    have h2 := hfree q hq
    apply uint32_unpack_congr
    intro addr a1 a2
    exact Q1 addr (by omega) (by omega)
  have Q3 : uint32_unpack x9 h = W := by
    rw [hx9, uint32_unpack_pack_same, Nat.mod_eq_of_lt (by omega)]
  have Q4 : uint32_unpack x9 W = h ^^^ ps.headD 0 := by
    have e1 : uint32_unpack x9 W =
        uint32_unpack (uint32_pack x2 W (uint32_unpack s.x h ^^^ h)) W := by
      apply uint32_unpack_congr
      intro addr a1 a2
      rw [hx9, uint32_pack_out (by omega), body_arena_out (by omega)]
    rw [e1, uint32_unpack_pack_same, hhead, Nat.xor_comm]
    have : ps.headD 0 < 1073741824 := by
      rw [← hhead]; exact hlt h (by simp)
    have := xor_lt_30 hh30 this
    exact Nat.mod_eq_of_lt (by omega)
  have Q5 : Stored x9 { pos := W, key := key, data := data, expire := ex } := by
    refine Stored_congr ?_ (body_arena_stored (uint32_pack x2 W (uint32_unpack s.x h ^^^ h))
      W key data ex (by omega) (by omega) hexlt)
    intro addr a1 a2
    have a3 : W + 4 ≤ addr := a1
    have a4 : addr < W + (key.length + data.length + 20) := a2
    rw [hx9, uint32_pack_out (by show addr < h ∨ h + 4 ≤ addr; omega)]
  have Q6 : ∀ e ∈ a.all, Stored x9 e := by
    intro e he
    refine Stored_congr ?_ (P1 e he)
    intro addr a1 a2
    have := hfree2 e he
    have := all_bounds w he
    exact (Q1 addr (by omega) (by omega)).symm
  -- the chains
  have hall : (awrite a now key data ttl len).all =
      { pos := W, key := key, data := data, expire := ex } :: a.all := by
    unfold awrite Abs.all
    rw [hW, hex]
    rfl
  have hchains : ∀ h2, h2 % 4 = 0 → h2 + 4 ≤ a.hsize →
      Chain (uint32_unpack x9) 0
        (h2 :: (bucket a.hsize h2 ({ pos := W, key := key, data := data, expire := ex } ::
          a.all)).map Ent.pos) := by
    intro h2 b1 b2
    by_cases e2 : h2 = h
    · subst e2
      rw [bucket_cons_pos (by show hash a.hsize key = h2; exact hh.symm), List.map_cons, ← hps]
      apply chain_push hc Q3 Q4
      · intro p1 hp1
        have hp1m : p1 ∈ ps := by
          cases ps with
          | nil => simp at hp1
          | cons p r => simp at hp1; subst hp1; simp
        have hp1la : LinkAddr a p1 := hla p1 (List.mem_cons_of_mem _ hp1m)
        have := hge p1 hp1m
        rw [Q2 p1 hp1la (by omega), P3 p1 hp1]
      · intro q hq
        have hqm : q ∈ ps := List.mem_of_mem_tail hq
        have hqla : LinkAddr a q := hla q (List.mem_cons_of_mem _ hqm)
        have := hge q hqm
        rw [Q2 q hqla (by omega), P2 q hqla]
        intro e
        cases ps with
        | nil => simp at e
        | cons p r =>
          simp only [List.head?_cons, Option.some.injEq] at e
          subst e
          simp only [List.tail_cons] at hq
          have := (List.nodup_cons.mp (List.nodup_cons.mp hnd).2).1
          exact this hq
    · rw [bucket_cons_neg (by show hash a.hsize key ≠ h2; rw [← hh]; exact fun e => e2 e.symm)]
      apply chain_congr (hr.chains h2 b1 b2)
      intro q hq
      have hqla : LinkAddr a q := chain_list_la b1 b2 hq
      have hnot := hdisj h2 e2 b2 q hq
      rw [Q2 q hqla (by intro e; exact hnot (by simp [e])), P2 q hqla]
      intro e
      apply hnot
      cases ps with
      | nil => simp at e
      | cons p r =>
        simp only [List.head?_cons, Option.some.injEq] at e
        simp [e]
  -- run the code
  have hrun := @cache_set_write_eq s now key data ttl len sz1 sz2
    (by rw [hr.hsize_eq, ← hh, hsz]; omega)
    (by rw [hr.hsize_eq, ← hh, hsz]; exact P4)
    (by rw [hr.writer_eq, ← hW, hsz]; omega)
  rw [hr.hsize_eq, ← hh, hr.writer_eq, ← hW, ← hex, ← hx9d] at hrun
  refine ⟨_, hrun, ?_⟩
  have hu : u32 (W + len) = W + len := by unfold u32; omega
  exact {
    wf := {
      size_lo := w.size_lo, size_hi := w.size_hi, hsize_pow := w.hsize_pow,
      hsize_lo := w.hsize_lo,
      le1 := by show a.hsize ≤ a.writer + len; omega
      le2 := by show a.writer + len ≤ a.oldest; omega
      le3 := w.le3, le4 := w.le4, wrap := w.wrap,
      tiles_lo := by
        show Tiles (a.writer + len) a.hsize (_ :: a.lo)
        refine ⟨?_, w.tiles_lo⟩
        show a.writer + (key.length + data.length + 20) = a.writer + len
        rw [hlen]
      tiles_hi := w.tiles_hi }
    size_eq := hr.size_eq, hsize_eq := rfl,
    writer_eq := by show u32 (W + len) = a.writer + len; rw [hu, hW],
    oldest_eq := hr.oldest_eq, unused_eq := hr.unused_eq,
    motion_eq := by
      show (s.cache_motion + len) % 18446744073709551616 =
        (a.motion + len) % 18446744073709551616
      rw [hr.motion_eq]
    stored := by
      intro e he
      rw [hall] at he
      rcases List.mem_cons.mp he with rfl | hm
      · exact Q5
      · exact Q6 e hm
    chains := by
      intro h2 b1 b2
      rw [hall]
      exact hchains h2 b1 b2 }

end DnsCache

namespace DnsCache

/-! ## `cache_set` and `cache_get` on a represented state -/

theorem aloop_true (len : Nat) : ∀ (n : Nat) (a a1 : Abs),
    aloop n a len = some (true, a1) → a1.writer + len ≤ a1.oldest := by
  intro n
  induction n with
  | zero => intro a a1 h; simp [aloop] at h
  | succ n ih =>
    intro a a1 h
    unfold aloop at h
    split at h
    · split at h
      · simp at h
      · exact ih _ _ h
    · simp only [Option.some.injEq, Prod.mk.injEq, true_and] at h
      subst h
      omega

theorem set_rep {s : Cache} {a : Abs} (hr : Rep s a) (now : Nat) (key data : List Byte)
    (ttl : Nat) :
    ∃ a1 s1, aset a now key data ttl = some a1 ∧ cache_set s now key data ttl = .ok s1 ∧
      Rep s1 a1 := by
  unfold aset cache_set
  by_cases hk : key.length > MAXKEYLEN
  · rw [if_pos hk, if_pos hk]; exact ⟨a, s, rfl, rfl, hr⟩
  rw [if_neg hk, if_neg hk]
  by_cases hd : data.length > MAXDATALEN
  · rw [if_pos hd, if_pos hd]; exact ⟨a, s, rfl, rfl, hr⟩
  rw [if_neg hd, if_neg hd]
  by_cases ht : ttl = 0
  · rw [if_pos ht, if_pos ht]; exact ⟨a, s, rfl, rfl, hr⟩
  rw [if_neg ht, if_neg ht]
  simp only [MAXKEYLEN, MAXDATALEN] at hk hd
  have hu : u32 (key.length + data.length + 20) = key.length + data.length + 20 := by
    unfold u32; omega
  simp only [hu]
  obtain ⟨b, a1, s1, h1, h2, h3⟩ := loop_rep (key.length + data.length + 20) (by omega)
    a.size s a hr (all_length_lt hr.wf)
  rw [hr.size_eq, h1, h2]
  simp only [Res.ok_bind]
  cases b with
  | false => exact ⟨a1, s1, rfl, rfl, h3⟩
  | true =>
    have hfit := aloop_true _ _ _ _ h1
    obtain ⟨s2, hs2, hr2⟩ := write_rep h3 now key data (if ttl > 604800 then 604800 else ttl) hfit
    exact ⟨_, s2, rfl, hs2, hr2⟩

theorem get_loop_rep {s : Cache} {a : Abs} (hr : Rep s a) (now : Nat) (key : List Byte) :
    ∀ (n prev : Nat) (es : List Ent), (∀ e ∈ es, e ∈ a.all) →
      Chain (uint32_unpack s.x) prev (es.map Ent.pos) →
      cache_get_loop s now key n prev ((es.map Ent.pos).headD 0) =
        .ok (ahit now key ((es.take n).find? (fun e => decide (e.key = key)))) := by
  have w := hr.wf
  obtain ⟨sz1, sz2⟩ := rep_size_bounds hr
  have hszh := w.size_hi
  have hsz := hr.size_eq
  intro n
  induction n with
  | zero => intro prev es _ _; simp [cache_get_loop, ahit]
  | succ n ih =>
    intro prev es hes hc
    cases es with
    | nil => simp [cache_get_loop, ahit]
    | cons e r =>
      have he : e ∈ a.all := hes e (List.mem_cons_self _ _)
      have hb := all_bounds w he
      have hl := e.len_pos
      have hlen : e.len = e.key.length + e.data.length + 20 := rfl
      obtain ⟨k1, k2, k3, k4, k5⟩ := hr.stored e he
      obtain ⟨c1, c2⟩ := hc
      have hpos : e.pos ≠ 0 := by have := w.hsize_lo; omega
      have u4 : u32 (e.pos + 4) = e.pos + 4 := by unfold u32; omega
      have u8 : u32 (e.pos + 8) = e.pos + 8 := by unfold u32; omega
      have hnext : (get4 s e.pos >>= fun l => cache_get_loop s now key n e.pos (prev ^^^ l)) =
          .ok (ahit now key ((r.take n).find? (fun e => decide (e.key = key)))) := by
        rw [get4_ok sz1 sz2 (by omega)]
        simp only [Res.ok_bind]
        have c3 : uint32_unpack s.x e.pos = prev ^^^ (r.map Ent.pos).headD 0 := c1
        rw [c3, Nat.xor_cancel_left]
        exact ih e.pos r (fun e1 h1 => hes e1 (List.mem_cons_of_mem _ h1)) c2
      simp only [List.map_cons, List.headD_cons, List.take_succ_cons]
      unfold cache_get_loop
      rw [if_neg hpos]
      simp only []
      rw [u4, get4_ok sz1 sz2 (by omega), k1]
      simp only [Res.ok_bind]
      by_cases hkl : e.key.length = key.length
      · rw [if_pos hkl]
        have hu : u32 (e.pos + 20 + key.length) = e.pos + 20 + key.length := by
          unfold u32; omega
        rw [hu, if_neg (by omega)]
        by_cases hkey : e.key = key
        · have hbe : byte_equal key s.x (e.pos + 20) = true :=
            (byte_equal_iff e.key key (e.pos + 20) hkl.symm k4).mpr hkey.symm
          rw [hbe]
          simp only [if_true]
          rw [List.find?_cons_of_pos _ (by simpa using hkey), k3]
          unfold ahit
          simp only []
          by_cases hexp : e.expire < now
          · rw [if_pos hexp, if_pos hexp]
          · rw [if_neg hexp, if_neg hexp, u8, get4_ok sz1 sz2 (by omega), k2]
            simp only [Res.ok_bind]
            have hs : sub32 (sub32 (sub32 s.size e.pos) 20) key.length =
                s.size - e.pos - 20 - key.length := by
              unfold sub32; omega
            rw [hs, if_neg (by omega)]
        · have hbe : ¬ (byte_equal key s.x (e.pos + 20) = true) := fun hb2 =>
            hkey ((byte_equal_iff e.key key (e.pos + 20) hkl.symm k4).mp hb2).symm
          rw [if_neg hbe, List.find?_cons_of_neg _ (by simpa using hkey)]
          exact hnext
      · rw [if_neg hkl, List.find?_cons_of_neg _ (by
          simp only [decide_eq_true_eq]; intro e1; exact hkl (by rw [e1]))]
        exact hnext

theorem get_rep {s : Cache} {a : Abs} (hr : Rep s a) (now : Nat) (key : List Byte) :
    cache_get s now key = .ok (aget a now key) := by
  have w := hr.wf
  obtain ⟨sz1, sz2⟩ := rep_size_bounds hr
  unfold cache_get aget
  by_cases hk : key.length > MAXKEYLEN
  · rw [if_pos hk, if_pos hk]
  rw [if_neg hk, if_neg hk, hr.hsize_eq]
  obtain ⟨hs1, hs2⟩ := hash_slot key w.hsize_pow w.hsize_lo (wf_hsize_le w)
  have hc := hr.chains _ hs1 hs2
  have l1 := w.le1; have l2 := w.le2; have l3 := w.le3; have l4 := w.le4
  simp only []
  rw [get4_ok sz1 sz2 (by rw [hr.size_eq]; omega)]
  simp only [Res.ok_bind]
  obtain ⟨c1, c2⟩ := hc
  have c3 : uint32_unpack s.x (hash a.hsize key) =
      ((bucket a.hsize (hash a.hsize key) a.all).map Ent.pos).headD 0 := by
    simpa using c1
  rw [c3]
  exact get_loop_rep hr now key 101 _ _ (fun e he => (mem_bucket.mp he).1) c2

end DnsCache

namespace DnsCache

/-! ## Every state reachable by `cache_set` is represented -/

theorem hsize_loop_pow (n size : Nat) (hs : size ≤ 1000000000) :
    ∀ hsize, (∃ k, hsize = 2 ^ k) → ∃ k, hsize_loop n size hsize = 2 ^ k := by
  induction n with
  | zero => intro hsize h; exact h
  | succ n ih =>
    intro hsize h
    unfold hsize_loop
    split
    · rename_i hle
      obtain ⟨k, rfl⟩ := h
      have h2 : u32 (2 ^ k * 2) = 2 ^ (k + 1) := by
        unfold u32
        rw [pow_succ]
        omega
      rw [h2]
      exact ih _ ⟨k + 1, rfl⟩
    · exact h

theorem cache_init_pow (c : Nat) : ∃ k, (cache_init c).hsize = 2 ^ k := by
  have hs := cache_init_size c
  exact hsize_loop_pow 32 (cache_init c).size hs.2 4 ⟨2, rfl⟩

theorem ainit_wf (c : Nat) : WF (ainit c) := by
  have h1 := cache_init_size c
  have h2 := cache_init_hsize c
  exact {
    size_lo := h1.1, size_hi := h1.2, hsize_pow := cache_init_pow c, hsize_lo := h2.1,
    le1 := le_refl _,
    le2 := by show (cache_init c).hsize ≤ (cache_init c).size; omega
    le3 := le_refl _, le4 := le_refl _, wrap := fun _ => rfl,
    tiles_lo := rfl, tiles_hi := rfl }

theorem init_rep (c : Nat) : Rep (cache_init c) (ainit c) :=
  { wf := ainit_wf c, size_eq := rfl, hsize_eq := rfl, writer_eq := rfl, oldest_eq := rfl,
    unused_eq := rfl, motion_eq := rfl,
    stored := fun e he => by cases he
    chains := fun h _ _ => ⟨by
      show uint32_unpack (fun _ => 0) h = 0 ^^^ 0
      simp [uint32_unpack], trivial⟩ }

theorem reach_rep {s : Cache} (h : ReachSet s) : ∃ a, Rep s a := by
  induction h with
  | init c => exact ⟨_, init_rep c⟩
  | set now key data ttl _ hset ih =>
    obtain ⟨a, hr⟩ := ih
    obtain ⟨a1, s1, _, h2, h3⟩ := set_rep hr now key data ttl
    rw [hset] at h2
    cases h2
    exact ⟨a1, h3⟩

/-! ## The abstract loop on well-formed states -/

theorem awrap_wf {a : Abs} (w : WF a) (hn : ¬(a.oldest = a.unused ∧ a.writer ≤ a.hsize)) :
    WF (awrap a) ∧ (∃ hi1 o, (awrap a).hi = hi1 ++ [o]) ∧ (awrap a).all = a.all ∧
      (awrap a).size = a.size ∧ (awrap a).hsize = a.hsize ∧ (awrap a).motion = a.motion := by
  unfold awrap
  by_cases he : a.oldest = a.unused
  · rw [if_pos he]
    have hgt : a.hsize < a.writer := by
      have := w.le1
      by_contra hc
      exact hn ⟨he, by omega⟩
    have hnil : a.hi = [] := tiles_eq_nil w.tiles_hi he.symm
    have hlo : a.lo ≠ [] := by
      intro e
      have := w.tiles_lo
      rw [e] at this
      have : a.writer = a.hsize := this
      omega
    refine ⟨?_, ?_, ?_, rfl, rfl, rfl⟩
    · exact {
        size_lo := w.size_lo, size_hi := w.size_hi, hsize_pow := w.hsize_pow,
        hsize_lo := w.hsize_lo, le1 := le_refl _, le2 := le_refl _,
        le3 := w.le1,
        le4 := by have := w.le2; have := w.le3; have := w.le4; show a.writer ≤ a.size; omega
        wrap := fun e => by
          have e2 : a.hsize = a.writer := e
          omega
        tiles_lo := rfl
        tiles_hi := w.tiles_lo }
    · obtain ⟨hi1, o, e⟩ := (List.eq_nil_or_concat a.lo).resolve_left hlo
      exact ⟨hi1, o, by rw [e]; simp⟩
    · show [] ++ a.lo = a.lo ++ a.hi
      rw [hnil]; simp
  · rw [if_neg he]
    refine ⟨w, ?_, rfl, rfl, rfl, rfl⟩
    have hne : a.hi ≠ [] := by
      intro e
      have := w.tiles_hi
      rw [e] at this
      exact he this.symm
    obtain ⟨hi1, o, e⟩ := (List.eq_nil_or_concat a.hi).resolve_left hne
    exact ⟨hi1, o, by rw [e]; simp⟩

theorem aevict_wf {a : Abs} (w : WF a) {hi1 : List Ent} {o : Ent} (hhi : a.hi = hi1 ++ [o]) :
    WF (aevict a) ∧ (aevict a).size = a.size ∧ (aevict a).hsize = a.hsize ∧
      (aevict a).motion = a.motion ∧ (aevict a).writer = a.writer ∧
      (aevict a).lo = a.lo := by
  have ht := w.tiles_hi
  rw [hhi, tiles_concat] at ht
  obtain ⟨hopos, ht1⟩ := ht
  have htl := tiles_le ht1
  have holen := o.len_pos
  rw [aevict_concat hhi]
  by_cases heq : o.pos + o.len = a.unused
  · rw [if_pos heq]
    have hnil : hi1 = [] := tiles_eq_nil ht1 (by omega)
    refine ⟨?_, rfl, rfl, rfl, rfl, rfl⟩
    exact {
      size_lo := w.size_lo, size_hi := w.size_hi, hsize_pow := w.hsize_pow,
      hsize_lo := w.hsize_lo, le1 := w.le1,
      le2 := by have := w.le2; have := w.le3; have := w.le4; show a.writer ≤ a.size; omega
      le3 := le_refl _, le4 := le_refl _, wrap := fun _ => rfl,
      tiles_lo := w.tiles_lo,
      tiles_hi := by rw [hnil]; exact rfl }
  · rw [if_neg heq]
    refine ⟨?_, rfl, rfl, rfl, rfl, rfl⟩
    exact {
      size_lo := w.size_lo, size_hi := w.size_hi, hsize_pow := w.hsize_pow,
      hsize_lo := w.hsize_lo, le1 := w.le1,
      le2 := by have := w.le2; show a.writer ≤ o.pos + o.len; omega
      le3 := by show o.pos + o.len ≤ a.unused; omega
      le4 := w.le4,
      wrap := fun e => absurd e heq,
      tiles_lo := w.tiles_lo,
      tiles_hi := by rw [← hopos] at ht1; exact ht1 }

theorem aloop_wf (len : Nat) : ∀ (n : Nat) (a a1 : Abs) (b : Bool), WF a →
    aloop n a len = some (b, a1) →
    WF a1 ∧ a1.size = a.size ∧ a1.hsize = a.hsize ∧ a1.motion = a.motion ∧
      (∃ d, a.all = a1.all ++ d) ∧
      (b = true → a1.writer + len ≤ a1.oldest) ∧
      (b = false → a.size < a.hsize + len) := by
  intro n
  induction n with
  | zero => intro a a1 b _ h; simp [aloop] at h
  | succ n ih =>
    intro a a1 b w h
    unfold aloop at h
    by_cases hgt : a.writer + len > a.oldest
    · rw [if_pos hgt] at h
      by_cases hret : a.oldest = a.unused ∧ a.writer ≤ a.hsize
      · rw [if_pos hret] at h
        simp only [Option.some.injEq, Prod.mk.injEq] at h
        obtain ⟨rfl, rfl⟩ := h
        refine ⟨w, rfl, rfl, rfl, ⟨[], by simp⟩, ?_, ?_⟩
        · intro e; cases e
        · intro _
          have := w.wrap hret.1
          have := w.le1
          omega
      · rw [if_neg hret] at h
        obtain ⟨w1, ⟨hi1, o, hhi⟩, e1, e2, e3, e4⟩ := awrap_wf w hret
        obtain ⟨w2, f1, f2, f3, f4, f5⟩ := aevict_wf w1 hhi
        obtain ⟨w3, g1, g2, g3, ⟨d, g4⟩, g5, g6⟩ := ih _ a1 b w2 h
        refine ⟨w3, by omega, by omega, by omega, ⟨d ++ [o], ?_⟩, g5, ?_⟩
        · rw [← e1, aevict_all hhi, g4, List.append_assoc]
        · intro hb
          have := g6 hb
          omega
    · rw [if_neg hgt] at h
      simp only [Option.some.injEq, Prod.mk.injEq] at h
      obtain ⟨rfl, rfl⟩ := h
      refine ⟨w, rfl, rfl, rfl, ⟨[], by simp⟩, fun _ => by omega, ?_⟩
      intro e; cases e

end DnsCache

namespace DnsCache

/-! ## A write that fits is stored and found -/

theorem aloop_some (len : Nat) : ∀ (n : Nat) (a : Abs), WF a → a.all.length < n →
    ∃ b a1, aloop n a len = some (b, a1) := by
  intro n
  induction n with
  | zero => intro a _ h; omega
  | succ n ih =>
    intro a w hn
    unfold aloop
    by_cases hgt : a.writer + len > a.oldest
    · rw [if_pos hgt]
      by_cases hret : a.oldest = a.unused ∧ a.writer ≤ a.hsize
      · rw [if_pos hret]; exact ⟨_, _, rfl⟩
      · rw [if_neg hret]
        obtain ⟨w1, ⟨hi1, o, hhi⟩, e1, _⟩ := awrap_wf w hret
        obtain ⟨w2, _⟩ := aevict_wf w1 hhi
        apply ih _ w2
        have := aevict_all hhi
        rw [e1] at this
        rw [this, List.length_append] at hn
        simp at hn
        omega
    · rw [if_neg hgt]; exact ⟨_, _, rfl⟩

theorem aset_fit {a : Abs} (w : WF a) (now : Nat) (key data : List Byte) (ttl : Nat)
    (hk : key.length ≤ 1000) (hd : data.length ≤ 1000000) (httl : 1 ≤ ttl)
    (hfit : a.hsize + (key.length + data.length + 20) ≤ a.size) :
    ∃ a0, aloop a.size a (key.length + data.length + 20) = some (true, a0) ∧
      aset a now key data ttl =
        some (awrite a0 now key data (if ttl > 604800 then 604800 else ttl)
          (key.length + data.length + 20)) ∧
      WF a0 ∧ a0.size = a.size ∧ a0.hsize = a.hsize ∧ a0.motion = a.motion ∧
      (∃ d, a.all = a0.all ++ d) ∧
      a0.writer + (key.length + data.length + 20) ≤ a0.oldest := by
  obtain ⟨b, a0, h⟩ := aloop_some (key.length + data.length + 20) a.size a w (all_length_lt w)
  obtain ⟨w0, g1, g2, g3, g4, g5, g6⟩ := aloop_wf _ _ _ _ _ w h
  cases b with
  | false =>
    have := g6 rfl
    omega
  | true =>
    refine ⟨a0, h, ?_, w0, g1, g2, g3, g4, g5 rfl⟩
    unfold aset
    rw [if_neg (by simp only [MAXKEYLEN]; omega), if_neg (by simp only [MAXDATALEN]; omega),
      if_neg (by omega)]
    simp only []
    rw [h]

theorem aget_awrite (a0 : Abs) (now t1 : Nat) (key data : List Byte) (ttl len : Nat)
    (hk : key.length ≤ 1000) :
    aget (awrite a0 now key data ttl len) t1 key =
      ahit t1 key (some (Ent.mk a0.writer key data (tai_add ttl now))) := by
  unfold aget
  rw [if_neg (by simp only [MAXKEYLEN]; omega)]
  have hall : (awrite a0 now key data ttl len).all =
      { pos := a0.writer, key := key, data := data, expire := tai_add ttl now } :: a0.all := rfl
  have hh : (awrite a0 now key data ttl len).hsize = a0.hsize := rfl
  rw [hall, hh, bucket_cons_pos (e := Ent.mk a0.writer key data (tai_add ttl now))
    (l := a0.all) (show hash a0.hsize key = hash a0.hsize key from rfl)]
  simp

/-- The outcome of `cache_set` followed by `cache_get` of the same key on a
state reachable by `cache_set`, for a write that fits the arena. -/
theorem set_then_get {s : Cache} (hs : ReachSet s) (k d : List Byte) (ttl t t1 : Nat)
    (hk : k.length ≤ 1000) (hd : d.length ≤ 1000000)
    (hfit : 20 + k.length + d.length ≤ s.size - s.hsize) (httl : 1 ≤ ttl) :
    ∃ s1 w, cache_set s t k d ttl = .ok s1 ∧ ReachSet s1 ∧
      Stored s1.x (Ent.mk w k d (tai_add (if ttl > 604800 then 604800 else ttl) t)) ∧
      cache_get s1 t1 k =
        .ok (ahit t1 k (some (Ent.mk w k d (tai_add (if ttl > 604800 then 604800 else ttl) t)))) := by
  obtain ⟨a, hr⟩ := reach_rep hs
  have w := hr.wf
  have hfit2 : a.hsize + (k.length + d.length + 20) ≤ a.size := by
    have := w.le1; have := w.le2; have := w.le3; have := w.le4
    rw [← hr.size_eq, ← hr.hsize_eq]
    omega
  obtain ⟨a0, _, h2, _⟩ := aset_fit w t k d ttl hk hd httl hfit2
  obtain ⟨a1, s1, g1, g2, g3⟩ := set_rep hr t k d ttl
  rw [h2] at g1
  cases g1
  refine ⟨s1, a0.writer, g2, ReachSet.set t k d ttl hs g2, ?_, ?_⟩
  · exact g3.stored _ (by
      show _ ∈ (_ :: a0.lo) ++ a0.hi
      simp)
  · rw [get_rep g3 t1 k, aget_awrite a0 t t1 k d _ _ hk]

theorem ahit_live {t t1 ttl w : Nat} {k d : List Byte} (httl : 1 ≤ ttl) (ht : t ≤ t1)
    (ht1 : t1 ≤ t + min ttl 604800) (hclock : t + 604800 < 18446744073709551616) :
    ahit t1 k (some (Ent.mk w k d (tai_add (if ttl > 604800 then 604800 else ttl) t))) =
      some { off := w + 20 + k.length, datalen := d.length, ttl := t + min ttl 604800 - t1 } := by
  have e1 : (if ttl > 604800 then 604800 else ttl) = min ttl 604800 := by
    split <;> omega
  have hm : min ttl 604800 ≤ 604800 := Nat.min_le_right _ _
  have e2 : tai_add (min ttl 604800) t = t + min ttl 604800 := by
    unfold tai_add; omega
  have e3 : tai_sub (t + min ttl 604800) t1 = t + min ttl 604800 - t1 := by
    unfold tai_sub; omega
  unfold ahit
  simp only [e1, e2, e3]
  rw [if_neg (by omega), if_neg (by omega)]

end DnsCache

namespace DnsCache

/-! ## Sequences of `cache_set` -/

theorem seq_rep (items : List Ins) : ∀ {s : Cache} {a : Abs}, Rep s a →
    ∃ a1 s1, aset_seq a items = some a1 ∧ set_seq s items = .ok s1 ∧ Rep s1 a1 := by
  induction items with
  | nil => intro s a hr; exact ⟨a, s, rfl, rfl, hr⟩
  | cons it rest ih =>
    intro s a hr
    obtain ⟨a1, s1, h1, h2, h3⟩ := set_rep hr it.now it.key it.data it.ttl
    obtain ⟨a2, s2, g1, g2, g3⟩ := ih h3
    refine ⟨a2, s2, ?_, ?_, g3⟩
    · show (aset a it.now it.key it.data it.ttl).bind _ = _
      rw [h1]; exact g1
    · show (cache_set s it.now it.key it.data it.ttl).bind _ = _
      rw [h2]; exact g2

theorem awrite_wf {a : Abs} (w : WF a) (now : Nat) (key data : List Byte) (ttl : Nat)
    (hfit : a.writer + (key.length + data.length + 20) ≤ a.oldest) :
    WF (awrite a now key data ttl (key.length + data.length + 20)) :=
  { size_lo := w.size_lo, size_hi := w.size_hi, hsize_pow := w.hsize_pow,
    hsize_lo := w.hsize_lo,
    le1 := by have := w.le1; show a.hsize ≤ a.writer + _; omega
    le2 := hfit
    le3 := w.le3, le4 := w.le4, wrap := w.wrap,
    tiles_lo := ⟨rfl, w.tiles_lo⟩
    tiles_hi := w.tiles_hi }

/-- A write into free space: no eviction, the entry is appended. -/
theorem aset_free {a : Abs} (w : WF a) (it : Ins) (hk : it.key.length ≤ 1000)
    (hd : it.data.length ≤ 1000000) (httl : 1 ≤ it.ttl)
    (hfit : a.writer + (it.key.length + it.data.length + 20) ≤ a.oldest) :
    aset a it.now it.key it.data it.ttl =
      some (awrite a it.now it.key it.data (if it.ttl > 604800 then 604800 else it.ttl)
        (it.key.length + it.data.length + 20)) := by
  unfold aset
  rw [if_neg (by simp only [MAXKEYLEN]; omega), if_neg (by simp only [MAXDATALEN]; omega),
    if_neg (by omega)]
  simp only []
  have hs : a.size = (a.size - 1) + 1 := by have := w.size_lo; omega
  rw [hs]
  unfold aloop
  rw [if_neg (by omega)]

theorem fill_seq (L : Nat) (items : List Ins) : ∀ {a : Abs}, WF a → a.hi = [] →
    a.oldest = a.size →
    (∀ it ∈ items, it.key.length ≤ 1000 ∧ it.data.length ≤ 1000000 ∧
      it.key.length + it.data.length + 20 = L ∧ 1 ≤ it.ttl) →
    a.writer + items.length * L ≤ a.size →
    ∃ a1 ents, aset_seq a items = some a1 ∧ WF a1 ∧ a1.hi = [] ∧ a1.oldest = a1.size ∧
      a1.writer = a.writer + items.length * L ∧ a1.size = a.size ∧ a1.hsize = a.hsize ∧
      a1.lo = ents ++ a.lo ∧ ents.map Ent.view = items.reverse.map Ins.view := by
  induction items with
  | nil =>
    intro a w h1 h2 _ _
    exact ⟨a, [], rfl, w, h1, h2, by simp, rfl, rfl, by simp, by simp⟩
  | cons it rest ih =>
    intro a w h1 h2 hv hfit
    obtain ⟨v1, v2, v3, v4⟩ := hv it (List.mem_cons_self _ _)
    simp only [List.length_cons] at hfit
    have hf : a.writer + (it.key.length + it.data.length + 20) ≤ a.oldest := by
      rw [v3, h2]
      have : (rest.length + 1) * L = rest.length * L + L := by ring
      omega
    have hset := aset_free w it v1 v2 v4 hf
    have w1 := awrite_wf w it.now it.key it.data (if it.ttl > 604800 then 604800 else it.ttl) hf
    obtain ⟨a1, ents, g1, g2, g3, g4, g5, g6, g7, g8, g9⟩ := ih w1 h1 h2
      (fun j hj => hv j (List.mem_cons_of_mem _ hj))
      (by
        show a.writer + (it.key.length + it.data.length + 20) + rest.length * L ≤ a.size
        rw [v3]
        have : (rest.length + 1) * L = rest.length * L + L := by ring
        omega)
    refine ⟨a1, ents ++ [Ent.mk a.writer it.key it.data
      (tai_add (if it.ttl > 604800 then 604800 else it.ttl) it.now)], ?_, g2, g3, g4, ?_, g6, g7,
      ?_, ?_⟩
    · show (aset a it.now it.key it.data it.ttl).bind _ = _
      rw [hset]; exact g1
    · rw [g5]
      show a.writer + (it.key.length + it.data.length + 20) + rest.length * L = _
      rw [v3]
      simp only [List.length_cons]
      ring
    · rw [g8]
      show ents ++ (_ :: a.lo) = _
      simp
    · rw [List.map_append, g9]
      simp [Ent.view, Ins.view]

end DnsCache

namespace DnsCache

theorem aset_wf {a a1 : Abs} (w : WF a) {now : Nat} {key data : List Byte} {ttl : Nat}
    (h : aset a now key data ttl = some a1) :
    WF a1 ∧ a1.size = a.size ∧ a1.hsize = a.hsize := by
  unfold aset at h
  split at h
  · cases h; exact ⟨w, rfl, rfl⟩
  split at h
  · cases h; exact ⟨w, rfl, rfl⟩
  split at h
  · cases h; exact ⟨w, rfl, rfl⟩
  simp only [] at h
  split at h
  · cases h
  · rename_i a0 hl
    cases h
    obtain ⟨w0, g1, g2, _⟩ := aloop_wf _ _ _ _ _ w hl
    exact ⟨w0, g1, g2⟩
  · rename_i a0 hl
    cases h
    obtain ⟨w0, g1, g2, _, _, g5, _⟩ := aloop_wf _ _ _ _ _ w hl
    exact ⟨awrite_wf w0 _ _ _ _ (g5 rfl), g1, g2⟩

/-- The write into a full arena that has not wrapped yet: the ring wraps,
exactly the oldest entry is evicted, and the new entry takes its place. -/
theorem aset_wrap {a : Abs} (w : WF a) (h2 : a.oldest = a.size)
    (hw : a.writer = a.size) {l : List Ent} {e1 : Ent} (hlo : a.lo = l ++ [e1]) (it : Ins)
    (hk : it.key.length ≤ 1000) (hd : it.data.length ≤ 1000000) (httl : 1 ≤ it.ttl)
    (hlen : it.key.length + it.data.length + 20 = e1.len) :
    ∃ a1, aset a it.now it.key it.data it.ttl = some a1 ∧
      a1.all = Ent.mk a.hsize it.key it.data
        (tai_add (if it.ttl > 604800 then 604800 else it.ttl) it.now) :: l := by
  have ht := w.tiles_lo
  rw [hlo, tiles_concat] at ht
  obtain ⟨hpos, ht1⟩ := ht
  have htl := tiles_le ht1
  have hl1 := e1.len_pos
  have l3 := w.le3; have l4 := w.le4
  have hun : a.unused = a.size := by omega
  unfold aset
  rw [if_neg (by simp only [MAXKEYLEN]; omega), if_neg (by simp only [MAXDATALEN]; omega),
    if_neg (by omega)]
  simp only []
  have hs : a.size = (a.size - 2) + 1 + 1 := by have := w.size_lo; omega
  have hwrap : awrap a = Abs.mk a.size a.hsize a.hsize a.hsize a.writer a.motion [] a.lo := by
    unfold awrap
    rw [if_pos (by omega)]
  have hhi : (awrap a).hi = l ++ [e1] := by rw [hwrap]; exact hlo
  have hev := aevict_concat hhi
  rw [hlen]
  by_cases heq : e1.pos + e1.len = a.size
  · have hev2 : aevict (awrap a) =
        Abs.mk a.size a.hsize a.hsize a.size a.size a.motion [] l := by
      rw [hev, hwrap]
      simp only []
      rw [if_pos (by omega)]
    have hloop : aloop a.size a e1.len = some (true, aevict (awrap a)) := by
      rw [hs]
      unfold aloop
      rw [if_pos (by omega), if_neg (by omega)]
      unfold aloop
      rw [hev2]
      simp only []
      rw [if_neg (by omega)]
    rw [hloop]
    refine ⟨_, rfl, ?_⟩
    rw [hev2]
    simp [awrite, Abs.all]
  · have hev2 : aevict (awrap a) =
        Abs.mk a.size a.hsize a.hsize (e1.pos + e1.len) a.writer a.motion [] l := by
      rw [hev, hwrap]
      simp only []
      rw [if_neg (by omega)]
    have hloop : aloop a.size a e1.len = some (true, aevict (awrap a)) := by
      rw [hs]
      unfold aloop
      rw [if_pos (by omega), if_neg (by omega)]
      unfold aloop
      rw [hev2]
      simp only []
      rw [if_neg (by omega)]
    rw [hloop]
    refine ⟨_, rfl, ?_⟩
    rw [hev2]
    simp [awrite, Abs.all]

end DnsCache

namespace DnsCache

/-! ## Lookups in a state whose live entries are known -/

theorem aget_absent {a : Abs} (key : List Byte) (h : ∀ x ∈ a.all, x.key ≠ key) (T : Nat) :
    aget a T key = none := by
  unfold aget
  split
  · rfl
  · have : ((bucket a.hsize (hash a.hsize key) a.all).take 101).find?
        (fun e => decide (e.key = key)) = none := by
      rw [List.find?_eq_none]
      intro x hx
      have hx2 := (mem_bucket.mp (List.mem_of_mem_take hx)).1
      simpa using h x hx2
    rw [this]
    rfl

theorem aget_found {a : Abs} {front back : List Ent} {e : Ent} (hall : a.all = front ++ e :: back)
    (hk : e.key.length ≤ 1000) (hfront : ∀ x ∈ front, x.key ≠ e.key)
    (hflood : (bucket a.hsize (hash a.hsize e.key) front).length ≤ 100) (T : Nat) :
    aget a T e.key = ahit T e.key (some e) := by
  unfold aget
  rw [if_neg (by simp only [MAXKEYLEN]; omega), hall, bucket_append, bucket_cons_pos rfl,
    List.take_append_eq_append_take, List.take_of_length_le (by omega)]
  have h1 : 101 - (bucket a.hsize (hash a.hsize e.key) front).length =
      (100 - (bucket a.hsize (hash a.hsize e.key) front).length) + 1 := by omega
  rw [h1, List.take_succ_cons, List.find?_append]
  have h2 : (bucket a.hsize (hash a.hsize e.key) front).find? (fun x => decide (x.key = e.key)) =
      none := by
    rw [List.find?_eq_none]
    intro x hx
    simpa using hfront x (mem_bucket.mp hx).1
  rw [h2]
  simp

theorem ahit_unexpired {T : Nat} {e : Ent} (key : List Byte) (h : T ≤ e.expire) :
    ∃ hit, ahit T key (some e) = some hit ∧ hit.datalen = e.data.length ∧
      hit.off = e.pos + 20 + key.length := by
  unfold ahit
  simp only []
  rw [if_neg (by omega)]
  exact ⟨_, rfl, rfl, rfl⟩

theorem aset_seq_append (l1 l2 : List Ins) : ∀ (a : Abs),
    aset_seq a (l1 ++ l2) = (aset_seq a l1).bind fun a1 => aset_seq a1 l2 := by
  induction l1 with
  | nil => intro a; rfl
  | cons it rest ih =>
    intro a
    show (aset a it.now it.key it.data it.ttl).bind _ = _
    cases h : aset a it.now it.key it.data it.ttl with
    | none => simp [aset_seq, h]
    | some a1 =>
      simp only [aset_seq, h, Option.some_bind]
      exact ih a1

theorem bucket_length_eq (hsize h : Nat) (front : List Ent) (newer : List Ins)
    (hm : front.map Ent.view = newer.reverse.map Ins.view) :
    (bucket hsize h front).length =
      (newer.filter (fun j => decide (hash hsize j.key = h))).length := by
  have hk : front.map Ent.key = newer.reverse.map Ins.key := by
    have := congrArg (List.map Prod.fst) hm
    simpa [List.map_map, Function.comp_def, Ent.view, Ins.view] using this
  unfold bucket
  rw [← List.countP_eq_length_filter, ← List.countP_eq_length_filter]
  have e1 : List.countP (fun e => decide (hash hsize e.key = h)) front =
      List.countP (fun k => decide (hash hsize k = h)) (front.map Ent.key) := by
    rw [List.countP_map]; rfl
  have e2 : List.countP (fun j => decide (hash hsize j.key = h)) newer =
      List.countP (fun k => decide (hash hsize k = h)) (newer.reverse.map Ins.key) := by
    rw [List.countP_map, List.countP_reverse]; rfl
  rw [e1, e2, hk]

/-- The abstract state after filling a fresh arena that holds exactly `N`
entries of length `L` with `N + 1` writes of that length: the live entries
are those of all writes but the first, newest first. -/
theorem fill_and_wrap (c N L : Nat) (first : Ins) (rest : List Ins) (hN : rest.length = N)
    (hN1 : 1 ≤ N) (hL : N * L = (cache_init c).size - (cache_init c).hsize)
    (hv : ∀ it ∈ first :: rest, it.key.length ≤ 1000 ∧ it.data.length ≤ 1000000 ∧
      it.key.length + it.data.length + 20 = L ∧ 1 ≤ it.ttl) :
    ∃ a, aset_seq (ainit c) (first :: rest) = some a ∧
      a.all.map Ent.view = rest.reverse.map Ins.view := by
  have hne : rest ≠ [] := by
    intro e; rw [e] at hN; simp at hN; omega
  obtain ⟨rinit, last, hrest⟩ := (List.eq_nil_or_concat rest).resolve_left hne
  have hrest2 : rest = rinit ++ [last] := by rw [hrest]; simp
  have hlen : (first :: rinit).length = N := by
    rw [hrest2] at hN
    simp at hN
    simp
    omega
  have w0 := ainit_wf c
  have hs := cache_init_hsize c
  obtain ⟨a1, ents, g1, g2, g3, g4, g5, g6, g7, g8, g9⟩ := fill_seq L (first :: rinit) w0
    (rfl : (ainit c).hi = []) (rfl : (ainit c).oldest = (ainit c).size)
    (fun it hit => hv it (by
      rcases List.mem_cons.mp hit with h | h
      · rw [h]; exact List.mem_cons_self _ _
      · rw [hrest2]; exact List.mem_cons_of_mem _ (List.mem_append_left _ h)))
    (by
      rw [hlen, hL]
      show (cache_init c).hsize + ((cache_init c).size - (cache_init c).hsize) ≤
        (cache_init c).size
      omega)
  have g8b : a1.lo = ents := by rw [g8]; exact List.append_nil _
  rw [List.reverse_cons, List.map_append, List.map_eq_append_iff] at g9
  obtain ⟨l, l1, he, hl, hl1⟩ := g9
  rw [List.map_singleton, List.map_eq_cons_iff] at hl1
  obtain ⟨e1, l2, rfl, hv1, hl2⟩ := hl1
  have hl2n : l2 = [] := by simpa using hl2
  subst hl2n
  have hw : a1.writer = a1.size := by
    rw [g5, g6, hlen, hL]
    show (cache_init c).hsize + ((cache_init c).size - (cache_init c).hsize) =
      (cache_init c).size
    omega
  obtain ⟨v1, v2, v3, v4⟩ := hv last (by rw [hrest2]; simp)
  obtain ⟨f1, f2, f3, f4⟩ := hv first (List.mem_cons_self _ _)
  have he1 : e1.len = L := by
    have hk : e1.key = first.key := congrArg Prod.fst hv1
    have hd : e1.data = first.data := congrArg (fun p => p.2.1) hv1
    unfold Ent.len
    rw [hk, hd]
    exact f3
  obtain ⟨a2, k1, k2⟩ := aset_wrap g2 g4 hw (by rw [g8b, he]) last v1 v2 v4
    (by rw [v3, he1])
  refine ⟨a2, ?_, ?_⟩
  · rw [hrest2]
    have : first :: (rinit ++ [last]) = (first :: rinit) ++ [last] := rfl
    rw [this, aset_seq_append, g1]
    show (aset a1 last.now last.key last.data last.ttl).bind _ = _
    rw [k1]
    rfl
  · rw [k2, hrest2, List.reverse_append, List.map_cons, hl]
    rfl

end DnsCache

namespace DnsCache

/-! ## The key splitter on `sub.dom` -/

theorem str_rchr_loop_found (c : Byte) : ∀ (post : List Byte) (t v : Nat),
    c ∉ post → str_rchr_loop c post t (some v) = v := by
  intro post
  induction post with
  | nil => intro t v _; rfl
  | cons a post ih =>
    intro t v hc
    have hac : a ≠ c := fun e => hc (by simp [e])
    unfold str_rchr_loop
    by_cases ha0 : a = 0
    · rw [if_pos ha0]
      rfl
    · rw [if_neg ha0, if_neg hac]
      exact ih (t + 1) v (fun h => hc (List.mem_cons_of_mem _ h))

theorem str_rchr_loop_split (c : Byte) (hc0 : c ≠ 0) (post : List Byte) (hc : c ∉ post) :
    ∀ (pre : List Byte) (t : Nat) (u : Option Nat),
    (0 : Byte) ∉ pre → str_rchr_loop c (pre ++ c :: post) t u = t + pre.length := by
  intro pre
  induction pre with
  | nil =>
    intro t u _
    show str_rchr_loop c (c :: post) t u = t + 0
    unfold str_rchr_loop
    rw [if_neg hc0, if_pos rfl]
    exact str_rchr_loop_found c post (t + 1) t hc
  | cons a pre ih =>
    intro t u h0
    have ha0 : a ≠ 0 := fun e => h0 (by simp [e])
    show str_rchr_loop c (a :: (pre ++ c :: post)) t u = _
    unfold str_rchr_loop
    rw [if_neg ha0, ih (t + 1) _ (fun h => h0 (List.mem_cons_of_mem _ h))]
    simp only [List.length_cons]
    omega

/-- The split of `sub.dom` when no '.' follows the key in memory: the bytes
`rest` between the key and the NUL hold no '.'. -/
theorem split_sub_dom {sub dom rest : List Byte} (hdom : dom ≠ [])
    (hdot : (46 : Byte) ∉ dom) (hrest : (46 : Byte) ∉ rest)
    (hnul : (0 : Byte) ∉ sub ++ [46] ++ dom)
    (hsl : sub.length ≤ 1000) (hdl : dom.length ≤ 1000) :
    set_domain_split (sub ++ [46] ++ dom) rest = .ok (sub, dom) ∧
      get_domain_split (sub ++ [46] ++ dom) rest = .ok (sub, dom) := by
  have h0s : (0 : Byte) ∉ sub := fun h => hnul (by simp [h])
  have e1 : sub ++ [46] ++ dom ++ rest = sub ++ 46 :: (dom ++ rest) := by simp
  have hdr : (46 : Byte) ∉ dom ++ rest := by
    intro h
    rcases List.mem_append.mp h with h | h
    · exact hdot h
    · exact hrest h
  have hr : str_rchr (sub ++ [46] ++ dom ++ rest) 46 = sub.length := by
    unfold str_rchr
    rw [e1, str_rchr_loop_split 46 (by decide) (dom ++ rest) hdr sub 0 none h0s]
    omega
  have hdpos : 0 < dom.length := List.length_pos.mpr hdom
  have hlen : (sub ++ [46] ++ dom).length = sub.length + 1 + dom.length := by
    simp only [List.length_append, List.length_singleton]
  have s1 : sub32 (sub.length + 1 + dom.length) 1 = sub.length + dom.length := by
    unfold sub32; omega
  have s2 : sub32 (sub32 (sub.length + 1 + dom.length) sub.length) 1 = dom.length := by
    unfold sub32; omega
  have t1 : (sub ++ [46] ++ dom ++ rest).take sub.length = sub := by
    rw [e1, List.take_left']
    rfl
  have t2 : ((sub ++ [46] ++ dom ++ rest).drop (sub.length + 1)).take dom.length = dom := by
    have e2 : sub ++ [46] ++ dom ++ rest = (sub ++ [46]) ++ (dom ++ rest) := by simp
    have : (sub ++ [46]).length = sub.length + 1 := by simp
    rw [e2, ← this, List.drop_left, List.take_left']
    rfl
  constructor
  · unfold set_domain_split
    simp only [hr, hlen, s1, s2, t1, t2, MAXKEYLEN]
    rw [if_pos (by omega), if_neg (by omega)]
  · unfold get_domain_split
    simp only [hr, hlen, s1, s2, t1, t2, MAXKEYLEN]
    rw [if_pos (by omega), if_neg (by omega)]

end DnsCache

namespace DnsCache

/-! ## Facts on `cache_set` and `cache_get` used by the two-level cache -/

theorem aset_mem {a a1 : Abs} (w : WF a) {now : Nat} {key data : List Byte} {ttl : Nat}
    (h : aset a now key data ttl = some a1) :
    WF a1 ∧ a1.size = a.size ∧ a1.hsize = a.hsize ∧
      ∀ e ∈ a1.all, e ∈ a.all ∨ (e.key = key ∧ e.data = data) := by
  obtain ⟨w1, e1, e2⟩ := aset_wf w h
  refine ⟨w1, e1, e2, ?_⟩
  unfold aset at h
  split at h
  · cases h; exact fun e he => Or.inl he
  split at h
  · cases h; exact fun e he => Or.inl he
  split at h
  · cases h; exact fun e he => Or.inl he
  simp only [] at h
  split at h
  · cases h
  · rename_i a0 hl
    cases h
    obtain ⟨_, _, _, _, ⟨d, hd⟩, _⟩ := aloop_wf _ _ _ _ _ w hl
    intro e he
    left
    rw [hd]
    exact List.mem_append_left _ he
  · rename_i a0 hl
    cases h
    obtain ⟨_, _, _, _, ⟨d, hd⟩, _⟩ := aloop_wf _ _ _ _ _ w hl
    intro e he
    have he2 : e ∈ (_ :: a0.lo) ++ a0.hi := he
    rw [List.cons_append] at he2
    rcases List.mem_cons.mp he2 with rfl | hm
    · right; exact ⟨rfl, rfl⟩
    · left
      rw [hd]
      exact List.mem_append_left _ hm

theorem set_then_get_rep {s : Cache} {a : Abs} (hr : Rep s a) (k d : List Byte)
    (ttl t t1 : Nat) (hk : k.length ≤ 1000) (hd : d.length ≤ 1000000)
    (hfit : 20 + k.length + d.length ≤ s.size - s.hsize) (httl : 1 ≤ ttl) :
    ∃ s1 a1 w, cache_set s t k d ttl = .ok s1 ∧ Rep s1 a1 ∧
      aset a t k d ttl = some a1 ∧
      Stored s1.x (Ent.mk w k d (tai_add (if ttl > 604800 then 604800 else ttl) t)) ∧
      cache_get s1 t1 k =
        .ok (ahit t1 k (some (Ent.mk w k d (tai_add (if ttl > 604800 then 604800 else ttl) t)))) := by
  have w := hr.wf
  have hfit2 : a.hsize + (k.length + d.length + 20) ≤ a.size := by
    have := w.le1; have := w.le2; have := w.le3; have := w.le4
    rw [← hr.size_eq, ← hr.hsize_eq]
    omega
  obtain ⟨a0, _, h2, _⟩ := aset_fit w t k d ttl hk hd httl hfit2
  obtain ⟨a1, s1, g1, g2, g3⟩ := set_rep hr t k d ttl
  have g1b := g1
  rw [h2] at g1
  cases g1
  refine ⟨s1, _, a0.writer, g2, g3, g1b, ?_, ?_⟩
  · exact g3.stored _ (by
      show _ ∈ (_ :: a0.lo) ++ a0.hi
      simp)
  · rw [get_rep g3 t1 k, aget_awrite a0 t t1 k d _ _ hk]

theorem aget_some {a : Abs} {now : Nat} {key : List Byte} {h : Hit}
    (hg : aget a now key = some h) :
    ∃ e ∈ a.all, e.key = key ∧ h.off = e.pos + 20 + key.length := by
  unfold aget at hg
  split at hg
  · cases hg
  · cases hf : ((bucket a.hsize (hash a.hsize key) a.all).take 101).find?
        (fun e => decide (e.key = key)) with
    | none => rw [hf] at hg; cases hg
    | some e =>
      rw [hf] at hg
      have hmem := List.mem_of_find?_eq_some hf
      have hp := List.find?_some hf
      refine ⟨e, (mem_bucket.mp (List.mem_of_mem_take hmem)).1, by simpa using hp, ?_⟩
      unfold ahit at hg
      simp only [] at hg
      split at hg
      · cases hg
      · cases hg; rfl

theorem uint64_unpack_pack {x : Nat → Nat} {p addr : Nat} (ha : addr < 18446744073709551616)
    (hb : bytes_at x p (uint64_pack addr)) : uint64_unpack x p = addr := by
  have h0 := hb 0 (by simp [uint64_pack])
  have h1 := hb 1 (by simp [uint64_pack])
  have h2 := hb 2 (by simp [uint64_pack])
  have h3 := hb 3 (by simp [uint64_pack])
  have h4 := hb 4 (by simp [uint64_pack])
  have h5 := hb 5 (by simp [uint64_pack])
  have h6 := hb 6 (by simp [uint64_pack])
  have h7 := hb 7 (by simp [uint64_pack])
  simp only [uint64_pack, List.get_eq_getElem, List.getElem_cons_zero, List.getElem_cons_succ,
    Fin.ofNat, Nat.add_zero] at h0 h1 h2 h3 h4 h5 h6 h7
  unfold uint64_unpack
  rw [h0, h1, h2, h3, h4, h5, h6, h7]
  omega

theorem uint64_pack_length (addr : Nat) : (uint64_pack addr).length = 8 := rfl

end DnsCache

namespace DnsCache

/-! ## The invariant of the two-level cache -/

theorem good_handle_append {heap : List (Option Cache)} {addr : Nat} (x : Option Cache)
    (h : GoodHandle heap addr) : GoodHandle (heap ++ [x]) addr := by
  obtain ⟨h1, h2⟩ := h
  refine ⟨h1, ?_⟩
  rcases h2 with h0 | ⟨hpos, dc, b, hget, hrep, hsz⟩
  · exact Or.inl h0
  · right
    refine ⟨hpos, dc, b, ?_, hrep, hsz⟩
    rw [List.get?_eq_getElem?] at hget ⊢
    have hlt : addr - 1 < heap.length := by
      by_contra hc
      rw [List.getElem?_eq_none (by omega)] at hget
      cases hget
    rw [List.getElem?_append_left hlt]
    exact hget

theorem good_handle_set {heap : List (Option Cache)} {addr i : Nat} {dc1 : Cache} {b1 : Abs}
    (h : GoodHandle heap addr) (hrep : Rep dc1 b1)
    (hsz : dc1.size = (cache_init 10000).size ∧ dc1.hsize = (cache_init 10000).hsize) :
    GoodHandle (heap.set i (some dc1)) addr := by
  obtain ⟨h1, h2⟩ := h
  refine ⟨h1, ?_⟩
  rcases h2 with h0 | ⟨hpos, dc, b, hget, hrep0, hsz0⟩
  · exact Or.inl h0
  · right
    rw [List.get?_eq_getElem?] at hget
    have hlt : addr - 1 < heap.length := by
      by_contra hc
      rw [List.getElem?_eq_none (by omega)] at hget
      cases hget
    by_cases hi : i = addr - 1
    · refine ⟨hpos, dc1, b1, ?_, hrep, hsz⟩
      rw [List.get?_eq_getElem?, hi, List.getElem?_set_self hlt]
    · refine ⟨hpos, dc, b, ?_, hrep0, hsz0⟩
      rw [List.get?_eq_getElem?, List.getElem?_set_ne hi]
      exact hget

theorem deref_good {heap : List (Option Cache)} {addr : Nat} (h : GoodHandle heap addr)
    (hnn : addr ≠ 0) :
    ∃ dc b, deref heap addr = .ok (some dc) ∧ heap.get? (addr - 1) = some (some dc) ∧
      Rep dc b ∧ dc.size = (cache_init 10000).size ∧ dc.hsize = (cache_init 10000).hsize := by
  obtain ⟨_, h2⟩ := h
  rcases h2 with h0 | ⟨hpos, dc, b, hget, hrep, hsz⟩
  · exact absurd h0 hnn
  · refine ⟨dc, b, ?_, hget, hrep, hsz⟩
    unfold deref
    rw [if_neg (by omega), hget]

theorem deref_some {heap : List (Option Cache)} {addr : Nat} {dc : Cache}
    (h : deref heap addr = .ok (some dc)) : heap.get? (addr - 1) = some (some dc) := by
  unfold deref at h
  split at h
  · cases h
  · split at h
    · rename_i dc2 hget
      cases h
      exact hget
    · cases h

/-- The handle found by a top-level lookup is a good handle. -/
theorem hit_handle {w : World} {a : Abs} (hr : Rep w.top a)
    (hh : ∀ e ∈ a.all, ∃ addr, e.data = uint64_pack addr ∧ GoodHandle w.heap addr)
    {now : Nat} {dom : List Byte} {hit : Hit} (hag : aget a now dom = some hit) :
    GoodHandle w.heap (uint64_unpack w.top.x hit.off) := by
  obtain ⟨e, he, hek, hoff⟩ := aget_some hag
  obtain ⟨addr, hd, hg⟩ := hh e he
  have hb := (hr.stored e he).2.2.2.2
  rw [hd, hek, ← hoff] at hb
  rw [uint64_unpack_pack hg.1 hb]
  exact hg

theorem set_domain_inv {w w1 : World} {now : Nat} {key rest data : List Byte} {ttl : Nat}
    {alloc_ok : Bool} (hi : WorldInv w)
    (h : cache_set_domain_entry w now key rest data ttl alloc_ok = .ok w1) :
    WorldInv w1 := by
  obtain ⟨a, hr, hh⟩ := hi
  unfold cache_set_domain_entry at h
  obtain ⟨⟨sub, dom⟩, _, h⟩ := Res.bind_eq_ok h
  simp only [] at h
  obtain ⟨res, hres, h⟩ := Res.bind_eq_ok h
  rw [get_rep hr] at hres
  cases hres
  obtain ⟨⟨w2, addr⟩, hw2, h⟩ := Res.bind_eq_ok h
  simp only [] at h
  have key : WorldInv w2 ∧ GoodHandle w2.heap addr := by
    unfold domain_entry_handle at hw2
    cases hag : aget a now dom with
    | some hit =>
      rw [hag] at hw2
      simp only [] at hw2
      cases hw2
      exact ⟨⟨a, hr, hh⟩, hit_handle hr hh hag⟩
    | none =>
      rw [hag] at hw2
      simp only [] at hw2
      unfold domain_cache_init at hw2
      by_cases hroom : alloc_ok = true ∧ w.heap.length + 1 < 18446744073709551616
      · rw [if_pos hroom] at hw2
        simp only [] at hw2
        obtain ⟨top1, htop, hw2⟩ := Res.bind_eq_ok hw2
        cases hw2
        obtain ⟨a1, s1, g1, g2, g3⟩ := set_rep hr now dom (uint64_pack (w.heap.length + 1)) ttl
        rw [htop] at g2
        cases g2
        obtain ⟨_, _, _, hmem⟩ := aset_mem hr.wf g1
        have hnew : GoodHandle (w.heap ++ [some (cache_init 10000)]) (w.heap.length + 1) := by
          refine ⟨hroom.2, Or.inr ⟨by omega, cache_init 10000, ainit 10000, ?_, init_rep 10000,
            rfl, rfl⟩⟩
          rw [List.get?_eq_getElem?]
          simp
        refine ⟨⟨a1, g3, ?_⟩, hnew⟩
        intro e he
        rcases hmem e he with hold | ⟨_, hd⟩
        · obtain ⟨ad, hd, hg⟩ := hh e hold
          exact ⟨ad, hd, good_handle_append _ hg⟩
        · exact ⟨_, hd, hnew⟩
      · rw [if_neg hroom] at hw2
        simp only [] at hw2
        obtain ⟨top1, htop, hw2⟩ := Res.bind_eq_ok hw2
        cases hw2
        obtain ⟨a1, s1, g1, g2, g3⟩ := set_rep hr now dom (uint64_pack 0) ttl
        rw [htop] at g2
        cases g2
        obtain ⟨_, _, _, hmem⟩ := aset_mem hr.wf g1
        have hnew : GoodHandle w.heap 0 := ⟨by norm_num, Or.inl rfl⟩
        refine ⟨⟨a1, g3, ?_⟩, hnew⟩
        intro e he
        rcases hmem e he with hold | ⟨_, hd⟩
        · exact hh e hold
        · exact ⟨_, hd, hnew⟩
  obtain ⟨⟨a2, hr2, hh2⟩, hg2⟩ := key
  split at h
  · obtain ⟨dc, hdc, h⟩ := Res.bind_eq_ok h
    cases dc with
    | none => cases h; exact ⟨a2, hr2, hh2⟩
    | some dc =>
      simp only [] at h
      obtain ⟨dc1, hset, h⟩ := Res.bind_eq_ok h
      cases h
      have hget := deref_some hdc
      obtain ⟨_, hg3⟩ := hg2
      rcases hg3 with h0 | ⟨hpos, dc0, b, hget0, hrep, hsz⟩
      · unfold deref at hdc
        rw [if_pos h0] at hdc
        cases hdc
      · rw [hget0] at hget
        cases hget
        unfold domain_cache_set at hset
        obtain ⟨b1, s1, g1, g2, g3⟩ := set_rep hrep now sub data ttl
        rw [hset] at g2
        cases g2
        obtain ⟨_, e1, e2, _⟩ := aset_mem hrep.wf g1
        have hsz1 : dc1.size = (cache_init 10000).size ∧ dc1.hsize = (cache_init 10000).hsize := by
          rw [g3.size_eq, g3.hsize_eq, e1, e2, ← hrep.size_eq, ← hrep.hsize_eq]
          exact hsz
        refine ⟨a2, hr2, ?_⟩
        intro e he
        obtain ⟨ad, hd, hg⟩ := hh2 e he
        exact ⟨ad, hd, good_handle_set hg g3 hsz1⟩
  · cases h
    exact ⟨a2, hr2, hh2⟩

theorem world_init_inv (c : Nat) : WorldInv (world_init c) :=
  ⟨ainit c, init_rep c, fun e he => by cases he⟩

theorem reach_world_inv {w : World} (h : ReachWorld w) : WorldInv w := by
  induction h with
  | init c => exact world_init_inv c
  | set now key rest data ttl alloc_ok _ hset ih => exact set_domain_inv ih hset

end DnsCache

namespace DnsCache

/-! ## The two-level round trip -/

theorem cache_init_10000 : (cache_init 10000).size = 10000 ∧ (cache_init 10000).hsize = 512 := by
  constructor <;> decide

theorem domain_get_after {top1 : Cache} {heap2 : List (Option Cache)} {addr now : Nat}
    {dc1 : Cache} {hit hit2 : Hit} {key rest sub dom data : List Byte}
    (hsplit : get_domain_split key rest = .ok (sub, dom)) (hsub : sub.length > 0)
    (hget : cache_get top1 now dom = .ok (some hit))
    (haddr : uint64_unpack top1.x hit.off = addr) (hpos : 0 < addr)
    (hlt : addr - 1 < heap2.length)
    (hget2 : cache_get dc1 now sub = .ok (some hit2))
    (hdata : byte_read dc1.x hit2.off hit2.datalen = data.map Fin.val) :
    observe_domain_get { top := top1, heap := heap2.set (addr - 1) (some dc1) } now key rest =
      .ok (some (data.map Fin.val)) := by
  have hg : (heap2.set (addr - 1) (some dc1)).get? (addr - 1) = some (some dc1) := by
    rw [List.get?_eq_getElem?, List.getElem?_set_self hlt]
  have hd : deref (heap2.set (addr - 1) (some dc1)) addr = .ok (some dc1) := by
    unfold deref
    rw [if_neg (by omega), hg]
  unfold observe_domain_get cache_get_domain_entry
  rw [hsplit]
  simp only [Res.ok_bind]
  rw [if_pos hsub, hget]
  simp only [Res.ok_bind]
  rw [haddr, hd]
  simp only [Res.ok_bind]
  unfold domain_cache_get
  rw [hget2]
  simp only [Res.ok_bind, Res.bind_ok]
  unfold domain_hit_data
  simp only []
  rw [hg]
  simp only [hdata]

theorem domain_set_after {w : World} {top1 : Cache} {heap2 : List (Option Cache)}
    {addr now ttl : Nat} {dc dc1 : Cache} {key rest sub dom data : List Byte} {a : Abs}
    {alloc_ok : Bool} (hr : Rep w.top a)
    (hsplit : set_domain_split key rest = .ok (sub, dom)) (hsub : sub.length > 0)
    (hmid : domain_entry_handle w now dom ttl alloc_ok (aget a now dom) =
      .ok ({ top := top1, heap := heap2 }, addr))
    (hderef : deref heap2 addr = .ok (some dc))
    (hset : cache_set dc now sub data ttl = .ok dc1) :
    cache_set_domain_entry w now key rest data ttl alloc_ok =
      .ok { top := top1, heap := heap2.set (addr - 1) (some dc1) } := by
  unfold cache_set_domain_entry
  rw [hsplit]
  simp only [Res.ok_bind]
  rw [get_rep hr]
  simp only [Res.ok_bind]
  rw [hmid]
  simp only [Res.ok_bind]
  rw [if_pos hsub, hderef]
  simp only [Res.ok_bind]
  unfold domain_cache_set
  rw [hset]
  simp only [Res.ok_bind]

/-- The two-level round trip on a state that satisfies the invariant, when
no '.' follows the key in memory in either call (`r1`, `r2`), the allocation
succeeds if the domain has no live top-level entry, and the live top-level
entry of the domain, if there is one, holds a handle that is not null. -/
theorem domain_round_trip_inv (w : World) (hw : WorldInv w) (sub dom data r1 r2 : List Byte)
    (ttl now : Nat) (alloc_ok : Bool) (hsub : sub ≠ []) (hdom : dom ≠ [])
    (hdot : (46 : Byte) ∉ dom) (hr1 : (46 : Byte) ∉ r1) (hr2 : (46 : Byte) ∉ r2)
    (hnul : (0 : Byte) ∉ sub ++ [46] ++ dom) (hsl : sub.length ≤ 1000)
    (hdl : dom.length ≤ 1000) (httl : 1 ≤ ttl)
    (hfit1 : 28 + dom.length ≤ w.top.size - w.top.hsize)
    (hfit2 : 20 + sub.length + data.length ≤
      (cache_init 10000).size - (cache_init 10000).hsize)
    (halloc : cache_get w.top now dom = .ok none →
      alloc_ok = true ∧ w.heap.length + 1 < 18446744073709551616)
    (hnn : ∀ hit, cache_get w.top now dom = .ok (some hit) →
      uint64_unpack w.top.x hit.off ≠ 0)
    (hclock : now + 604800 < 18446744073709551616) :
    ∃ w1, cache_set_domain_entry w now (sub ++ [46] ++ dom) r1 data ttl alloc_ok = .ok w1 ∧
      observe_domain_get w1 now (sub ++ [46] ++ dom) r2 = .ok (some (data.map Fin.val)) := by
  obtain ⟨a, hr, hh⟩ := hw
  obtain ⟨hs1, _⟩ := split_sub_dom hdom hdot hr1 hnul hsl hdl
  obtain ⟨_, hs2⟩ := split_sub_dom hdom hdot hr2 hnul hsl hdl
  have hsubpos : sub.length > 0 := List.length_pos.mpr hsub
  obtain ⟨c1, c2⟩ := cache_init_10000
  have hmin : min ttl 604800 ≤ ttl := Nat.min_le_left _ _
  -- the state after the top-level part of the call
  have mid : ∃ top1 heap2 addr dc b hit,
      domain_entry_handle w now dom ttl alloc_ok (aget a now dom) =
        .ok ({ top := top1, heap := heap2 }, addr) ∧
      cache_get top1 now dom = .ok (some hit) ∧ uint64_unpack top1.x hit.off = addr ∧
      0 < addr ∧ deref heap2 addr = .ok (some dc) ∧ heap2.get? (addr - 1) = some (some dc) ∧
      Rep dc b ∧ dc.size = (cache_init 10000).size ∧ dc.hsize = (cache_init 10000).hsize := by
    cases hag : aget a now dom with
    | some hit =>
      have hg := hit_handle hr hh hag
      have hne : uint64_unpack w.top.x hit.off ≠ 0 := hnn hit (by rw [get_rep hr, hag])
      obtain ⟨dc, b, d1, d2, d3, d4, d5⟩ := deref_good hg hne
      refine ⟨w.top, w.heap, _, dc, b, hit, rfl, ?_, rfl, by omega, d1, d2, d3, d4, d5⟩
      rw [get_rep hr, hag]
    | none =>
      have halloc := halloc (by rw [get_rep hr, hag])
      obtain ⟨top1, a1, wpos, g1, g2, _, g4, g5⟩ := set_then_get_rep hr dom
        (uint64_pack (w.heap.length + 1)) ttl now now hdl
        (by rw [uint64_pack_length]; norm_num)
        (by rw [uint64_pack_length]; omega) httl
      rw [ahit_live httl (le_refl _) (by omega) hclock] at g5
      have hun := uint64_unpack_pack halloc.2 g4.2.2.2.2
      have hgetn : (w.heap ++ [some (cache_init 10000)]).get? (w.heap.length + 1 - 1) =
          some (some (cache_init 10000)) := by
        rw [List.get?_eq_getElem?]
        simp
      refine ⟨top1, w.heap ++ [some (cache_init 10000)], w.heap.length + 1, cache_init 10000,
        ainit 10000, _, ?_, g5, hun, by omega, ?_, hgetn, init_rep 10000, rfl, rfl⟩
      · simp only [domain_entry_handle, domain_cache_init, if_pos halloc]
        rw [g1]
        simp only [Res.bind_ok]
      · unfold deref
        rw [if_neg (by omega), hgetn]
  obtain ⟨top1, heap2, addr, dc, b, hit, m1, m2, m3, m4, m5, m6, m7, m8, m9⟩ := mid
  obtain ⟨dc1, b1, wpos, k1, k2, _, k4, k5⟩ := set_then_get_rep m7 sub data ttl now now hsl
    (by omega) (by rw [m8, m9]; omega) httl
  rw [ahit_live httl (le_refl _) (by omega) hclock] at k5
  have hlt : addr - 1 < heap2.length := by
    rw [List.get?_eq_getElem?] at m6
    by_contra hc
    rw [List.getElem?_eq_none (by omega)] at m6
    cases m6
  refine ⟨_, domain_set_after hr hs1 hsubpos m1 m5 k1, ?_⟩
  exact domain_get_after hs2 hsubpos m2 m3 m4 hlt k5 (byte_read_eq k4.2.2.2.2)

end DnsCache

namespace DnsCache

/-! ## `cache_del` on a bucket with one entry -/

theorem cache_del_single {s : Cache} {a : Abs} (hr : Rep s a) (key : List Byte)
    (hk : key.length ≤ 1000) {e : Ent}
    (hb : bucket a.hsize (hash a.hsize key) a.all = [e]) :
    cache_del s key =
      .ok ({ s with x := uint32_pack s.x (hash a.hsize key) 0 }, 1) := by
  have w := hr.wf
  obtain ⟨sz1, sz2⟩ := rep_size_bounds hr
  obtain ⟨hs1, hs2⟩ := hash_slot key w.hsize_pow w.hsize_lo (wf_hsize_le w)
  have hc := hr.chains _ hs1 hs2
  rw [hb] at hc
  obtain ⟨c1, c2, _⟩ := hc
  have c1b : uint32_unpack s.x (hash a.hsize key) = e.pos := by simpa using c1
  have c2b : uint32_unpack s.x e.pos = hash a.hsize key := by simpa using c2
  have he : e ∈ a.all := (mem_bucket.mp (by rw [hb]; simp)).1
  have hbd := all_bounds w he
  have hl := e.len_pos
  have l1 := w.le1; have l2 := w.le2; have l3 := w.le3; have l4 := w.le4
  have h4 := w.hsize_lo
  have hsz := hr.size_eq
  unfold cache_del
  rw [if_neg (by simp only [MAXKEYLEN]; omega), hr.hsize_eq]
  simp only []
  rw [get4_ok sz1 sz2 (by omega)]
  simp only [Res.ok_bind]
  rw [c1b, if_pos (by omega), get4_ok sz1 sz2 (by omega)]
  simp only [Res.ok_bind]
  rw [c2b, Nat.xor_self, set4_ok sz1 sz2 (by omega)]
  simp only [Res.ok_bind, ne_eq, not_true_eq_false, if_false]
  rw [hr.hsize_eq]

theorem cache_get_empty_slot {s : Cache} (now : Nat) (key : List Byte)
    (sz1 : 4 ≤ s.size) (sz2 : s.size < 4294967296) (hb : hash s.hsize key + 4 ≤ s.size)
    (h0 : uint32_unpack s.x (hash s.hsize key) = 0) : cache_get s now key = .ok none := by
  unfold cache_get
  split
  · rfl
  · simp only []
    rw [get4_ok sz1 sz2 hb, h0]
    simp only [Res.ok_bind]
    unfold cache_get_loop
    rw [if_pos rfl]

theorem cache_get_after_del_single {s : Cache} {a : Abs} (hr : Rep s a) (now : Nat)
    (key : List Byte) :
    cache_get { s with x := uint32_pack s.x (hash a.hsize key) 0 } now key = .ok none := by
  have w := hr.wf
  obtain ⟨sz1, sz2⟩ := rep_size_bounds hr
  obtain ⟨_, q2⟩ := hash_slot key w.hsize_pow w.hsize_lo (wf_hsize_le w)
  have l1 := w.le1; have l2 := w.le2; have l3 := w.le3; have l4 := w.le4
  have hsz := hr.size_eq
  have hhs := hr.hsize_eq
  apply cache_get_empty_slot
  · exact sz1
  · exact sz2
  · show hash s.hsize key + 4 ≤ s.size
    rw [hhs]
    omega
  · show uint32_unpack (uint32_pack s.x (hash a.hsize key) 0) (hash s.hsize key) = 0
    rw [hhs, uint32_unpack_pack_same]

/-! ## The two-level calls, step by step -/

theorem domain_set_fresh {w : World} {a : Abs} {top1 dc1 : Cache} {now ttl : Nat}
    {key rest sub dom data : List Byte} {alloc_ok : Bool} (hr : Rep w.top a)
    (hsplit : set_domain_split key rest = .ok (sub, dom)) (hsub : sub.length > 0)
    (hmiss : aget a now dom = none)
    (halloc : alloc_ok = true ∧ w.heap.length + 1 < 18446744073709551616)
    (htop : cache_set w.top now dom (uint64_pack (w.heap.length + 1)) ttl = .ok top1)
    (hset : cache_set (cache_init 10000) now sub data ttl = .ok dc1) :
    cache_set_domain_entry w now key rest data ttl alloc_ok =
      .ok { top := top1, heap := w.heap ++ [some dc1] } := by
  have hmid : domain_entry_handle w now dom ttl alloc_ok (aget a now dom) =
      .ok ({ top := top1, heap := w.heap ++ [some (cache_init 10000)] },
        w.heap.length + 1) := by
    rw [hmiss]
    simp only [domain_entry_handle, domain_cache_init, if_pos halloc]
    rw [htop]
    simp only [Res.bind_ok]
  have hg : (w.heap ++ [some (cache_init 10000)]).get? (w.heap.length + 1 - 1) =
      some (some (cache_init 10000)) := by
    simp
  have hderef : deref (w.heap ++ [some (cache_init 10000)]) (w.heap.length + 1) =
      .ok (some (cache_init 10000)) := by
    unfold deref
    rw [if_neg (by omega), hg]
  have h := domain_set_after hr hsplit hsub hmid hderef hset
  have hs : (w.heap ++ [some (cache_init 10000)]).set (w.heap.length + 1 - 1) (some dc1) =
      w.heap ++ [some dc1] := by
    simp
  rw [hs] at h
  exact h

/-- The call when the domain has no live entry and the allocation fails: the
null handle is stored under the domain and nothing else is written. -/
theorem domain_set_null {w : World} {a : Abs} {top1 : Cache} {now ttl : Nat}
    {key rest sub dom data : List Byte} {alloc_ok : Bool} (hr : Rep w.top a)
    (hsplit : set_domain_split key rest = .ok (sub, dom))
    (hmiss : aget a now dom = none)
    (halloc : ¬(alloc_ok = true ∧ w.heap.length + 1 < 18446744073709551616))
    (htop : cache_set w.top now dom (uint64_pack 0) ttl = .ok top1) :
    cache_set_domain_entry w now key rest data ttl alloc_ok =
      .ok { top := top1, heap := w.heap } := by
  unfold cache_set_domain_entry
  rw [hsplit]
  simp only [Res.ok_bind]
  rw [get_rep hr, hmiss]
  simp only [Res.ok_bind, domain_entry_handle, domain_cache_init, if_neg halloc]
  rw [htop]
  simp only [Res.bind_ok, Res.ok_bind]
  split
  · have hd : deref w.heap 0 = .ok none := by
      unfold deref
      rw [if_pos rfl]
    rw [hd]
    simp only [Res.ok_bind]
  · rfl

theorem del_subdomains_hit {w : World} {now addr r : Nat} {key : List Byte} {hit : Hit}
    {dc top2 : Cache} (hget : cache_get w.top now key = .ok (some hit))
    (haddr : uint64_unpack w.top.x hit.off = addr)
    (hderef : deref w.heap addr = .ok (some dc))
    (hdel : cache_del w.top key = .ok (top2, r)) :
    cache_del_subdomains w now key =
      .ok ({ top := top2, heap := w.heap.set (addr - 1) none }, r) := by
  unfold cache_del_subdomains
  rw [hget]
  simp only [Res.ok_bind]
  rw [haddr]
  unfold domain_cache_delete
  rw [hderef]
  simp only [Res.ok_bind, Res.bind_ok]
  rw [hdel]
  simp only [Res.ok_bind]

theorem del_subdomains_null {w : World} {now r : Nat} {key : List Byte} {hit : Hit}
    {top2 : Cache} (hget : cache_get w.top now key = .ok (some hit))
    (haddr : uint64_unpack w.top.x hit.off = 0)
    (hdel : cache_del w.top key = .ok (top2, r)) :
    cache_del_subdomains w now key = .ok ({ top := top2, heap := w.heap }, r) := by
  have hd : deref w.heap 0 = .ok none := by
    unfold deref
    rw [if_pos rfl]
  unfold cache_del_subdomains
  rw [hget]
  simp only [Res.ok_bind]
  rw [haddr]
  unfold domain_cache_delete
  rw [hd]
  simp only [Res.ok_bind, Res.bind_ok]
  rw [hdel]
  simp only [Res.ok_bind]

theorem domain_get_miss {w : World} {now : Nat} {key rest sub dom : List Byte}
    (hsplit : get_domain_split key rest = .ok (sub, dom))
    (hget : cache_get w.top now dom = .ok none) :
    cache_get_domain_entry w now key rest = .ok none := by
  unfold cache_get_domain_entry
  rw [hsplit]
  simp only [Res.ok_bind]
  split
  · rw [hget]
    simp only [Res.ok_bind]
  · rfl

theorem deref_singleton (dc : Cache) :
    deref (([] : List (Option Cache)) ++ [some dc]) (([] : List (Option Cache)).length + 1) =
      .ok (some dc) :=
  rfl

end DnsCache

namespace DnsCache

/-! ## The doubling loop of `cache_init` -/

theorem hsize_loop_exit (size : Nat) (hs : size ≤ 1000000000) : ∀ (n h : Nat), 1 ≤ h →
    size / 32 < h * 2 ^ n →
    size / 32 < hsize_loop n size h ∧
      ∀ m, n ≤ m → hsize_loop m size h = hsize_loop n size h ∧
        hsize_loop_nat m size h = hsize_loop n size h := by
  intro n
  induction n with
  | zero =>
    intro h _ hlt
    have hlt2 : size / 32 < h := by simpa using hlt
    refine ⟨hlt2, ?_⟩
    intro m _
    cases m with
    | zero => exact ⟨rfl, rfl⟩
    | succ m =>
      constructor
      · show hsize_loop (m + 1) size h = h
        unfold hsize_loop
        rw [if_neg (by omega)]
      · show hsize_loop_nat (m + 1) size h = h
        unfold hsize_loop_nat
        rw [if_neg (by omega)]
  | succ n ih =>
    intro h h1 hlt
    by_cases hle : h ≤ size / 32
    · have h2 : u32 (h * 2) = h * 2 := by
        unfold u32; omega
      have e : hsize_loop (n + 1) size h = hsize_loop n size (h * 2) := by
        conv_lhs => unfold hsize_loop
        rw [if_pos hle, h2]
      obtain ⟨g1, g2⟩ := ih (h * 2) (by omega) (by
        have : h * 2 * 2 ^ n = h * 2 ^ (n + 1) := by ring
        omega)
      rw [e]
      refine ⟨g1, ?_⟩
      intro m hm
      cases m with
      | zero => omega
      | succ m =>
        obtain ⟨k1, k2⟩ := g2 m (by omega)
        constructor
        · conv_lhs => unfold hsize_loop
          rw [if_pos hle, h2]
          exact k1
        · conv_lhs => unfold hsize_loop_nat
          rw [if_pos hle]
          exact k2
    · have e : hsize_loop (n + 1) size h = h := by
        unfold hsize_loop
        rw [if_neg hle]
      rw [e]
      refine ⟨by omega, ?_⟩
      intro m hm
      cases m with
      | zero => omega
      | succ m =>
        constructor
        · unfold hsize_loop
          rw [if_neg hle]
        · unfold hsize_loop_nat
          rw [if_neg hle]

theorem cache_init_size_eq (c : Nat) : (cache_init c).size = max 100 (min c 1000000000) := by
  unfold cache_init
  simp only
  split <;> split <;> omega

theorem cache_init_hsize_eq (c : Nat) :
    (cache_init c).hsize = hsize_loop 32 (cache_init c).size 4 := rfl

theorem cache_init_hsize_exit (c : Nat) :
    (cache_init c).size / 32 < (cache_init c).hsize ∧
      (cache_init c).hsize ≤ 2 * ((cache_init c).size / 32) ∧
      ∀ n, 32 ≤ n → hsize_loop n (cache_init c).size 4 = (cache_init c).hsize ∧
        hsize_loop_nat n (cache_init c).size 4 = (cache_init c).hsize := by
  have hs := cache_init_size c
  obtain ⟨g1, g2⟩ := hsize_loop_exit (cache_init c).size hs.2 32 4 (by omega) (by
    have : (4 : Nat) * 2 ^ 32 = 17179869184 := by norm_num
    omega)
  have h := hsize_loop_le 32 (cache_init c).size 4 hs.2 (le_refl _) (Or.inr rfl)
  rw [cache_init_hsize_eq]
  refine ⟨g1, by omega, g2⟩

/-! ## The key splitter on a key without '.' -/

theorem str_rchr_loop_none (c : Byte) : ∀ (l : List Byte) (t : Nat),
    c ∉ l → (0 : Byte) ∉ l → str_rchr_loop c l t none = t + l.length := by
  intro l
  induction l with
  | nil => intro t _ _; rfl
  | cons a l ih =>
    intro t hc h0
    have ha0 : a ≠ 0 := fun e => h0 (by simp [e])
    have hac : a ≠ c := fun e => hc (by simp [e])
    unfold str_rchr_loop
    rw [if_neg ha0, if_neg hac, ih (t + 1) (fun h => hc (List.mem_cons_of_mem _ h))
      (fun h => h0 (List.mem_cons_of_mem _ h))]
    simp only [List.length_cons]
    omega

theorem str_rchr_loop_le (c : Byte) : ∀ (l : List Byte) (t : Nat) (u : Option Nat),
    (∀ v, u = some v → v ≤ t) → str_rchr_loop c l t u ≤ t + l.length := by
  intro l
  induction l with
  | nil =>
    intro t u hu
    show u.getD t ≤ t + 0
    cases u with
    | none => simp
    | some v => have := hu v rfl; simpa using this
  | cons a l ih =>
    intro t u hu
    unfold str_rchr_loop
    split
    · cases u with
      | none => simp
      | some v =>
        have := hu v rfl
        simp only [Option.getD_some, List.length_cons]
        omega
    · have h := ih (t + 1) (if a = c then some t else u) (by
        intro v hv
        split at hv
        · cases hv; omega
        · have := hu v hv; omega)
      simp only [List.length_cons]
      omega

theorem str_rchr_loop_ge (c : Byte) (m : Nat) : ∀ (l : List Byte) (t : Nat) (u : Option Nat),
    (∀ v, u = some v → m ≤ v) → m ≤ t → m ≤ str_rchr_loop c l t u := by
  intro l
  induction l with
  | nil =>
    intro t u hu ht
    show m ≤ u.getD t
    cases u with
    | none => simpa using ht
    | some v => simpa using hu v rfl
  | cons a l ih =>
    intro t u hu ht
    unfold str_rchr_loop
    split
    · cases u with
      | none => simpa using ht
      | some v => simpa using hu v rfl
    · exact ih (t + 1) (if a = c then some t else u) (by
        intro v hv
        split at hv
        · cases hv; exact ht
        · exact hu v hv) (by omega)

theorem str_rchr_loop_skip (c : Byte) (rest : List Byte) : ∀ (key : List Byte) (t : Nat),
    c ∉ key → (0 : Byte) ∉ key →
    str_rchr_loop c (key ++ rest) t none = str_rchr_loop c rest (t + key.length) none := by
  intro key
  induction key with
  | nil => intro t _ _; rfl
  | cons a key ih =>
    intro t hc h0
    have ha0 : a ≠ 0 := fun e => h0 (by simp [e])
    have hac : a ≠ c := fun e => hc (by simp [e])
    show str_rchr_loop c (a :: (key ++ rest)) t none = _
    conv_lhs => unfold str_rchr_loop
    rw [if_neg ha0, if_neg hac, ih (t + 1) (fun h => hc (List.mem_cons_of_mem _ h))
      (fun h => h0 (List.mem_cons_of_mem _ h))]
    simp only [List.length_cons]
    congr 1
    omega

/-- The split of a key without '.': whatever follows the key in memory, the
subdomain is empty; the copy of the domain stays within its buffer when the
string at the pointer has at most 1000 bytes. -/
theorem split_no_dot {key rest : List Byte} (hne : key ≠ []) (hnul : (0 : Byte) ∉ key)
    (hlen : key.length + rest.length ≤ 1000) (hdot : (46 : Byte) ∉ key) :
    ∃ dom, set_domain_split key rest = .ok ([], dom) ∧
      get_domain_split key rest = .ok ([], dom) := by
  have hge : key.length ≤ str_rchr (key ++ rest) 46 := by
    unfold str_rchr
    rw [str_rchr_loop_skip 46 rest key 0 hdot hnul]
    exact str_rchr_loop_ge 46 key.length rest _ none (fun v hv => by cases hv) (by omega)
  have hle : str_rchr (key ++ rest) 46 ≤ key.length + rest.length := by
    have h := str_rchr_loop_le 46 (key ++ rest) 0 none (fun v hv => by cases hv)
    rw [List.length_append] at h
    unfold str_rchr
    omega
  have hpos : 0 < key.length := List.length_pos.mpr hne
  have s1 : sub32 key.length 1 = key.length - 1 := by
    unfold sub32; omega
  refine ⟨(key ++ rest).take (str_rchr (key ++ rest) 46), ?_, ?_⟩
  · unfold set_domain_split
    simp only [s1, MAXKEYLEN]
    rw [if_neg (by omega), if_neg (by omega)]
  · unfold get_domain_split
    simp only [s1, MAXKEYLEN]
    rw [if_neg (by omega), if_neg (by omega)]

theorem split_no_dot_nil {key : List Byte} (hne : key ≠ []) (hnul : (0 : Byte) ∉ key)
    (hlen : key.length ≤ 1000) (hdot : (46 : Byte) ∉ key) :
    set_domain_split key [] = .ok ([], key) ∧ get_domain_split key [] = .ok ([], key) := by
  have hr : str_rchr (key ++ []) 46 = key.length := by
    unfold str_rchr
    rw [List.append_nil, str_rchr_loop_none 46 key 0 hdot hnul]
    omega
  have hpos : 0 < key.length := List.length_pos.mpr hne
  have s1 : sub32 key.length 1 = key.length - 1 := by
    unfold sub32; omega
  constructor
  · unfold set_domain_split
    simp only [hr, s1, MAXKEYLEN]
    rw [if_neg (by omega), if_neg (by omega), List.append_nil, List.take_length]
  · unfold get_domain_split
    simp only [hr, s1, MAXKEYLEN]
    rw [if_neg (by omega), if_neg (by omega), List.append_nil, List.take_length]

theorem split_at_index {key rest : List Byte} (hnul : (0 : Byte) ∉ key)
    (hlen : key.length ≤ 1000) (hrest : (46 : Byte) ∉ rest)
    {i : Nat} (hi : i < key.length - 1) (hat : key.get? i = some 46)
    (hlast : (46 : Byte) ∉ key.drop (i + 1)) :
    key.take i ++ [46] ++ key.drop (i + 1) = key ∧
      set_domain_split key rest = .ok (key.take i, key.drop (i + 1)) ∧
      get_domain_split key rest = .ok (key.take i, key.drop (i + 1)) := by
  have hil : i < key.length := by omega
  have hkey : key.take i ++ [46] ++ key.drop (i + 1) = key := by
    have h1 : key.drop i = 46 :: key.drop (i + 1) := by
      rw [List.drop_eq_getElem_cons hil]
      congr 1
      rw [List.get?_eq_getElem?, List.getElem?_eq_getElem hil] at hat
      exact Option.some.inj hat
    calc key.take i ++ [46] ++ key.drop (i + 1)
        = key.take i ++ (46 :: key.drop (i + 1)) := by simp
      _ = key.take i ++ key.drop i := by rw [h1]
      _ = key := List.take_append_drop i key
  refine ⟨hkey, ?_⟩
  have hdom : key.drop (i + 1) ≠ [] := by
    intro e
    have := congrArg List.length e
    simp at this
    omega
  have hn : (0 : Byte) ∉ key.take i ++ [46] ++ key.drop (i + 1) := by rw [hkey]; exact hnul
  have h := @split_sub_dom (key.take i) (key.drop (i + 1)) rest hdom hlast hrest hn
    (by rw [List.length_take]; omega) (by rw [List.length_drop]; omega)
  rw [hkey] at h
  exact h

end DnsCache

namespace DnsCache

/-! ## What a hit of `cache_get` returns, on any arena -/

theorem get_loop_hit (s : Cache) (now : Nat) (key : List Byte) :
    ∀ (n prev pos : Nat) (hit : Hit),
      cache_get_loop s now key n prev pos = .ok (some hit) →
      ∃ p, hit.off = p + 20 + key.length ∧ ¬ tai_unpack s.x (p + 12) < now ∧
        hit.ttl = min (tai_sub (tai_unpack s.x (p + 12)) now) 604800 := by
  intro n
  induction n with
  | zero =>
    intro prev pos hit h
    simp [cache_get_loop] at h
  | succ n ih =>
    intro prev pos hit h
    unfold cache_get_loop at h
    split at h
    · cases h
    · simp only [] at h
      have hnext : (get4 s pos >>= fun l => cache_get_loop s now key n pos (prev ^^^ l)) =
          .ok (some hit) →
          ∃ p, hit.off = p + 20 + key.length ∧ ¬ tai_unpack s.x (p + 12) < now ∧
            hit.ttl = min (tai_sub (tai_unpack s.x (p + 12)) now) 604800 := by
        intro h2
        obtain ⟨l, _, h3⟩ := Res.bind_eq_ok h2
        exact ih _ _ _ h3
      obtain ⟨kl, _, h⟩ := Res.bind_eq_ok h
      split at h
      · split at h
        · cases h
        · split at h
          · split at h
            · cases h
            · rename_i hexp
              obtain ⟨u, _, h⟩ := Res.bind_eq_ok h
              split at h
              · cases h
              · simp only [Res.ok.injEq, Option.some.injEq] at h
                subst h
                refine ⟨pos, rfl, hexp, ?_⟩
                show (if _ > 604800 then 604800 else _) = _
                split <;> omega
          · exact hnext h
      · exact hnext h

theorem get_hit {s : Cache} {now : Nat} {key : List Byte} {hit : Hit}
    (h : cache_get s now key = .ok (some hit)) :
    ∃ p, hit.off = p + 20 + key.length ∧ ¬ tai_unpack s.x (p + 12) < now ∧
      hit.ttl = min (tai_sub (tai_unpack s.x (p + 12)) now) 604800 := by
  unfold cache_get at h
  split at h
  · cases h
  · simp only [] at h
    obtain ⟨pos, _, h2⟩ := Res.bind_eq_ok h
    exact get_loop_hit s now key _ _ _ hit h2

theorem tai_sub_exact {e now : Nat} (h1 : ¬ e < now) (h2 : e < 18446744073709551616) :
    tai_sub e now = e - now := by
  unfold tai_sub
  omega

/-! ## A write that cannot fit -/

theorem aloop_false (len : Nat) : ∀ (n : Nat) (a a1 : Abs),
    aloop n a len = some (false, a1) → a1.oldest = a1.unused ∧ a1.writer ≤ a1.hsize := by
  intro n
  induction n with
  | zero => intro a a1 h; simp [aloop] at h
  | succ n ih =>
    intro a a1 h
    unfold aloop at h
    split at h
    · split at h
      · rename_i hc
        simp only [Option.some.injEq, Prod.mk.injEq, true_and] at h
        subst h
        exact hc
      · exact ih _ _ h
    · simp at h

theorem aset_flush {a a1 : Abs} (w : WF a) {now : Nat} {key data : List Byte} {ttl : Nat}
    (hk : key.length ≤ 1000) (hd : data.length ≤ 1000000) (httl : 1 ≤ ttl)
    (hbig : a.size < a.hsize + (key.length + data.length + 20))
    (h : aset a now key data ttl = some a1) :
    WF a1 ∧ a1.size = a.size ∧ a1.hsize = a.hsize ∧ a1.motion = a.motion ∧
      a1.writer = a1.hsize ∧ a1.oldest = a1.size ∧ a1.unused = a1.size ∧ a1.all = [] := by
  unfold aset at h
  rw [if_neg (by simp only [MAXKEYLEN]; omega), if_neg (by simp only [MAXDATALEN]; omega),
    if_neg (by omega)] at h
  simp only [] at h
  cases hl : aloop a.size a (key.length + data.length + 20) with
  | none => rw [hl] at h; cases h
  | some p =>
    obtain ⟨b, a0⟩ := p
    rw [hl] at h
    obtain ⟨g1, g2, g3, g4, _, g6, _⟩ := aloop_wf _ _ _ _ _ w hl
    cases b with
    | true =>
      have := g6 rfl
      have := g1.le1; have := g1.le2; have := g1.le3; have := g1.le4
      omega
    | false =>
      simp only [Option.some.injEq] at h
      subst h
      obtain ⟨f1, f2⟩ := aloop_false _ _ _ _ hl
      have hu := g1.wrap f1
      have hw : a0.writer = a0.hsize := by have := g1.le1; omega
      have hlo : a0.lo = [] := tiles_eq_nil g1.tiles_lo hw
      have hhi : a0.hi = [] := tiles_eq_nil g1.tiles_hi f1.symm
      refine ⟨g1, g2, g3, g4, hw, by omega, hu, ?_⟩
      show a0.lo ++ a0.hi = []
      rw [hlo, hhi]
      rfl

end DnsCache

namespace DnsCache

/-! ## Writes into free space, and lookups among entries known by their writes -/

theorem fill_seq_sum (items : List Ins) : ∀ {a : Abs}, WF a → a.hi = [] →
    a.oldest = a.size →
    (∀ it ∈ items, it.key.length ≤ 1000 ∧ it.data.length ≤ 1000000 ∧ 1 ≤ it.ttl) →
    a.writer + (items.map fun it => it.key.length + it.data.length + 20).sum ≤ a.size →
    ∃ a1 ents, aset_seq a items = some a1 ∧ WF a1 ∧ a1.hi = [] ∧ a1.oldest = a1.size ∧
      a1.size = a.size ∧ a1.hsize = a.hsize ∧
      a1.lo = ents ++ a.lo ∧ ents.map Ent.view = items.reverse.map Ins.view := by
  induction items with
  | nil =>
    intro a w h1 h2 _ _
    exact ⟨a, [], rfl, w, h1, h2, rfl, rfl, by simp, by simp⟩
  | cons it rest ih =>
    intro a w h1 h2 hv hfit
    obtain ⟨v1, v2, v4⟩ := hv it (List.mem_cons_self _ _)
    simp only [List.map_cons, List.sum_cons] at hfit
    have hf : a.writer + (it.key.length + it.data.length + 20) ≤ a.oldest := by
      rw [h2]
      omega
    have hset := aset_free w it v1 v2 v4 hf
    have w1 := awrite_wf w it.now it.key it.data (if it.ttl > 604800 then 604800 else it.ttl) hf
    obtain ⟨a1, ents, g1, g2, g3, g4, g6, g7, g8, g9⟩ := ih w1 h1 h2
      (fun j hj => hv j (List.mem_cons_of_mem _ hj))
      (by
        show a.writer + (it.key.length + it.data.length + 20) + _ ≤ a.size
        omega)
    refine ⟨a1, ents ++ [Ent.mk a.writer it.key it.data
      (tai_add (if it.ttl > 604800 then 604800 else it.ttl) it.now)], ?_, g2, g3, g4, g6, g7,
      ?_, ?_⟩
    · show (aset a it.now it.key it.data it.ttl).bind _ = _
      rw [hset]; exact g1
    · rw [g8]
      show ents ++ (_ :: a.lo) = _
      simp
    · rw [List.map_append, g9]
      simp [Ent.view, Ins.view]

theorem view_keys {l : List Ent} {items : List Ins}
    (h : l.map Ent.view = items.map Ins.view) : l.map Ent.key = items.map Ins.key := by
  have := congrArg (List.map Prod.fst) h
  simpa [List.map_map, Function.comp_def, Ent.view, Ins.view] using this

theorem aget_behind {a : Abs} {front back : List Ent} {e : Ent}
    (hall : a.all = front ++ e :: back) (hfront : ∀ x ∈ front, x.key ≠ e.key)
    (hflood : 101 ≤ (bucket a.hsize (hash a.hsize e.key) front).length) (T : Nat) :
    aget a T e.key = none := by
  unfold aget
  split
  · rfl
  · rw [hall, bucket_append, List.take_append_of_le_length hflood]
    have h2 : ((bucket a.hsize (hash a.hsize e.key) front).take 101).find?
        (fun x => decide (x.key = e.key)) = none := by
      rw [List.find?_eq_none]
      intro x hx
      simpa using hfront x (mem_bucket.mp (List.mem_of_mem_take hx)).1
    rw [h2]
    rfl

/-- Lookup of the key of one of the writes `older ++ it :: newer` whose
entries are all live: a hit when at most 100 newer keys share its head slot,
a miss when more do. -/
theorem get_in_view {s : Cache} {a : Abs} (hr : Rep s a) {older newer : List Ins} {it : Ins}
    (hview : a.all.map Ent.view = (older ++ it :: newer).reverse.map Ins.view)
    (hdist : ((older ++ it :: newer).map Ins.key).Nodup) (hk : it.key.length ≤ 1000)
    (T : Nat) :
    ((newer.filter (fun j => decide (hash s.hsize j.key = hash s.hsize it.key))).length ≤ 100 →
      T ≤ tai_add (if it.ttl > 604800 then 604800 else it.ttl) it.now →
      ∃ hit, cache_get s T it.key = .ok (some hit) ∧ hit.datalen = it.data.length ∧
        byte_read s.x hit.off hit.datalen = it.data.map Fin.val) ∧
    (101 ≤ (newer.filter
        (fun j => decide (hash s.hsize j.key = hash s.hsize it.key))).length →
      cache_get s T it.key = .ok none) := by
  have hrev : (older ++ it :: newer).reverse = newer.reverse ++ it :: older.reverse := by
    simp
  rw [hrev, List.map_append, List.map_eq_append_iff] at hview
  obtain ⟨front, tail, hall, hfront, htail⟩ := hview
  rw [List.map_cons, List.map_eq_cons_iff] at htail
  obtain ⟨e, back, rfl, hev, _⟩ := htail
  have hek : e.key = it.key := congrArg Prod.fst hev
  have hed : e.data = it.data := congrArg (fun p => p.2.1) hev
  have hee : e.expire = tai_add (if it.ttl > 604800 then 604800 else it.ttl) it.now :=
    congrArg (fun p => p.2.2) hev
  have hfk : ∀ x ∈ front, x.key ≠ e.key := by
    intro x hx hxe
    have h3 : x.key ∈ front.map Ent.key := List.mem_map_of_mem _ hx
    rw [view_keys hfront, hxe, hek] at h3
    obtain ⟨j, hj, hjk⟩ := List.mem_map.mp h3
    rw [List.map_append, List.map_cons, List.nodup_append] at hdist
    apply (List.nodup_cons.mp hdist.2.1).1
    rw [← hjk]
    exact List.mem_map_of_mem _ (by simpa using hj)
  have hlen : (bucket a.hsize (hash a.hsize e.key) front).length =
      (newer.filter (fun j => decide (hash s.hsize j.key = hash s.hsize it.key))).length := by
    rw [bucket_length_eq a.hsize _ front newer hfront, hek, ← hr.hsize_eq]
  constructor
  · intro hflood hlive
    have hkk : e.key.length ≤ 1000 := by rw [hek]; exact hk
    have hget := aget_found hall hkk hfk (by rw [hlen]; exact hflood) T
    have hlive2 : T ≤ e.expire := by rw [hee]; exact hlive
    obtain ⟨hit, q1, q2, q3⟩ := ahit_unexpired e.key hlive2
    refine ⟨hit, ?_, by rw [q2, hed], ?_⟩
    · rw [get_rep hr, ← hek, hget, q1]
    · have hst := hr.stored e (by rw [hall]; simp)
      rw [q2, q3]
      have := byte_read_eq hst.2.2.2.2
      rw [hed] at this ⊢
      exact this
  · intro hflood
    rw [get_rep hr, ← hek, aget_behind hall hfk (by rw [hlen]; exact hflood) T]

theorem filter_all {α : Type} (p : α → Bool) (l : List α) (h : ∀ x ∈ l, p x = true) :
    (l.filter p).length = l.length := by
  rw [List.filter_eq_self.mpr h]

end DnsCache

namespace DnsCache

/-! ## The chain walk on a represented state -/

theorem chain_walk_of_chain (s : Cache) : ∀ (ps : List Nat) (n prev : Nat),
    Chain (uint32_unpack s.x) prev ps → (∀ p ∈ ps, p ≠ 0) → ps.length ≤ n →
    chain_walk s n prev (ps.headD 0) = some ps := by
  intro ps
  induction ps with
  | nil =>
    intro n prev _ _ _
    cases n with
    | zero => rfl
    | succ n => rfl
  | cons p rest ih =>
    intro n prev hc hnz hlen
    cases n with
    | zero => simp at hlen
    | succ n =>
      have hp : p ≠ 0 := hnz p (List.mem_cons_self _ _)
      obtain ⟨c1, c2⟩ := hc
      show chain_walk s (n + 1) prev p = _
      unfold chain_walk
      rw [if_neg hp, c1, ← Nat.xor_assoc, Nat.xor_self, Nat.zero_xor,
        ih n p c2 (fun q hq => hnz q (List.mem_cons_of_mem _ hq))
          (by simp only [List.length_cons] at hlen; omega)]
      rfl

theorem rep_walk {s : Cache} {a : Abs} (hr : Rep s a) {h : Nat} (h1 : h % 4 = 0)
    (h2 : h + 4 ≤ a.hsize) :
    bucket_walk s h = some ((bucket a.hsize h a.all).map Ent.pos) := by
  have w := hr.wf
  obtain ⟨c1, c2⟩ := hr.chains h h1 h2
  unfold bucket_walk
  rw [c1, Nat.zero_xor]
  apply chain_walk_of_chain s _ _ _ c2
  · intro p hp
    obtain ⟨e, he, rfl⟩ := List.mem_map.mp hp
    have hb := all_bounds w (mem_bucket.mp he).1
    have := w.hsize_lo
    omega
  · rw [List.length_map, hr.size_eq]
    have h3 : (bucket a.hsize h a.all).length ≤ a.all.length := List.length_filter_le _ _
    have h4 := all_length_lt w
    omega

/-! ## Iterations of the eviction loop body -/

theorem all_ne_nil_cond {a : Abs} (w : WF a) (hne : a.all ≠ []) :
    ¬(a.oldest = a.unused ∧ a.writer ≤ a.hsize) := by
  rintro ⟨e1, e2⟩
  have hw : a.writer = a.hsize := by have := w.le1; omega
  have hlo : a.lo = [] := tiles_eq_nil w.tiles_lo hw
  have hhi : a.hi = [] := tiles_eq_nil w.tiles_hi e1.symm
  apply hne
  show a.lo ++ a.hi = []
  rw [hlo, hhi]
  rfl

theorem evict_step_rep {s : Cache} {a : Abs} (hr : Rep s a) {l : List Ent} {o : Ent}
    (hall : a.all = l ++ [o]) :
    ∃ s1 a1, cache_set_evict (cache_set_wrap s) = .ok s1 ∧ Rep s1 a1 ∧ a1.all = l ∧
      (cache_set_wrap s).oldest = o.pos ∧ a1.size = a.size ∧ a1.hsize = a.hsize := by
  have w := hr.wf
  have hn := all_ne_nil_cond w (by rw [hall]; simp)
  obtain ⟨g1, ⟨hi1, o1, g2⟩, g3⟩ := wrap_rep hr hn
  obtain ⟨k1, _, _, k4, k5, _⟩ := awrap_wf w hn
  obtain ⟨s1, e1, e2⟩ := evict_rep g1 g2
  obtain ⟨f1, f2, f3, _⟩ := aevict_wf k1 g2
  have h3 := aevict_all g2
  rw [g3, hall] at h3
  obtain ⟨h4, h5⟩ := List.append_inj' h3 rfl
  have ho : o1 = o := by simpa using h5.symm
  refine ⟨s1, aevict (awrap a), e1, e2, h4.symm, ?_, by rw [f2, k4], by rw [f3, k5]⟩
  rw [g1.oldest_eq, ← ho]
  have ht := k1.tiles_hi
  rw [g2, tiles_concat] at ht
  exact ht.1.symm

theorem evict_iter_rep : ∀ (j : Nat) {s : Cache} {a : Abs}, Rep s a → j ≤ a.all.length →
    ∃ sj aj, evict_iter j s = .ok sj ∧ Rep sj aj ∧
      aj.all = a.all.take (a.all.length - j) ∧ aj.size = a.size ∧ aj.hsize = a.hsize := by
  intro j
  induction j with
  | zero =>
    intro s a hr _
    exact ⟨s, a, rfl, hr, by simp, rfl, rfl⟩
  | succ j ih =>
    intro s a hr hj
    have hne : a.all ≠ [] := by
      intro e; rw [e] at hj; simp at hj
    obtain ⟨l, o, hlo⟩ := (List.eq_nil_or_concat a.all).resolve_left hne
    have hall : a.all = l ++ [o] := by rw [hlo]; simp
    obtain ⟨s1, a1, g1, g2, g3, _, g5, g6⟩ := evict_step_rep hr hall
    have hlen : a.all.length = l.length + 1 := by rw [hall]; simp
    obtain ⟨sj, aj, k1, k2, k3, k4, k5⟩ := ih g2 (by rw [g3]; omega)
    refine ⟨sj, aj, ?_, k2, ?_, by rw [k4, g5], by rw [k5, g6]⟩
    · show (cache_set_evict (cache_set_wrap s)).bind _ = _
      rw [g1]
      exact k1
    · rw [k3, g3, hlen, hall]
      have e1 : l.length + 1 - (j + 1) = l.length - j := by omega
      rw [e1, List.take_append_of_le_length (by omega)]

theorem evict_iter_next {a : Abs} {j : Nat} {sj : Cache}
    {aj : Abs} (hrj : Rep sj aj) (hall : aj.all = a.all.take (a.all.length - j))
    (hj : j < a.all.length) {o : Ent} (ho : a.all.get? (a.all.length - j - 1) = some o) :
    (cache_set_wrap sj).oldest = o.pos := by
  have hlenj : aj.all.length = a.all.length - j := by
    rw [hall, List.length_take]
    omega
  have hne : aj.all ≠ [] := by
    intro e; rw [e] at hlenj; simp at hlenj; omega
  obtain ⟨l, o1, hlo⟩ := (List.eq_nil_or_concat aj.all).resolve_left hne
  have hall1 : aj.all = l ++ [o1] := by rw [hlo]; simp
  obtain ⟨_, _, _, _, _, g4, _⟩ := evict_step_rep hrj hall1
  rw [g4]
  have hl : l.length = a.all.length - j - 1 := by
    have := congrArg List.length hall1
    simp at this
    omega
  have h1 : aj.all.get? (a.all.length - j - 1) = some o1 := by
    rw [hall1, ← hl]
    simp
  have h2 : aj.all.get? (a.all.length - j - 1) = some o := by
    rw [hall, List.get?_eq_getElem?, List.getElem?_take_of_lt (by omega),
      ← List.get?_eq_getElem?]
    exact ho
  rw [h1] at h2
  exact congrArg Ent.pos (Option.some.inj h2)

end DnsCache

namespace DnsCache

/-! ## The live entries are the most recent stored writes -/

theorem aset_cases {a a1 : Abs} (w : WF a) {now : Nat} {key data : List Byte} {ttl : Nat}
    (h : aset a now key data ttl = some a1) :
    ((key.length ≤ 1000 ∧ data.length ≤ 1000000 ∧ ttl ≠ 0 ∧
        a.hsize + (key.length + data.length + 20) ≤ a.size) →
      ∃ j w0, a1.all = Ent.mk w0 key data
        (tai_add (if ttl > 604800 then 604800 else ttl) now) :: a.all.take j) ∧
    (¬(key.length ≤ 1000 ∧ data.length ≤ 1000000 ∧ ttl ≠ 0 ∧
        a.hsize + (key.length + data.length + 20) ≤ a.size) →
      ∃ j, a1.all = a.all.take j) := by
  constructor
  · rintro ⟨hk, hd, httl, hfit⟩
    obtain ⟨a0, _, g2, _, _, _, _, ⟨d, g7⟩, _⟩ :=
      aset_fit w now key data ttl hk hd (by omega) hfit
    rw [g2] at h
    simp only [Option.some.injEq] at h
    subst h
    refine ⟨a0.all.length, a0.writer, ?_⟩
    rw [g7, List.take_left']
    · rfl
    · rfl
  · intro hn
    by_cases hv : key.length ≤ 1000 ∧ data.length ≤ 1000000 ∧ ttl ≠ 0
    · obtain ⟨hk, hd, httl⟩ := hv
      have hbig : a.size < a.hsize + (key.length + data.length + 20) := by
        by_contra hc
        exact hn ⟨hk, hd, httl, by omega⟩
      obtain ⟨_, _, _, _, _, _, _, f8⟩ := aset_flush w hk hd (by omega) hbig h
      exact ⟨0, by rw [f8]; rfl⟩
    · have ha : a1 = a := by
        unfold aset at h
        simp only [MAXKEYLEN, MAXDATALEN] at h
        by_cases c1 : key.length > 1000
        · rw [if_pos c1] at h
          exact (Option.some.inj h).symm
        · rw [if_neg c1] at h
          by_cases c2 : data.length > 1000000
          · rw [if_pos c2] at h
            exact (Option.some.inj h).symm
          · rw [if_neg c2] at h
            by_cases c3 : ttl = 0
            · rw [if_pos c3] at h
              exact (Option.some.inj h).symm
            · exact absurd ⟨by omega, by omega, c3⟩ hv
      exact ⟨a.all.length, by rw [ha, List.take_length]⟩

theorem aset_seq_order (c : Nat) : ∀ (items : List Ins) (a : Abs),
    aset_seq (ainit c) items = some a →
    WF a ∧ a.size = (ainit c).size ∧ a.hsize = (ainit c).hsize ∧
      ∃ k, a.all.map Ent.view =
        (((items.filter (Ins.stores c)).reverse).take k).map Ins.view := by
  intro items
  induction items using List.reverseRecOn with
  | nil =>
    intro a h
    simp only [aset_seq, Option.some.injEq] at h
    subst h
    exact ⟨ainit_wf c, rfl, rfl, 0, rfl⟩
  | append_singleton l it ih =>
    intro a h
    rw [aset_seq_append] at h
    cases hl : aset_seq (ainit c) l with
    | none => rw [hl] at h; cases h
    | some a1 =>
      rw [hl] at h
      obtain ⟨w1, s1, s2, k, hk⟩ := ih a1 hl
      have hset : aset a1 it.now it.key it.data it.ttl = some a := by
        change (aset a1 it.now it.key it.data it.ttl).bind (fun a2 => some a2) = some a at h
        cases hq : aset a1 it.now it.key it.data it.ttl with
        | none => rw [hq] at h; cases h
        | some a2 => rw [hq] at h; exact h
      obtain ⟨w2, t1, t2⟩ := aset_wf w1 hset
      obtain ⟨c1, c2⟩ := aset_cases w1 hset
      have hh := cache_init_hsize c
      have hst : Ins.stores c it = true ↔
          (it.key.length ≤ 1000 ∧ it.data.length ≤ 1000000 ∧ it.ttl ≠ 0 ∧
            a1.hsize + (it.key.length + it.data.length + 20) ≤ a1.size) := by
        rw [s1, s2]
        unfold Ins.stores
        rw [decide_eq_true_iff]
        show _ ↔ (_ ∧ _ ∧ _ ∧
          (cache_init c).hsize + (it.key.length + it.data.length + 20) ≤ (cache_init c).size)
        constructor
        · rintro ⟨q1, q2, q3, q4⟩; exact ⟨q1, q2, q3, by omega⟩
        · rintro ⟨q1, q2, q3, q4⟩; exact ⟨q1, q2, q3, by omega⟩
      refine ⟨w2, by rw [t1, s1], by rw [t2, s2], ?_⟩
      by_cases hp : Ins.stores c it = true
      · obtain ⟨j, w0, hall⟩ := c1 (hst.mp hp)
        refine ⟨min j k + 1, ?_⟩
        rw [List.filter_append, List.filter_cons_of_pos hp, List.filter_nil,
          List.reverse_append, List.reverse_singleton, List.singleton_append, List.take_succ_cons,
          List.map_cons, hall, List.map_cons, List.map_take, hk, ← List.map_take, List.take_take]
        rfl
      · obtain ⟨j, hall⟩ := c2 (fun hc => hp (hst.mpr hc))
        refine ⟨min j k, ?_⟩
        rw [List.filter_append, List.filter_cons_of_neg hp, List.filter_nil, List.append_nil,
          hall, List.map_take, hk, ← List.map_take, List.take_take]

end DnsCache

namespace DnsCache

/-! ## Two subdomains in one secondary engine -/

end DnsCache

namespace DnsCache

/-! ## Sibling subdomains in one secondary engine -/

end DnsCache

namespace DnsCache

/-! ## Claims on one engine -/

theorem engine_a_eq : cache_set (cache_init 100) 1000 (str "a") (str "xyz") 10 = .ok engine_a := by
  rfl

theorem engine_ab_eq : cache_set engine_a 1000 (str "b") (str "uv") 10 = .ok engine_ab := by
  rfl

theorem engine_ab_del_eq : cache_del engine_ab (str "a") = .ok (engine_ab_del, 1) := by
  rfl

theorem engine_a_reach : ReachSet engine_a :=
  ReachSet.set 1000 (str "a") (str "xyz") 10 (ReachSet.init 100) engine_a_eq

/-- C1. Engine round trip: on every state reachable from `cache_init` by
`cache_set`, for a key of at most 1000 bytes, data of at most 1,000,000 bytes
whose entry fits the arena and a ttl of at least 1, `cache_set` at time `t`
(a clock that does not wrap within a week) returns, and `cache_get` of the
key at a time `t1` with `t <= t1 < t + min(ttl, 604800)` returns exactly the
bytes of the data, their length, and a remaining ttl `r` with
`0 < r <= ttl`. -/
theorem set_get_round_trip (s : Cache) (hs : ReachSet s) (k d : List Byte) (ttl t t1 : Nat)
    (hk : k.length ≤ 1000) (hd : d.length ≤ 1000000)
    (hfit : 20 + k.length + d.length ≤ s.size - s.hsize) (httl : 1 ≤ ttl)
    (ht : t ≤ t1) (ht1 : t1 < t + min ttl 604800)
    (hclock : t + 604800 < 18446744073709551616) :
    ∃ s1 hit, cache_set s t k d ttl = .ok s1 ∧ cache_get s1 t1 k = .ok (some hit) ∧
      hit.datalen = d.length ∧ byte_read s1.x hit.off hit.datalen = d.map Fin.val ∧
      0 < hit.ttl ∧ hit.ttl ≤ ttl := by
  obtain ⟨s1, w, h1, _, h3, h4⟩ := set_then_get hs k d ttl t t1 hk hd hfit httl
  rw [ahit_live httl ht (by omega) hclock] at h4
  have hm : min ttl 604800 ≤ ttl := Nat.min_le_left _ _
  refine ⟨s1, _, h1, h4, rfl, ?_, ?_, ?_⟩
  · exact byte_read_eq h3.2.2.2.2
  · show 0 < t + min ttl 604800 - t1
    omega
  · show t + min ttl 604800 - t1 ≤ ttl
    omega

theorem set_get_round_trip_witness :
    ∃ s1 hit, cache_set engine_a 1000 (str "b") (str "uv") 10 = .ok s1 ∧
      cache_get s1 1005 (str "b") = .ok (some hit) ∧
      hit.datalen = (str "uv").length ∧
      byte_read s1.x hit.off hit.datalen = (str "uv").map Fin.val ∧
      0 < hit.ttl ∧ hit.ttl ≤ 10 :=
  set_get_round_trip engine_a engine_a_reach (str "b") (str "uv") 10 1000 1005
    (by decide) (by decide) (by decide) (by decide) (by decide) (by decide) (by decide)

/-- C3. Expiry: on every state reachable from `cache_init` by `cache_set`,
an entry stored by `cache_set(k, d, ttl)` at time `t` (key and data within
the limits, the entry fits, ttl at least 1, a clock that does not wrap within
a week) is a hit of `cache_get(k)` at time `t` and a miss at every time
strictly after `t + min(ttl, 604800)`; with `ttl = 1` that is every time
after `t + 1`. -/
theorem set_get_expiry (s : Cache) (hs : ReachSet s) (k d : List Byte) (ttl t : Nat)
    (hk : k.length ≤ 1000) (hd : d.length ≤ 1000000)
    (hfit : 20 + k.length + d.length ≤ s.size - s.hsize) (httl : 1 ≤ ttl)
    (hclock : t + 604800 < 18446744073709551616) :
    ∃ s1, cache_set s t k d ttl = .ok s1 ∧
      (∃ hit, cache_get s1 t k = .ok (some hit)) ∧
      (∀ t1, t + min ttl 604800 < t1 → cache_get s1 t1 k = .ok none) ∧
      (ttl = 1 → ∀ t1, t + 1 < t1 → cache_get s1 t1 k = .ok none) := by
  obtain ⟨s1, w, h1, _, _, h4⟩ := set_then_get hs k d ttl t t hk hd hfit httl
  rw [ahit_live httl (le_refl _) (by omega) hclock] at h4
  refine ⟨s1, h1, ⟨_, h4⟩, ?_⟩
  · have hmiss : ∀ t1, t + min ttl 604800 < t1 → cache_get s1 t1 k = .ok none := by
      intro t1 ht1
      obtain ⟨s2, w2, g1, _, _, g4⟩ := set_then_get hs k d ttl t t1 hk hd hfit httl
      rw [h1] at g1
      cases g1
      rw [g4]
      have e1 : (if ttl > 604800 then 604800 else ttl) = min ttl 604800 := by
        split <;> omega
      have hm : min ttl 604800 ≤ 604800 := Nat.min_le_right _ _
      have e2 : tai_add (min ttl 604800) t = t + min ttl 604800 := by
        unfold tai_add; omega
      unfold ahit
      simp only [e1, e2]
      rw [if_pos ht1]
    refine ⟨hmiss, ?_⟩
    intro e t1 ht1
    apply hmiss
    subst e
    simpa using ht1

theorem set_get_expiry_witness :
    ∃ s1, cache_set engine_a 1000 (str "b") (str "uv") 1 = .ok s1 ∧
      (∃ hit, cache_get s1 1000 (str "b") = .ok (some hit)) ∧
      (∀ t1, 1000 + min 1 604800 < t1 → cache_get s1 t1 (str "b") = .ok none) ∧
      (1 = 1 → ∀ t1, 1000 + 1 < t1 → cache_get s1 t1 (str "b") = .ok none) :=
  set_get_expiry engine_a engine_a_reach (str "b") (str "uv") 1 1000
    (by decide) (by decide) (by decide) (by decide) (by decide)

/-- C10. Region invariant: right after `cache_init`, `writer = hsize` and
`oldest = unused = size`; and in every state reached from `cache_init` by any
sequence of `cache_set` and `cache_del` calls that return,
`hsize <= writer <= oldest <= unused <= size` and `oldest = unused` implies
`unused = size`. -/
theorem region_invariant (cachesize : Nat) (s : Cache) (h : Reach s) :
    ((cache_init cachesize).writer = (cache_init cachesize).hsize ∧
      (cache_init cachesize).oldest = (cache_init cachesize).size ∧
      (cache_init cachesize).unused = (cache_init cachesize).size) ∧
    RegionInv s :=
  ⟨cache_init_region cachesize, (reach_region h).2⟩

theorem region_invariant_witness :
    ((cache_init 100).writer = (cache_init 100).hsize ∧
      (cache_init 100).oldest = (cache_init 100).size ∧
      (cache_init 100).unused = (cache_init 100).size) ∧
    RegionInv engine_ab_del :=
  region_invariant 100 engine_ab_del
    (Reach.del (str "a") 1
      (Reach.set 1000 (str "b") (str "uv") 10
        (Reach.set 1000 (str "a") (str "xyz") 10 (Reach.init 100) engine_a_eq) engine_ab_eq)
      engine_ab_del_eq)

/-- C4, evaluated at the failing input.  In `engine_ab` the keys "a" and "b"
are distinct, hash to the same head slot, and both are stored and unexpired.
`cache_del("a")` returns 1 and unlinks the newest entry of the bucket, "b":
afterwards `cache_get("a")` still returns "xyz" and `cache_get("b")` misses. -/
theorem cache_del_unlinks_sibling :
    str "a" ≠ str "b" ∧ hash engine_ab.hsize (str "a") = hash engine_ab.hsize (str "b") ∧
    observe_get engine_ab 1000 (str "a") = .ok (some ([120, 121, 122], 10)) ∧
    observe_get engine_ab 1000 (str "b") = .ok (some ([117, 118], 10)) ∧
    cache_del engine_ab (str "a") = .ok (engine_ab_del, 1) ∧
    observe_get engine_ab_del 1000 (str "a") = .ok (some ([120, 121, 122], 10)) ∧
    observe_get engine_ab_del 1000 (str "b") = .ok none := by
  refine ⟨by decide, by decide, by decide, by decide, by rfl, by decide, by decide⟩

/-- C5, evaluated at the failing input.  The key "b" was never set in
`engine_a` (`cache_get("b")` misses; "a" is the only entry, in the same
bucket), and `cache_del("b")` returns 1. -/
theorem cache_del_true_for_absent_key :
    observe_get engine_a 1000 (str "b") = .ok none ∧
    (cache_del engine_a (str "b")).bind (fun p => Res.ok p.2) = .ok 1 := by
  refine ⟨by decide, by decide⟩

/-- C9, evaluated at the failing input.  On an engine of 100 bytes,
`cache_set("a", "")`, `cache_del("a")`, `cache_set("a", 50 bytes)`,
`cache_set("a", "")` all return, and the following `cache_get("b")` reaches
`cache_impossible`. -/
theorem fatal_exit_after_delete : fatal_run = .fatal := by
  decide

end DnsCache

namespace DnsCache

/-! ## Claims on the two-level cache, evaluated -/

/-- C7, counterexample.  After
`cache_set_domain_entry("a.b.example.com", "1.2.3.4", 86400)` on a fresh
top-level cache, with the key passed as a NUL-terminated string, the key is
split at its last '.', so the top-level entry is "com";
`cache_del_subdomains("example.com")` finds no entry (returns 0) and
`cache_get_domain_entry("a.b.example.com")` still returns "1.2.3.4". -/
theorem del_subdomains_example_com_keeps_entry :
    (cache_del_subdomains world_example 1000 (str "example.com")).bind (fun p =>
      (observe_domain_get p.1 1000 (str "a.b.example.com") []).bind fun r => .ok (p.2, r)) =
    .ok (0, some ((str "1.2.3.4").map Fin.val)) := by
  decide

/-- C8, evaluated at the failing input.  In `world_com_net` the top-level
entries "com" and "net" share the bucket and "net" is the newer one.
`cache_del_subdomains("com")` returns 1, but the top-level `cache_get("com")`
is still a hit afterwards, while the entry of the other domain, "net", is
gone. -/
theorem del_subdomains_unlinks_other_domain :
    (observe_get world_com_net.top 1000 (str "com")).bind (fun r => .ok r.isSome) = .ok true ∧
    (observe_get world_com_net.top 1000 (str "net")).bind (fun r => .ok r.isSome) = .ok true ∧
    (cache_del_subdomains world_com_net 1000 (str "com")).bind (fun p =>
      (observe_get p.1.top 1000 (str "com")).bind fun r =>
      (observe_get p.1.top 1000 (str "net")).bind fun r2 => .ok (p.2, r.isSome, r2.isSome)) =
    .ok (1, true, false) := by
  refine ⟨by decide, by decide, by decide⟩

set_option maxRecDepth 100000 in
/-- C6, counterexample.  Each part is an input of the claim (key
"a.b.example.com" or of the same form, ttl at least 1, entries that fit) on
which the set followed by the get does not return the data.
(1) The allocation of the secondary engine fails: `domain_cache_init` returns
0, the null handle is stored under "com", `domain_cache_set` returns at its
test `!dc`, and the get misses.
(2) After `cache_set_domain_entry("com")` with a failed allocation the
top-level entry "com" holds the null handle; a later set of "a.com", whose
allocation would succeed, finds that entry and stores nothing.
(3) The subdomain part of the key has 1001 bytes: the copy into
`char subdomain[MAXKEYLEN]` overruns the buffer; the same for a domain part of
1001 bytes in a top-level arena of 5000 bytes.
(4) The test program calls `cache_set_domain_entry(x, 15, x + 16, 7, 86400)`
on the argument `x = "a.b.example.com:1.2.3.4"` after `cache_init(200)`: the
bytes ":1.2.3.4" follow the key in memory, `str_rchr(key,'.')` scans to the
NUL and returns 21, `21 < keylen - 1` is false, so the subdomain is empty, the
top-level entry is stored under the 21 bytes "a.b.example.com:1.2.3" and
nothing is written to the secondary engine; the get misses, with the key
passed as a NUL-terminated string and also with the pointer of the set call.
(5) After a set with a NUL-terminated key, the get with the key followed by
":1.2.3.4" misses. -/
theorem domain_round_trip_fails :
    28 + (str "com").length ≤ (world_init 200).top.size - (world_init 200).top.hsize ∧
    20 + (str "a.b.example").length + (str "1.2.3.4").length ≤
      (cache_init 10000).size - (cache_init 10000).hsize ∧
    (cache_set_domain_entry (world_init 200) 1000 (str "a.b.example.com") []
      (str "1.2.3.4") 86400 false).bind (fun w1 =>
        observe_domain_get w1 1000 (str "a.b.example.com") []) = .ok none ∧
    (cache_set_domain_entry (world_init 200) 1000 (str "com") [] (str "x") 86400 false).bind
      (fun w0 => (cache_set_domain_entry w0 1000 (str "a.com") [] (str "1") 86400 true).bind
        fun w1 => observe_domain_get w1 1000 (str "a.com") []) = .ok none ∧
    long_key = List.replicate 1001 97 ++ [46] ++ str "com" ∧
    20 + 1001 + (str "x").length ≤ (cache_init 10000).size - (cache_init 10000).hsize ∧
    (cache_set_domain_entry (world_init 200) 1000 long_key [] (str "x") 10 true).bind
      (fun w1 => observe_domain_get w1 1000 long_key []) = .undefined ∧
    28 + 1001 ≤ (world_init 5000).top.size - (world_init 5000).top.hsize ∧
    (cache_set_domain_entry (world_init 5000) 1000 (str "a." ++ List.replicate 1001 97) []
      (str "x") 10 true).bind (fun w1 =>
        observe_domain_get w1 1000 (str "a." ++ List.replicate 1001 97) []) = .undefined ∧
    (cache_set_domain_entry (world_init 200) 1000 (str "a.b.example.com") (str ":1.2.3.4")
      (str "1.2.3.4") 86400 true).bind (fun w1 =>
        (observe_domain_get w1 1000 (str "a.b.example.com") []).bind fun r1 =>
        (observe_domain_get w1 1000 (str "a.b.example.com") (str ":1.2.3.4")).bind fun r2 =>
          .ok (r1, r2)) = .ok (none, none) ∧
    (cache_set_domain_entry (world_init 200) 1000 (str "a.b.example.com") []
      (str "1.2.3.4") 86400 true).bind (fun w1 =>
        observe_domain_get w1 1000 (str "a.b.example.com") (str ":1.2.3.4")) = .ok none := by
  refine ⟨by decide, by decide, by decide, by decide, by decide, by decide, by decide,
    by decide, by decide, by decide, by decide⟩

end DnsCache

namespace DnsCache

/-! ## Eviction ordering -/

/-- C2, counterexample.  The arena of 2372 bytes holds exactly 102 entries
of 22 bytes; the 103 keys of `flood_items` are distinct, hash to one head slot
and have entries of 22 bytes.  After the 103 writes the second key `[2, 2]` is
still linked, at position 102 of its chain, and `cache_get` of it misses: the
chain walk gives up after 101 entries. -/
theorem eviction_order_flood :
    flood_items.length = 102 + 1 ∧
    102 * 22 = (cache_init 2372).size - (cache_init 2372).hsize ∧
    (flood_items.map Ins.key).Nodup ∧
    (∀ it ∈ flood_items, it.key.length + it.data.length + 20 = 22 ∧ 1 ≤ it.ttl ∧
      1000 ≤ it.now + min it.ttl 604800) ∧
    (flood_items.drop 1).head? = some (Ins.mk [2, 2] [] 10 1000) ∧
    (set_seq (cache_init 2372) flood_items).bind (fun s => cache_get s 1000 [2, 2]) =
      .ok none := by
  refine ⟨by decide, by decide, by decide, by decide, by decide, ?_⟩
  obtain ⟨a1, s1, h1, h2, h3⟩ := seq_rep flood_items (init_rep 2372)
  rw [h2, Res.bind_ok, get_rep h3]
  have h : (aset_seq (ainit 2372) flood_items).bind (fun a => some (aget a 1000 [2, 2])) =
      some none := by decide
  rw [h1] at h
  simpa using h

/-- C2, amended.  In a fresh arena whose entry region holds exactly `N`
entries of length `L`, after `N + 1` writes of distinct keys (keys and data
within the limits, every entry of length `L`, ttl at least 1, none expired at
time `T`), `cache_get` of the first key misses, whatever its ttl, and
`cache_get` of every other key returns its stored data, provided at most 100
of the keys written after it hash to its head slot (the chain walk of
`cache_get` examines at most 101 entries). -/
theorem eviction_order (c N L T : Nat) (first : Ins) (rest : List Ins)
    (hN : rest.length = N) (hN1 : 1 ≤ N)
    (hL : N * L = (cache_init c).size - (cache_init c).hsize)
    (hv : ∀ it ∈ first :: rest, it.key.length ≤ 1000 ∧ it.data.length ≤ 1000000 ∧
      it.key.length + it.data.length + 20 = L ∧ 1 ≤ it.ttl ∧
      it.now + 604800 < 18446744073709551616 ∧ T ≤ it.now + min it.ttl 604800)
    (hdist : ((first :: rest).map Ins.key).Nodup) :
    ∃ s, set_seq (cache_init c) (first :: rest) = .ok s ∧
      cache_get s T first.key = .ok none ∧
      ∀ older it newer, rest = older ++ it :: newer →
        (newer.filter (fun j => decide (hash s.hsize j.key = hash s.hsize it.key))).length
          ≤ 100 →
        ∃ hit, cache_get s T it.key = .ok (some hit) ∧ hit.datalen = it.data.length ∧
          byte_read s.x hit.off hit.datalen = it.data.map Fin.val := by
  obtain ⟨a, ha, hview⟩ := fill_and_wrap c N L first rest hN hN1 hL
    (fun it hit => ⟨(hv it hit).1, (hv it hit).2.1, (hv it hit).2.2.1, (hv it hit).2.2.2.1⟩)
  obtain ⟨a1, s, h1, h2, hr⟩ := seq_rep (first :: rest) (init_rep c)
  rw [ha] at h1
  cases h1
  have hkeys : a.all.map Ent.key = rest.reverse.map Ins.key := by
    have := congrArg (List.map Prod.fst) hview
    simpa [List.map_map, Function.comp_def, Ent.view, Ins.view] using this
  rw [List.map_cons, List.nodup_cons] at hdist
  refine ⟨s, h2, ?_, ?_⟩
  · rw [get_rep hr]
    rw [aget_absent first.key _ T]
    intro x hx e
    apply hdist.1
    rw [← e]
    have : x.key ∈ a.all.map Ent.key := List.mem_map_of_mem _ hx
    rw [hkeys] at this
    simpa using this
  · intro older it newer hsplit hflood
    have hrev : rest.reverse = newer.reverse ++ it :: older.reverse := by
      rw [hsplit]; simp
    rw [hrev, List.map_append, List.map_eq_append_iff] at hview
    obtain ⟨front, tail, hall, hfront, htail⟩ := hview
    rw [List.map_cons, List.map_eq_cons_iff] at htail
    obtain ⟨e, back, rfl, hev, _⟩ := htail
    have hek : e.key = it.key := congrArg Prod.fst hev
    have hed : e.data = it.data := congrArg (fun p => p.2.1) hev
    have hee : e.expire = tai_add (if it.ttl > 604800 then 604800 else it.ttl) it.now :=
      congrArg (fun p => p.2.2) hev
    obtain ⟨v1, v2, v3, v4, v5, v6⟩ := hv it (by
      rw [hsplit]; exact List.mem_cons_of_mem _ (by simp))
    have hfk : ∀ x ∈ front, x.key ≠ e.key := by
      intro x hx hxe
      have h3 : x.key ∈ front.map Ent.key := List.mem_map_of_mem _ hx
      have h4 : front.map Ent.key = newer.reverse.map Ins.key := by
        have := congrArg (List.map Prod.fst) hfront
        simpa [List.map_map, Function.comp_def, Ent.view, Ins.view] using this
      rw [h4, hxe, hek] at h3
      obtain ⟨j, hj, hjk⟩ := List.mem_map.mp h3
      have hnd := hdist.2
      rw [hsplit, List.map_append, List.map_cons, List.nodup_append] at hnd
      have := (List.nodup_cons.mp hnd.2.1).1
      apply this
      rw [← hjk]
      exact List.mem_map_of_mem _ (by simpa using hj)
    have hfl : (bucket a.hsize (hash a.hsize e.key) front).length ≤ 100 := by
      rw [bucket_length_eq a.hsize _ front newer hfront, hek, ← hr.hsize_eq]
      exact hflood
    have hget := aget_found hall (by rw [hek]; exact v1) hfk hfl T
    have hlive : T ≤ e.expire := by
      rw [hee]
      have e1 : (if it.ttl > 604800 then 604800 else it.ttl) = min it.ttl 604800 := by
        split <;> omega
      have hm : min it.ttl 604800 ≤ 604800 := Nat.min_le_right _ _
      rw [e1]
      unfold tai_add
      omega
    obtain ⟨hit, q1, q2, q3⟩ := ahit_unexpired e.key hlive
    refine ⟨hit, ?_, by rw [q2, hed], ?_⟩
    · rw [get_rep hr, ← hek, hget, q1]
    · have hst := hr.stored e (by rw [hall]; simp)
      rw [q2, q3]
      have := byte_read_eq hst.2.2.2.2
      rw [hed] at this ⊢
      exact this

theorem eviction_order_witness :
    ∃ s, set_seq (cache_init 100) (small_item 97 :: [small_item 98, small_item 99,
        small_item 100, small_item 101]) = .ok s ∧
      cache_get s 1005 (small_item 97).key = .ok none ∧
      ∀ older it newer,
        [small_item 98, small_item 99, small_item 100, small_item 101] = older ++ it :: newer →
        (newer.filter (fun j => decide (hash s.hsize j.key = hash s.hsize it.key))).length
          ≤ 100 →
        ∃ hit, cache_get s 1005 it.key = .ok (some hit) ∧ hit.datalen = it.data.length ∧
          byte_read s.x hit.off hit.datalen = it.data.map Fin.val :=
  eviction_order 100 4 24 1005 (small_item 97)
    [small_item 98, small_item 99, small_item 100, small_item 101]
    (by decide) (by decide) (by decide) (by decide) (by decide)

end DnsCache

namespace DnsCache

/-! ## Claims on the two-level cache -/

/-- C6, amended.  Two-level round trip: in every state reachable from
`cache_init` by `cache_set_domain_entry`, for every NUL-free key `sub.dom`
(`sub` and `dom` non-empty and each at most 1000 bytes, no '.' in `dom`) that
no '.' follows in memory up to the NUL in either call (for instance a
NUL-terminated key), every ttl of at least 1 and data whose entries fit, when
the allocation succeeds if `dom` has no live top-level entry, and the live
top-level entry of `dom`, if there is one, holds a handle that is not null
(and the clock does not wrap within a week), `cache_set_domain_entry` returns
and `cache_get_domain_entry` of the same key at the same time returns exactly
the data. -/
theorem domain_round_trip (w : World) (hw : ReachWorld w) (sub dom data r1 r2 : List Byte)
    (ttl now : Nat) (alloc_ok : Bool) (hsub : sub ≠ []) (hdom : dom ≠ [])
    (hdot : (46 : Byte) ∉ dom) (hr1 : (46 : Byte) ∉ r1) (hr2 : (46 : Byte) ∉ r2)
    (hnul : (0 : Byte) ∉ sub ++ [46] ++ dom) (hsl : sub.length ≤ 1000)
    (hdl : dom.length ≤ 1000) (httl : 1 ≤ ttl)
    (hfit1 : 28 + dom.length ≤ w.top.size - w.top.hsize)
    (hfit2 : 20 + sub.length + data.length ≤
      (cache_init 10000).size - (cache_init 10000).hsize)
    (halloc : cache_get w.top now dom = .ok none →
      alloc_ok = true ∧ w.heap.length + 1 < 18446744073709551616)
    (hnn : ∀ hit, cache_get w.top now dom = .ok (some hit) →
      uint64_unpack w.top.x hit.off ≠ 0)
    (hclock : now + 604800 < 18446744073709551616) :
    ∃ w1, cache_set_domain_entry w now (sub ++ [46] ++ dom) r1 data ttl alloc_ok = .ok w1 ∧
      observe_domain_get w1 now (sub ++ [46] ++ dom) r2 = .ok (some (data.map Fin.val)) :=
  domain_round_trip_inv w (reach_world_inv hw) sub dom data r1 r2 ttl now alloc_ok hsub hdom
    hdot hr1 hr2 hnul hsl hdl httl hfit1 hfit2 halloc hnn hclock

theorem domain_round_trip_witness :
    ∃ w1, cache_set_domain_entry (world_init 200) 1000 (str "www" ++ [46] ++ str "com")
        (str ":5") (str "5.6.7.8") 10 true = .ok w1 ∧
      observe_domain_get w1 1000 (str "www" ++ [46] ++ str "com") [] =
        .ok (some ((str "5.6.7.8").map Fin.val)) :=
  domain_round_trip (world_init 200) (ReachWorld.init 200) (str "www") (str "com")
    (str "5.6.7.8") (str ":5") [] 10 1000 true (by decide) (by decide) (by decide) (by decide)
    (by decide) (by decide) (by decide) (by decide) (by decide) (by decide) (by decide)
    (fun _ => by decide)
    (fun hit h => by
      have hm : cache_get (world_init 200).top 1000 (str "com") = .ok none := by decide
      rw [hm] at h
      cases h)
    (by decide)

/-- The top-level entry of "com" in a fresh top-level cache: after the write
of the handle `h0` it is found, the handle is read back, `cache_del` unlinks
it, and afterwards "com" is missed. -/
theorem top_entry_com (c h0 ttl now t2 : Nat) (hh0 : h0 < 18446744073709551616)
    (httl : 1 ≤ ttl) (hclock : now + 604800 < 18446744073709551616) (ht2 : now ≤ t2)
    (ht2e : t2 ≤ now + min ttl 604800) :
    ∃ top1 top2 hit, cache_set (cache_init c) now (str "com") (uint64_pack h0) ttl = .ok top1 ∧
      cache_get top1 t2 (str "com") = .ok (some hit) ∧
      uint64_unpack top1.x hit.off = h0 ∧
      cache_del top1 (str "com") = .ok (top2, 1) ∧
      ∀ t3, cache_get top2 t3 (str "com") = .ok none := by
  have hr0 := init_rep c
  have w0 := ainit_wf c
  have hh := cache_init_hsize c
  have hsz := cache_init_size c
  have hpl := uint64_pack_length h0
  have hkl : (str "com").length = 3 := by decide
  have hfree := aset_free w0 (Ins.mk (str "com") (uint64_pack h0) ttl now)
    (by show (str "com").length ≤ 1000; omega)
    (by show (uint64_pack h0).length ≤ 1000000; omega) httl (by
      show (cache_init c).hsize + ((str "com").length + (uint64_pack h0).length + 20) ≤
        (cache_init c).size
      omega)
  simp only [] at hfree
  obtain ⟨top1, a1, wpos, g1, g2, g3, g4, g5⟩ := set_then_get_rep hr0 (str "com")
    (uint64_pack h0) ttl now t2 (by omega) (by omega) (by omega) httl
  rw [hfree] at g3
  cases g3
  rw [ahit_live httl ht2 ht2e hclock] at g5
  have hun := uint64_unpack_pack hh0 g4.2.2.2.2
  have hdel := cache_del_single g2 (str "com") (by omega)
    (e := Ent.mk (ainit c).writer (str "com") (uint64_pack h0)
      (tai_add (if ttl > 604800 then 604800 else ttl) now))
    (bucket_cons_pos rfl)
  exact ⟨top1, _, _, g1, g5, hun, hdel,
    fun t3 => cache_get_after_del_single g2 t3 (str "com")⟩

/-- C7, amended.  Starting from a fresh top-level cache of any size, after
`cache_set_domain_entry("a.b.example.com", data, ttl)` with ttl at least 1 at
time `now`, with no '.' among the bytes that follow the key in memory up to
the NUL (for instance a NUL-terminated key) and whether or not the allocation
of the secondary engine succeeds, the call `cache_del_subdomains("com")` before
the ttl expires ("com" is the part of the key after its last '.', under which
the top-level entry is stored) returns 1, and
`cache_get_domain_entry("a.b.example.com")` at any later time, again with no
'.' after the key, returns a miss. -/
theorem del_subdomains_last_label (c : Nat) (data r1 r2 : List Byte) (ttl now t2 t3 : Nat)
    (alloc_ok : Bool) (hr1 : (46 : Byte) ∉ r1) (hr2 : (46 : Byte) ∉ r2)
    (httl : 1 ≤ ttl) (hclock : now + 604800 < 18446744073709551616) (ht2 : now ≤ t2)
    (ht2e : t2 ≤ now + min ttl 604800) :
    ∃ w1 w2, cache_set_domain_entry (world_init c) now (str "a.b.example.com") r1 data ttl
        alloc_ok = .ok w1 ∧
      cache_del_subdomains w1 t2 (str "com") = .ok (w2, 1) ∧
      cache_get_domain_entry w2 t3 (str "a.b.example.com") r2 = .ok none := by
  have hkey : str "a.b.example.com" = str "a.b.example" ++ [46] ++ str "com" := by decide
  obtain ⟨hs1, _⟩ := @split_sub_dom (str "a.b.example") (str "com") r1
    (by decide) (by decide) hr1 (by decide) (by decide) (by decide)
  obtain ⟨_, hs2⟩ := @split_sub_dom (str "a.b.example") (str "com") r2
    (by decide) (by decide) hr2 (by decide) (by decide) (by decide)
  rw [← hkey] at hs1 hs2
  have hr0 := init_rep c
  have hmiss : aget (ainit c) now (str "com") = none :=
    aget_absent (str "com") (fun x hx => by cases hx) now
  by_cases hok : alloc_ok = true
  · obtain ⟨top1, top2, hit, g1, g5, hun, hdel, hmiss2⟩ := top_entry_com c 1 ttl now t2
      (by norm_num) httl hclock ht2 ht2e
    obtain ⟨b1, dc1, _, k2, _⟩ := set_rep (init_rep 10000) now (str "a.b.example") data ttl
    have hset := @domain_set_fresh (world_init c) (ainit c) top1 dc1 now ttl
      (str "a.b.example.com") r1 (str "a.b.example") (str "com") data alloc_ok hr0 hs1
      (by decide) hmiss
      ⟨hok, (show ([] : List (Option Cache)).length + 1 < 18446744073709551616 by decide)⟩
      g1 k2
    have hdels := @del_subdomains_hit (World.mk top1 ([] ++ [some dc1])) t2 1 1 (str "com")
      hit dc1 top2 g5 hun (deref_singleton dc1) hdel
    exact ⟨_, _, hset, hdels, domain_get_miss hs2 (hmiss2 t3)⟩
  · obtain ⟨top1, top2, hit, g1, g5, hun, hdel, hmiss2⟩ := top_entry_com c 0 ttl now t2
      (by norm_num) httl hclock ht2 ht2e
    have hset := @domain_set_null (world_init c) (ainit c) top1 now ttl
      (str "a.b.example.com") r1 (str "a.b.example") (str "com") data alloc_ok hr0 hs1
      hmiss (fun h => hok h.1) g1
    have hdels := @del_subdomains_null (World.mk top1 []) t2 1 (str "com") hit top2 g5 hun hdel
    exact ⟨_, _, hset, hdels, domain_get_miss hs2 (hmiss2 t3)⟩

theorem del_subdomains_last_label_witness :
    (∃ w1 w2, cache_set_domain_entry (world_init 200) 1000 (str "a.b.example.com")
        (str ":beef") (str "beef") 86400 true = .ok w1 ∧
      cache_del_subdomains w1 1001 (str "com") = .ok (w2, 1) ∧
      cache_get_domain_entry w2 1002 (str "a.b.example.com") [] = .ok none) ∧
    (∃ w1 w2, cache_set_domain_entry (world_init 200) 1000 (str "a.b.example.com")
        [] (str "1.2.3.4") 86400 false = .ok w1 ∧
      cache_del_subdomains w1 1001 (str "com") = .ok (w2, 1) ∧
      cache_get_domain_entry w2 1002 (str "a.b.example.com") [] = .ok none) :=
  ⟨del_subdomains_last_label 200 (str "beef") (str ":beef") [] 86400 1000 1001 1002 true
    (by decide) (by decide) (by decide) (by decide) (by decide) (by decide),
   del_subdomains_last_label 200 (str "1.2.3.4") [] [] 86400 1000 1001 1002 false
    (by decide) (by decide) (by decide) (by decide) (by decide) (by decide)⟩

end DnsCache

namespace DnsCache

/-! ## Claims on rejected writes, the key splitter and hsize -/

/-- C12. Oversize rejection: in every cache state, `cache_set` (and
`domain_cache_set`) with a key of more than 1000 bytes, or data of more than
1,000,000 bytes, or ttl 0 returns the state it was given: every arena byte,
`writer`, `oldest`, `unused` and the cache-motion counter are as before, so
every later `cache_get` returns what it would have returned before. -/
theorem set_rejects_oversize (s : Cache) (now : Nat) (key data : List Byte) (ttl : Nat)
    (h : key.length > 1000 ∨ data.length > 1000000 ∨ ttl = 0) :
    cache_set s now key data ttl = .ok s ∧ domain_cache_set s now key data ttl = .ok s := by
  have h1 : cache_set s now key data ttl = .ok s := by
    unfold cache_set
    simp only [MAXKEYLEN, MAXDATALEN]
    by_cases a : key.length > 1000
    · rw [if_pos a]
    · rw [if_neg a]
      by_cases b : data.length > 1000000
      · rw [if_pos b]
      · rw [if_neg b, if_pos (by omega)]
  exact ⟨h1, h1⟩

theorem set_rejects_oversize_witness :
    cache_set engine_a 1000 (str "b") (str "uv") 0 = .ok engine_a ∧
      domain_cache_set engine_a 1000 (str "b") (str "uv") 0 = .ok engine_a :=
  set_rejects_oversize engine_a 1000 (str "b") (str "uv") 0 (Or.inr (Or.inr rfl))

/-- C15, evaluated at the failing input.  The test program calls
`cache_set_domain_entry(x, 15, x + 16, 7, 86400)` with
`x = "a.b.example.com:1.2.3.4"`: the key is the 15 bytes "a.b.example.com"
(NUL-free, last '.' at index 11 < 14), followed in memory by ":1.2.3.4".
`str_rchr(key,'.')` does not stop at `keylen`; it returns 21, the index of the
last '.' of the data, `21 < keylen - 1` is false, and the set path yields an
empty subdomain and the 21-byte domain "a.b.example.com:1.2.3" instead of
`key[0..11)` and `key[12..15)`; so does the get path on the same pointer.  The
get path called with the NUL-terminated key, as the test program calls it,
yields "a.b.example" and "com": the two calls split the same key
differently. -/
theorem key_splitter_scans_past_key :
    (str "a.b.example.com").length = 15 ∧ (0 : Byte) ∉ str "a.b.example.com" ∧
    (str "a.b.example.com").get? 11 = some 46 ∧
    (46 : Byte) ∉ (str "a.b.example.com").drop 12 ∧
    str_rchr (str "a.b.example.com" ++ str ":1.2.3.4") 46 = 21 ∧
    set_domain_split (str "a.b.example.com") (str ":1.2.3.4") =
      .ok ([], str "a.b.example.com:1.2.3") ∧
    set_domain_split (str "a.b.example.com") (str ":1.2.3.4") ≠
      .ok ((str "a.b.example.com").take 11, (str "a.b.example.com").drop 12) ∧
    get_domain_split (str "a.b.example.com") (str ":1.2.3.4") =
      .ok ([], str "a.b.example.com:1.2.3") ∧
    get_domain_split (str "a.b.example.com") [] = .ok (str "a.b.example", str "com") := by
  refine ⟨by decide, by decide, by decide, by decide, by decide, by decide, by decide,
    by decide, by decide⟩

/-- The key splitter where no '.' follows the key: for every non-empty
NUL-free key and bytes `rest` after it in memory (up to the NUL) that hold no
'.', with at most 1000 bytes together, the get path and the set path compute
the same split; if the last '.' of the key is at index `i < keylen - 1`, the
split is subdomain `key[0..i)` and domain `key[i+1..keylen)`, and subdomain,
".", domain make up the key; if the key holds no '.', the subdomain is
empty. -/
theorem key_splitter_terminated (key rest : List Byte) (hne : key ≠ [])
    (hnul : (0 : Byte) ∉ key) (hlen : key.length + rest.length ≤ 1000)
    (hrest : (46 : Byte) ∉ rest) :
    get_domain_split key rest = set_domain_split key rest ∧
    (∀ i, i < key.length - 1 → key.get? i = some 46 → (46 : Byte) ∉ key.drop (i + 1) →
      set_domain_split key rest = .ok (key.take i, key.drop (i + 1)) ∧
        key.take i ++ [46] ++ key.drop (i + 1) = key) ∧
    ((46 : Byte) ∉ key → ∃ dom, set_domain_split key rest = .ok ([], dom)) := by
  refine ⟨rfl, ?_, ?_⟩
  · intro i hi hat hlast
    obtain ⟨h1, h2, _⟩ := split_at_index hnul (by omega) hrest hi hat hlast
    exact ⟨h2, h1⟩
  · intro hdot
    obtain ⟨dom, h, _⟩ := split_no_dot hne hnul hlen hdot
    exact ⟨dom, h⟩

/-- C17, counterexample.  `cache_init(100)` keeps size 100 and computes
hsize 4, which is not at most `size / 32 = 3`. -/
theorem cache_init_100_hsize :
    (cache_init 100).size = 100 ∧ (cache_init 100).hsize = 4 ∧
      ¬ (cache_init 100).hsize ≤ (cache_init 100).size / 32 := by
  refine ⟨by decide, by decide, by decide⟩

/-- C17, amended.  For every requested size, `cache_init` (which is also the
body of `domain_cache_init`) clamps the size to [100, 1,000,000,000] and
chooses as hsize the smallest power of two greater than `size / 32`: hsize is
a power of two with `hsize > size / 32` and `hsize / 2 <= size / 32`. -/
theorem hsize_smallest_power (cachesize : Nat) :
    (cache_init cachesize).size = max 100 (min cachesize 1000000000) ∧
    (∃ k, (cache_init cachesize).hsize = 2 ^ k) ∧
    (cache_init cachesize).size / 32 < (cache_init cachesize).hsize ∧
    (cache_init cachesize).hsize / 2 ≤ (cache_init cachesize).size / 32 :=
  ⟨cache_init_size_eq cachesize, cache_init_pow cachesize,
    (cache_init_hsize_exit cachesize).1,
    Nat.div_le_of_le_mul (cache_init_hsize_exit cachesize).2.1⟩

/-- C19. hsize bounds: for every requested size, clamped to
[100, 1,000,000,000], the hsize computed by `cache_init` (which is also the
body of `domain_cache_init`) is a power of two with `4 <= hsize <= size / 16`;
the doubling loop stops by its own condition (`hsize > size >> 5`; a larger
iteration budget gives the same result) and no doubling overflows 32 bits (the
loop in arithmetic without truncation gives the same result); and for every
key, `hash(key)` is a multiple of 4 with `hash(key) <= hsize - 4`. -/
theorem hsize_bounds (cachesize : Nat) :
    100 ≤ (cache_init cachesize).size ∧ (cache_init cachesize).size ≤ 1000000000 ∧
    (∃ k, (cache_init cachesize).hsize = 2 ^ k) ∧
    4 ≤ (cache_init cachesize).hsize ∧
    (cache_init cachesize).hsize ≤ (cache_init cachesize).size / 16 ∧
    (cache_init cachesize).size / 32 < (cache_init cachesize).hsize ∧
    (∀ n, 32 ≤ n →
      hsize_loop n (cache_init cachesize).size 4 = (cache_init cachesize).hsize ∧
      hsize_loop_nat n (cache_init cachesize).size 4 = (cache_init cachesize).hsize) ∧
    ∀ key : List Byte, hash (cache_init cachesize).hsize key % 4 = 0 ∧
      hash (cache_init cachesize).hsize key ≤ (cache_init cachesize).hsize - 4 := by
  have hs := cache_init_size cachesize
  have hh := cache_init_hsize cachesize
  obtain ⟨e1, e2, e3⟩ := cache_init_hsize_exit cachesize
  refine ⟨hs.1, hs.2, cache_init_pow cachesize, hh.1, by omega, e1, e3, ?_⟩
  intro key
  obtain ⟨q1, q2⟩ := hash_slot key (cache_init_pow cachesize) hh.1 (by omega)
  exact ⟨q1, by omega⟩

end DnsCache

namespace DnsCache

/-! ## Claims on the ttl clamp and on writes that cannot fit -/

/-- C13. TTL clamp: on every state reachable from `cache_init` by
`cache_set`, for every ttl above 604800 (key and data within the limits, the
entry fits, a clock that does not wrap within a week), `cache_set(k, d, ttl)`
at time `t` stores the expiry `t + 604800`: `cache_get(k)` at time `t` is a
hit with remaining ttl exactly 604800, and a miss at every time after
`t + 604800`.  And in every state whatsoever, every hit of `cache_get` at time
`now` returns the remaining ttl `min(expiry - now, 604800)`, where `expiry` is
the timestamp of the entry, not before `now`, and the difference is the 64-bit
difference of `tai_sub`. -/
theorem ttl_clamp (s : Cache) (hs : ReachSet s) (k d : List Byte) (ttl t : Nat)
    (hk : k.length ≤ 1000) (hd : d.length ≤ 1000000)
    (hfit : 20 + k.length + d.length ≤ s.size - s.hsize) (httl : 604800 < ttl)
    (hclock : t + 604800 < 18446744073709551616) :
    (∃ s1 hit, cache_set s t k d ttl = .ok s1 ∧ cache_get s1 t k = .ok (some hit) ∧
      tai_unpack s1.x (hit.off - k.length - 8) = t + 604800 ∧ hit.ttl = 604800 ∧
      ∀ t1, t + 604800 < t1 → cache_get s1 t1 k = .ok none) ∧
    ∀ (c : Cache) (now : Nat) (key : List Byte) (h : Hit),
      cache_get c now key = .ok (some h) →
      now ≤ tai_unpack c.x (h.off - key.length - 8) ∧
      h.ttl = min (tai_sub (tai_unpack c.x (h.off - key.length - 8)) now) 604800 ∧
      (tai_unpack c.x (h.off - key.length - 8) < 18446744073709551616 →
        h.ttl = min (tai_unpack c.x (h.off - key.length - 8) - now) 604800) := by
  constructor
  · obtain ⟨s1, w, h1, _, h3, h4⟩ := set_then_get hs k d ttl t t hk hd hfit (by omega)
    have e1 : (if ttl > 604800 then 604800 else ttl) = 604800 := by
      rw [if_pos httl]
    have e2 : tai_add 604800 t = t + 604800 := by
      unfold tai_add; omega
    have hm : min ttl 604800 = 604800 := by omega
    rw [ahit_live (by omega) (le_refl _) (by omega) hclock] at h4
    refine ⟨s1, _, h1, h4, ?_, ?_, ?_⟩
    · show tai_unpack s1.x (w + 20 + k.length - k.length - 8) = _
      have hs3 := h3.2.2.1
      rw [e1, e2] at hs3
      have : w + 20 + k.length - k.length - 8 = w + 12 := by omega
      rw [this]
      exact hs3
    · show t + min ttl 604800 - t = 604800
      omega
    · intro t1 ht1
      obtain ⟨s2, w2, g1, _, _, g4⟩ := set_then_get hs k d ttl t t1 hk hd hfit (by omega)
      rw [h1] at g1
      cases g1
      rw [g4]
      unfold ahit
      simp only [e1, e2]
      rw [if_pos ht1]
  · intro c now key h hg
    obtain ⟨p, q1, q2, q3⟩ := get_hit hg
    have : h.off - key.length - 8 = p + 12 := by omega
    rw [this]
    refine ⟨by omega, q3, ?_⟩
    intro hlt
    rw [q3, tai_sub_exact q2 hlt]

theorem ttl_clamp_witness :
    (∃ s1 hit, cache_set engine_a 1000 (str "b") (str "uv") 1000000 = .ok s1 ∧
      cache_get s1 1000 (str "b") = .ok (some hit) ∧
      tai_unpack s1.x (hit.off - (str "b").length - 8) = 1000 + 604800 ∧ hit.ttl = 604800 ∧
      ∀ t1, 1000 + 604800 < t1 → cache_get s1 t1 (str "b") = .ok none) ∧
    ∀ (c : Cache) (now : Nat) (key : List Byte) (h : Hit),
      cache_get c now key = .ok (some h) →
      now ≤ tai_unpack c.x (h.off - key.length - 8) ∧
      h.ttl = min (tai_sub (tai_unpack c.x (h.off - key.length - 8)) now) 604800 ∧
      (tai_unpack c.x (h.off - key.length - 8) < 18446744073709551616 →
        h.ttl = min (tai_unpack c.x (h.off - key.length - 8) - now) 604800) :=
  ttl_clamp engine_a engine_a_reach (str "b") (str "uv") 1000000 1000
    (by decide) (by decide) (by decide) (by decide) (by decide)

/-- C20. A write that cannot fit flushes the cache: on every state reachable
from `cache_init` by `cache_set`, `cache_set(k, d, ttl)` with a key of at most
1000 bytes, data of at most 1,000,000 bytes, ttl at least 1 and
`20 + keylen + datalen > size - hsize` returns, leaves size, hsize and the
cache-motion counter unchanged, and leaves an empty cache: `writer = hsize`,
`oldest = unused = size`, every head slot is 0 and `cache_get` misses for every
key at every time. -/
theorem set_too_large_flushes (s : Cache) (hs : ReachSet s) (now : Nat) (k d : List Byte)
    (ttl : Nat) (hk : k.length ≤ 1000) (hd : d.length ≤ 1000000) (httl : 1 ≤ ttl)
    (hbig : 20 + k.length + d.length > s.size - s.hsize) :
    ∃ s1, cache_set s now k d ttl = .ok s1 ∧ s1.size = s.size ∧ s1.hsize = s.hsize ∧
      s1.cache_motion = s.cache_motion ∧ s1.writer = s1.hsize ∧ s1.oldest = s1.size ∧
      s1.unused = s1.size ∧
      (∀ h, h % 4 = 0 → h + 4 ≤ s1.hsize → uint32_unpack s1.x h = 0) ∧
      ∀ t key, cache_get s1 t key = .ok none := by
  obtain ⟨a, hr⟩ := reach_rep hs
  have w := hr.wf
  obtain ⟨a1, s1, g1, g2, g3⟩ := set_rep hr now k d ttl
  have hbig2 : a.size < a.hsize + (k.length + d.length + 20) := by
    have := w.le1; have := w.le2; have := w.le3; have := w.le4
    rw [← hr.size_eq, ← hr.hsize_eq]
    omega
  obtain ⟨f1, f2, f3, f4, f5, f6, f7, f8⟩ := aset_flush w hk hd httl hbig2 g1
  refine ⟨s1, g2, ?_, ?_, ?_, ?_, ?_, ?_, ?_, ?_⟩
  · rw [g3.size_eq, f2, hr.size_eq]
  · rw [g3.hsize_eq, f3, hr.hsize_eq]
  · rw [g3.motion_eq, f4, hr.motion_eq]
  · rw [g3.writer_eq, g3.hsize_eq, f5]
  · rw [g3.oldest_eq, g3.size_eq, f6]
  · rw [g3.unused_eq, g3.size_eq, f7]
  · intro h h1 h2
    have hc := g3.chains h h1 (by rw [← g3.hsize_eq]; exact h2)
    rw [f8] at hc
    simpa [bucket, Chain] using hc.1
  · intro t key
    rw [get_rep g3 t key, aget_absent key (fun x hx => by rw [f8] at hx; cases hx) t]

theorem set_too_large_flushes_witness :
    ∃ s1, cache_set engine_a 1000 (str "b") (List.replicate 80 7) 10 = .ok s1 ∧
      s1.size = engine_a.size ∧ s1.hsize = engine_a.hsize ∧
      s1.cache_motion = engine_a.cache_motion ∧ s1.writer = s1.hsize ∧ s1.oldest = s1.size ∧
      s1.unused = s1.size ∧
      (∀ h, h % 4 = 0 → h + 4 ≤ s1.hsize → uint32_unpack s1.x h = 0) ∧
      ∀ t key, cache_get s1 t key = .ok none :=
  set_too_large_flushes engine_a engine_a_reach 1000 (str "b") (List.replicate 80 7) 10
    (by decide) (by decide) (by decide) (by decide)

end DnsCache

namespace DnsCache

/-! ## Claim on the hop limit of the chain walk -/

/-- C11, counterexample.  In an arena of 2400 bytes (`hsize` 128) the 103
keys of `flood_items` are distinct, hash to one head slot and are all stored
without eviction (103 entries of 22 bytes).  The key `[3, 3]` was written
third, so 100 newer entries precede it and it is at position 101 of the chain;
`cache_get` of it is a hit. -/
theorem flood_position_101_hits :
    flood_items.length = 103 ∧
    (cache_init 2400).hsize + 103 * 22 ≤ (cache_init 2400).size ∧
    (flood_items.map Ins.key).Nodup ∧
    (∀ it ∈ flood_items, it.key.length + it.data.length + 20 = 22 ∧
      hash (cache_init 2400).hsize it.key = hash (cache_init 2400).hsize [1, 1]) ∧
    flood_items.drop 2 = Ins.mk [3, 3] [] 10 1000 :: flood_items.drop 3 ∧
    (flood_items.drop 3).length = 100 ∧
    (set_seq (cache_init 2400) flood_items).bind (fun s => cache_get s 1000 [3, 3]) =
      .ok (some (Hit.mk 194 0 10)) := by
  refine ⟨by decide, by decide, by decide, by decide, by decide, by decide, ?_⟩
  obtain ⟨a1, s1, h1, h2, h3⟩ := seq_rep flood_items (init_rep 2400)
  rw [h2, Res.bind_ok, get_rep h3]
  have h : (aset_seq (ainit 2400) flood_items).bind (fun a => some (aget a 1000 [3, 3])) =
      some (some (Hit.mk 194 0 10)) := by decide
  rw [h1] at h
  simpa using h

/-- C11, amended.  In a state built from `cache_init` by writing distinct
keys that all hash to the same head slot, with no eviction (keys and data
within the limits, ttl at least 1, the entries fit the arena together),
`cache_get(k)` at a time `T` at which no entry has expired returns the stored
data for every key at positions 1..101 of the chain counted from the head
(newest = position 1), and a miss for every key beyond position 101: the chain
walk examines 101 entries before `++loop > 100` stops it. -/
theorem hash_flood_bound (c : Nat) (items : List Ins) (T h0 : Nat)
    (hv : ∀ it ∈ items, it.key.length ≤ 1000 ∧ it.data.length ≤ 1000000 ∧ 1 ≤ it.ttl ∧
      it.now + 604800 < 18446744073709551616 ∧ T ≤ it.now + min it.ttl 604800)
    (hfit : (cache_init c).hsize +
      (items.map fun it => it.key.length + it.data.length + 20).sum ≤ (cache_init c).size)
    (hdist : (items.map Ins.key).Nodup)
    (hcoll : ∀ it ∈ items, hash (cache_init c).hsize it.key = h0) :
    ∃ s, set_seq (cache_init c) items = .ok s ∧
      ∀ older it newer, items = older ++ it :: newer →
        (newer.length + 1 ≤ 101 →
          ∃ hit, cache_get s T it.key = .ok (some hit) ∧ hit.datalen = it.data.length ∧
            byte_read s.x hit.off hit.datalen = it.data.map Fin.val) ∧
        (101 < newer.length + 1 → cache_get s T it.key = .ok none) := by
  obtain ⟨a, ents, g1, _, g3, _, _, g7, g8, g9⟩ := fill_seq_sum items (ainit_wf c)
    (rfl : (ainit c).hi = []) (rfl : (ainit c).oldest = (ainit c).size)
    (fun it hit => ⟨(hv it hit).1, (hv it hit).2.1, (hv it hit).2.2.1⟩) hfit
  obtain ⟨a1, s, h1, h2, hr⟩ := seq_rep items (init_rep c)
  rw [g1] at h1
  cases h1
  have hall : a.all = ents := by
    show a.lo ++ a.hi = ents
    rw [g8, g3]
    show ents ++ [] ++ [] = ents
    simp
  have hhs : s.hsize = (cache_init c).hsize := by rw [hr.hsize_eq, g7]; rfl
  refine ⟨s, h2, ?_⟩
  intro older it newer hsplit
  subst hsplit
  rw [← hall] at g9
  obtain ⟨v1, _, v3, v4, v5⟩ := hv it (List.mem_append_right _ (List.mem_cons_self _ _))
  have hcount : (newer.filter
      (fun j => decide (hash s.hsize j.key = hash s.hsize it.key))).length = newer.length := by
    apply filter_all
    intro j hj
    rw [hhs, hcoll j (List.mem_append_right _ (List.mem_cons_of_mem _ hj)),
      hcoll it (List.mem_append_right _ (List.mem_cons_self _ _))]
    simp
  have hlive : T ≤ tai_add (if it.ttl > 604800 then 604800 else it.ttl) it.now := by
    have e1 : (if it.ttl > 604800 then 604800 else it.ttl) = min it.ttl 604800 := by
      split <;> omega
    have hm : min it.ttl 604800 ≤ 604800 := Nat.min_le_right _ _
    rw [e1]
    unfold tai_add
    omega
  have hle : newer.length + 1 ≤ 101 → newer.length ≤ 100 := fun h => by omega
  have hge : 101 < newer.length + 1 → 101 ≤ newer.length := fun h => by omega
  obtain ⟨p1, p2⟩ := get_in_view hr g9 hdist v1 T
  rw [hcount] at p1 p2
  exact ⟨fun hpos => p1 (hle hpos) hlive, fun hpos => p2 (hge hpos)⟩

theorem hash_flood_bound_witness :
    ∃ s, set_seq (cache_init 100) [small_item 97, small_item 98] = .ok s ∧
      ∀ older it newer, [small_item 97, small_item 98] = older ++ it :: newer →
        (newer.length + 1 ≤ 101 →
          ∃ hit, cache_get s 1005 it.key = .ok (some hit) ∧ hit.datalen = it.data.length ∧
            byte_read s.x hit.off hit.datalen = it.data.map Fin.val) ∧
        (101 < newer.length + 1 → cache_get s 1005 it.key = .ok none) :=
  hash_flood_bound 100 [small_item 97, small_item 98] 1005 0
    (by decide) (by decide) (by decide) (by decide)

end DnsCache

namespace DnsCache

/-! ## Claim on the order of the bucket chains -/

/-- C18. Chain-order invariant: after `cache_init` and any sequence of
`cache_set` calls, the live entries form two lists `lo` and `hi`, each newest
first, that tile `[hsize, writer)` and `[oldest, unused)` and are stored in the
arena; taken together they are the most recent stored writes, newest first;
and for every head slot the walk by the xor-link rule visits exactly the live
entries whose key hashes to that slot, in that newest-to-oldest order, and ends
at 0.  The same holds after any number `j` of iterations of the eviction loop
for the entries that remain, which are all but the `j` oldest: the entry that
the next iteration evicts, at offset `oldest`, is the oldest of them, hence
the tail of its chain, and unlinking it leaves the walks of the others as they
were. -/
theorem chain_order (c : Nat) (items : List Ins) :
    ∃ s lo hi, set_seq (cache_init c) items = .ok s ∧
      Tiles s.writer s.hsize lo ∧ Tiles s.unused s.oldest hi ∧
      (∀ e ∈ lo ++ hi, Stored s.x e) ∧
      (∃ k, (lo ++ hi).map Ent.view =
        (((items.filter (Ins.stores c)).reverse).take k).map Ins.view) ∧
      ∀ j, j ≤ (lo ++ hi).length → ∃ sj, evict_iter j s = .ok sj ∧
        (∀ h, h % 4 = 0 → h + 4 ≤ s.hsize →
          bucket_walk sj h =
            some ((bucket s.hsize h ((lo ++ hi).take ((lo ++ hi).length - j))).map Ent.pos)) ∧
        (∀ o, j < (lo ++ hi).length → (lo ++ hi).get? ((lo ++ hi).length - j - 1) = some o →
          (cache_set_wrap sj).oldest = o.pos) := by
  obtain ⟨a, s, h1, h2, hr⟩ := seq_rep items (init_rep c)
  obtain ⟨w, _, _, hk⟩ := aset_seq_order c items a h1
  refine ⟨s, a.lo, a.hi, h2, ?_, ?_, hr.stored, hk, ?_⟩
  · rw [hr.writer_eq, hr.hsize_eq]
    exact w.tiles_lo
  · rw [hr.unused_eq, hr.oldest_eq]
    exact w.tiles_hi
  · intro j hj
    obtain ⟨sj, aj, k1, k2, k3, _, k5⟩ := evict_iter_rep j hr hj
    refine ⟨sj, k1, ?_, ?_⟩
    · intro h q1 q2
      have hw := rep_walk k2 q1 (by rw [k5, ← hr.hsize_eq]; exact q2)
      rw [k5, k3, ← hr.hsize_eq] at hw
      exact hw
    · intro o hlt ho
      exact evict_iter_next k2 k3 hlt ho

end DnsCache

namespace DnsCache

/-! ## Claim on sibling subdomains -/

end DnsCache

